import Mathlib

/-!
# HTTP-Profiler: a shallow embedding of `main.go`

The development follows the Go source function by function.

* Go `int` is the 64-bit two's-complement integer; it is embedded as `Int`, and
  `wrap64` is applied wherever the source performs integer arithmetic that can leave the
  range.
* Go `float32` is IEEE-754 binary32 with round-to-nearest, ties-to-even.  A finite value is
  embedded as the rational number it denotes (`F32.fin`), the two zeros are identified.
  Every conversion and every arithmetic operation rounds once (`F32.round`); the source has
  no expression of the form `x * y + z` that a compiler could fuse.
* A Go `string` is its sequence of bytes, embedded as `List Char` (one `Char` per byte).
* A Go function that can stop the process (`os.Exit`) or raise a run-time panic returns a
  `Run` value.
-/

namespace HTTPProfiler

/-! ## Outcomes of running a Go function -/

/-- The outcome of running a Go function: a normal return, a call of `os.Exit` after
printing `stdout`, or a run-time panic (index or slice bound out of range). -/
inductive Run (α : Type) where
  | ret (a : α) : Run α
  | exit (stdout : String) (code : Int) : Run α
  | panic : Run α
  deriving DecidableEq, Repr

/-- Sequencing of outcomes: the first abnormal outcome wins. -/
def Run.bind {α β : Type} : Run α → (α → Run β) → Run β
  | .ret a, f => f a
  | .exit s c, _ => .exit s c
  | .panic, _ => .panic

instance : Monad Run where
  pure := Run.ret
  bind := Run.bind

/-! ## Machine integers -/

/-- The constant `math.MaxInt64`. -/
def MaxInt64 : Int := 2 ^ 63 - 1

/-- The constant `math.MinInt64`. -/
def MinInt64 : Int := -(2 ^ 63)

/-- The values of the Go type `int` (64 bit). -/
def isInt64 (i : Int) : Prop := MinInt64 ≤ i ∧ i ≤ MaxInt64

instance (i : Int) : Decidable (isInt64 i) := by
  unfold isInt64; infer_instance

/-- Two's-complement wrap-around of an integer result to 64 bits. -/
def wrap64 (i : Int) : Int := (i + 2 ^ 63) % 2 ^ 64 - 2 ^ 63

/-- The Go index expression `xs[i]`: a run-time panic when `i` is out of range. -/
def index {α : Type} (xs : List α) (i : Int) : Run α :=
  if 0 ≤ i ∧ i < (xs.length : Int) then
    match xs[i.toNat]? with
    | some a => .ret a
    | none => .panic
  else .panic

/-! ## IEEE-754 binary32 -/

/-- A value of the Go type `float32`: a finite number (given by the rational it denotes),
an infinity, or a NaN. -/
inductive F32 where
  | fin (q : ℚ) : F32
  | inf (neg : Bool) : F32
  | nan : F32
  deriving DecidableEq

/-- The binary exponent used to round `q`: `⌊log₂ |q|⌋`, and the least normal exponent
`-126` in the subnormal range. -/
def binade (q : ℚ) : ℤ := max (Int.log 2 |q|) (-126)

/-- The spacing of binary32 numbers around `q` (24 significant bits). -/
def ulp (q : ℚ) : ℚ := (2 : ℚ) ^ (binade q - 23)

/-- Rounding of a rational to the nearest integer, ties to the even one. -/
def roundHalfEven (x : ℚ) : ℤ :=
  let f := ⌊x⌋
  let d := x - f
  if d < 1 / 2 then f
  else if 1 / 2 < d then f + 1
  else if f % 2 = 0 then f else f + 1

/-- Rounding of a rational to binary32 precision, exponent range unbounded above. -/
def round32 (q : ℚ) : ℚ := (roundHalfEven (q / ulp q) : ℚ) * ulp q

/-- Rounding of a real result to `float32`: overflow gives an infinity. -/
def F32.round (q : ℚ) : F32 :=
  let r := round32 q
  if (2 : ℚ) ^ 128 ≤ |r| then .inf (decide (q < 0)) else .fin r

/-- The conversion `float32(i)` of a Go `int`, and the conversion of an integer constant. -/
def F32.ofInt (i : Int) : F32 := F32.round (i : ℚ)

/-- The `float32` negation. -/
def F32.neg : F32 → F32
  | .fin a => .fin (-a)
  | .inf s => .inf (!s)
  | .nan => .nan

/-- The `float32` subtraction `x - y`. -/
def F32.sub : F32 → F32 → F32
  | .fin a, .fin b => F32.round (a - b)
  | .fin _, .inf s => .inf (!s)
  | .inf s, .fin _ => .inf s
  | .inf s, .inf t => if s = t then .nan else .inf s
  | _, _ => .nan

/-- The `float32` product `x * y`. -/
def F32.mul : F32 → F32 → F32
  | .fin a, .fin b => F32.round (a * b)
  | .fin a, .inf s => if a = 0 then .nan else .inf (xor (decide (a < 0)) s)
  | .inf s, .fin b => if b = 0 then .nan else .inf (xor s (decide (b < 0)))
  | .inf s, .inf t => .inf (xor s t)
  | _, _ => .nan

/-- The `float32` quotient `x / y`; a division by zero is not a panic in Go, it gives an
infinity or a NaN. -/
def F32.div : F32 → F32 → F32
  | .fin a, .fin b =>
    if b = 0 then (if a = 0 then .nan else .inf (decide (a < 0))) else F32.round (a / b)
  | .fin _, .inf _ => .fin 0
  | .inf s, .fin b => .inf (xor s (decide (b < 0)))
  | _, _ => .nan

/-- A `float32` that is a number, neither an infinity nor a NaN. -/
def F32.isFinite : F32 → Bool
  | .fin _ => true
  | _ => false

/-! ## `calculateStats` -/

/-- The struct `Diagnostic`. -/
structure Diagnostic where
  RequestCount : Int
  FastestTime : Int
  SlowestTime : Int
  MeanTime : F32
  MedianTime : F32
  PercentSuccess : F32
  ErrorCodes : List Int
  SmallestResponse : Int
  LargestResponse : Int
  deriving DecidableEq

/-- The library call `sort.Ints`: the slice in ascending order.  The ascending arrangement
of a list of integers is unique, so the sorting algorithm cannot be observed. -/
def sortInts (xs : List Int) : List Int := xs.insertionSort (· ≤ ·)

/-- The test `(200 <= status) && (status <= 299)` of source line 201. -/
def isSuccess (status : Int) : Bool := decide (200 ≤ status) && decide (status ≤ 299)

/-- The loop of `calculateStats` over `respStatusCodes` (source lines 200-206): a status in
`[200,299]` is skipped, any other is appended to `failueCodes`. -/
def failureLoop (respStatusCodes : List Int) : List Int :=
  respStatusCodes.foldl
    (fun failueCodes status => if isSuccess status then failueCodes else failueCodes ++ [status])
    []

/-- One iteration of the loop of `calculateStats` over `respByteSize` (source lines
213-220) on the pair `(smallestResponse, largestResponse)`. -/
def sizeStep (acc : Int × Int) (respSize : Int) : Int × Int :=
  let smallestResponse := if respSize < acc.1 then respSize else acc.1
  let largestResponse := if respSize > acc.2 then respSize else acc.2
  (smallestResponse, largestResponse)

/-- The loop of `calculateStats` over `respByteSize`, started from the sentinels
`math.MaxInt64` and `-1`. -/
def sizeLoop (respByteSize : List Int) : Int × Int :=
  respByteSize.foldl sizeStep (MaxInt64, -1)

/-- The text printed on the fatal path of `calculateStats`. -/
def notEnoughMsg : String := "Didn't profile enough things! Something went wrong\n"

/-- The function `calculateStats` (source lines 173-223). -/
def calculateStats (requestCount : Int) (respTimes : List Int) (totalTime : Int)
    (respStatusCodes : List Int) (respByteSize : List Int) : Run Diagnostic :=
  if respTimes.length ≤ 1 then
    .exit notEnoughMsg 1
  else
    let sorted := sortInts respTimes
    let len : Int := sorted.length
    (index sorted (len - 1)).bind fun slowestTime =>
    (index sorted 0).bind fun fastestTime =>
    let meanTime := F32.div (F32.ofInt totalTime) (F32.ofInt requestCount)
    let midPoint := len / 2
    (if len % 2 = 1 then
        (index sorted midPoint).bind fun m => .ret (F32.ofInt m)
      else
        (index sorted (midPoint - 1)).bind fun a =>
        (index sorted midPoint).bind fun b =>
        .ret (F32.div (F32.ofInt (wrap64 (a + b))) (F32.ofInt 2))).bind fun medianTime =>
    let failueCodes := failureLoop respStatusCodes
    let percentSuccess :=
      F32.mul
        (F32.div (F32.sub (F32.ofInt requestCount) (F32.ofInt failueCodes.length))
          (F32.ofInt requestCount))
        (F32.ofInt 100)
    let sizes := sizeLoop respByteSize
    .ret ⟨requestCount, fastestTime, slowestTime, meanTime, medianTime, percentSuccess,
      failueCodes, sizes.1, sizes.2⟩

/-- Closed form of the median that `calculateStats` computes from the sorted times `s`
(source lines 190-195); `calculateStats_ret` proves that it is the value returned. -/
def medianOf (s : List Int) : F32 :=
  if s.length % 2 = 1 then F32.ofInt (s.getD (s.length / 2) 0)
  else F32.div (F32.ofInt (wrap64 (s.getD (s.length / 2 - 1) 0 + s.getD (s.length / 2) 0)))
    (F32.ofInt 2)

/-- Closed form of `percentSuccess` (source line 207) from the count and the number of
failure codes; `calculateStats_ret` proves that it is the value returned. -/
def percentOf (requestCount : Int) (failures : Nat) : F32 :=
  F32.mul
    (F32.div (F32.sub (F32.ofInt requestCount) (F32.ofInt failures)) (F32.ofInt requestCount))
    (F32.ofInt 100)

/-! ## Strings and the library calls of `handleResponse` -/

/-- A Go string: its sequence of bytes. -/
abbrev GoString := List Char

/-- The separator used to cut the response into lines. -/
def CRLF : GoString := ['\r', '\n']

/-- The separator used to cut a line into fields. -/
def COLON : GoString := [':']

/-- The marker that `handleResponse` looks for in a status line. -/
def HTTP : GoString := ['H', 'T', 'T', 'P']

/-- Worker of `stringsSplit`: scans `s` from the left; `skip` counts the bytes of a
separator just matched that are still to be passed over. -/
def splitAux (sep : GoString) : GoString → Nat → List GoString
  | [], _ => [[]]
  | _ :: rest, k + 1 => splitAux sep rest k
  | c :: rest, 0 =>
    if sep.isPrefixOf (c :: rest) then [] :: splitAux sep rest (sep.length - 1)
    else
      match splitAux sep rest 0 with
      | p :: ps => (c :: p) :: ps
      | [] => [[c]]

/-- The library call `strings.Split(s, sep)` for a non-empty separator: the substrings of
`s` between the non-overlapping occurrences of `sep`, found from the left; one more piece
than there are occurrences. -/
def stringsSplit (s sep : GoString) : List GoString := splitAux sep s 0

/-- The library call `strings.Contains(s, substr)`. -/
def stringsContains : GoString → GoString → Bool
  | [], substr => substr.isEmpty
  | c :: rest, substr => substr.isPrefixOf (c :: rest) || stringsContains rest substr

/-- The Go slice expression `s[lo:hi]` on a string: a run-time panic unless
`lo ≤ hi ≤ len(s)`. -/
def slice (s : GoString) (lo hi : Nat) : Run GoString :=
  if lo ≤ hi ∧ hi ≤ s.length then .ret ((s.drop lo).take (hi - lo)) else .panic

/-- The value of a run of decimal digits. -/
def digitsValue (ds : GoString) : Nat :=
  ds.foldl (fun n ch => n * 10 + (ch.toNat - '0'.toNat)) 0

/-- The two errors of the package `strconv`: `ErrSyntax` and `ErrRange`. -/
inductive NumError where
  | invalid : NumError
  | outOfRange : NumError
  deriving DecidableEq, Repr

/-- The loop of the library function `strconv.ParseUint(s, 10, 64)` from the value `n`
read so far: the bytes are taken from the left; a byte that is not a decimal digit is a
syntax error, a value above `2 ^ 64 - 1` is a range error, whichever comes first. -/
def parseUintLoop : GoString → Nat → Except NumError Nat
  | [], n => .ok n
  | c :: rest, n =>
    if c.isDigit = true then
      if 2 ^ 64 - 1 < n * 10 + (c.toNat - '0'.toNat) then .error .outOfRange
      else parseUintLoop rest (n * 10 + (c.toNat - '0'.toNat))
    else .error .invalid

/-- The library call `strconv.Atoi(s)` with the error discarded, as the source does
(`x, _ = strconv.Atoi(s)`).  After an optional sign the digits are read by
`strconv.ParseUint`: no digit at all, or a byte that is not a digit met before any
overflow, is a syntax error and gives `0`; a range error, also one met before a later
byte that is not a digit, gives the largest or smallest `int`; otherwise the number is
given, clamped to the range of `int`. -/
def atoi (s : GoString) : Int :=
  let neg := s.head? = some '-'
  let ds := if s.head? = some '-' ∨ s.head? = some '+' then s.tail else s
  if ds = [] then 0
  else
    match parseUintLoop ds 0 with
    | .error .invalid => 0
    | .error .outOfRange => if neg then MinInt64 else MaxInt64
    | .ok un =>
      if neg then (if 2 ^ 63 < un then MinInt64 else -(un : Int))
      else (if 2 ^ 63 ≤ un then MaxInt64 else (un : Int))

/-! ## `handleResponse` -/

/-- The struct `HTTPResponse`; every field starts at the zero value of its type. -/
structure HTTPResponse where
  Status : Int := 0
  Date : GoString := []
  ContentType : GoString := []
  ContentLength : Int := 0
  Connection : GoString := []
  SetCookie : GoString := []
  cfrequestid : GoString := []
  ExpectCT : GoString := []
  ReportTo : GoString := []
  NEL : GoString := []
  Server : GoString := []
  CFRay : GoString := []
  Body : GoString := []
  deriving DecidableEq, Repr

/-- The chain of comparisons of source lines 103-125: the field named by `response_type`
receives `response_field`; an unknown name changes nothing. -/
def assignField (response : HTTPResponse) (response_type response_field : GoString) :
    HTTPResponse :=
  if response_type = "Date".toList then { response with Date := response_field }
  else if response_type = "ContentType".toList then
    { response with ContentType := response_field }
  else if response_type = "Content-Length".toList then
    { response with ContentLength := atoi response_field }
  else if response_type = "Connection".toList then
    { response with Connection := response_field }
  else if response_type = "Set-Cookie".toList then
    { response with SetCookie := response_field }
  else if response_type = "cf-request-id".toList then
    { response with cfrequestid := response_field }
  else if response_type = "Expect-CT".toList then { response with ExpectCT := response_field }
  else if response_type = "Report-To".toList then { response with ReportTo := response_field }
  else if response_type = "NEL".toList then { response with NEL := response_field }
  else if response_type = "Server".toList then { response with Server := response_field }
  else if response_type = "CF-Ray".toList then { response with CFRay := response_field }
  else response

/-- Source lines 101-125: the header path of the loop body.  Both index expressions can
panic. -/
def headerLine (response : HTTPResponse) (line_split : List GoString) :
    Run (HTTPResponse × Bool) :=
  (index line_split 0).bind fun response_type =>
  (index line_split 1).bind fun response_field =>
  .ret (assignField response response_type response_field, false)

/-- One iteration of the loop of `handleResponse` (source lines 89-125) on the pair
`(response, bodyStart)`. -/
def handleLine (st : HTTPResponse × Bool) (line : GoString) : Run (HTTPResponse × Bool) :=
  let line_split := stringsSplit line COLON
  if st.2 = true ∨ line.length = 0 then
    .ret ({ st.1 with Body := st.1.Body ++ line }, true)
  else if line_split.length = 1 then
    (index line_split 0).bind fun first =>
    if stringsContains first HTTP = true then
      (slice first 9 12).bind fun digits => .ret ({ st.1 with Status := atoi digits }, false)
    else headerLine st.1 line_split
  else headerLine st.1 line_split

/-- The loop of `handleResponse` over the lines of the response. -/
def handleLines : List GoString → HTTPResponse × Bool → Run (HTTPResponse × Bool)
  | [], st => .ret st
  | line :: rest, st => (handleLine st line).bind (handleLines rest)

/-- The function `handleResponse` (source lines 83-128). -/
def handleResponse (response_str : GoString) : Run HTTPResponse :=
  (handleLines (stringsSplit response_str CRLF) ({}, false)).bind fun st => .ret st.1

/-- The eleven field names that `assignField` compares with (source lines 103-123). -/
def recognisedNames : List GoString :=
  ["Date".toList, "ContentType".toList, "Content-Length".toList, "Connection".toList,
    "Set-Cookie".toList, "cf-request-id".toList, "Expect-CT".toList, "Report-To".toList,
    "NEL".toList, "Server".toList, "CF-Ray".toList]

/-! ## Measurements -/

/-- The struct `Profile`: one measurement. -/
structure Profile where
  StatusCode : Int
  Time : Int
  Size : Int
  deriving DecidableEq, Repr

/-! ## `request` and `asyncRequest` -/

/-- What the network does during one call of `request`: the error of
`tls.DialWithDialer` (if any) and the text `fmt.Println` gives for the returned connection,
the error of `conn.Write` (if any), the result of `ioutil.ReadAll`, and the value of
`time.Since(startTime)` in nanoseconds. -/
structure Network where
  dialErr : Option String
  connText : String
  writeErr : Option String
  readAll : Except String GoString
  elapsed : Int

/-- The function `request` (source lines 54-81): each of the three error paths prints a
message and calls `os.Exit(0)`. -/
def request (net : Network) : Run (GoString × Int) :=
  match net.dialErr with
  | some err => .exit ("Connection error: " ++ err ++ "\n" ++ net.connText ++ "\n") 0
  | none =>
    match net.writeErr with
    | some err => .exit ("Write error: " ++ err ++ "\n") 0
    | none =>
      match net.readAll with
      | .error err => .exit ("Problem with read: " ++ err ++ "\n") 0
      | .ok response => .ret (response, net.elapsed)

/-- The method `Duration.Milliseconds`: nanoseconds to whole milliseconds, truncated. -/
def milliseconds (d : Int) : Int := Int.tdiv d 1000000

/-- The function `asyncRequest` (source lines 145-150) up to its last statement: the
measurement that it then sends on the channel. -/
def asyncRequest (net : Network) : Run Profile :=
  (request net).bind fun res =>
  (handleResponse res.1).bind fun formatted_response =>
  .ret ⟨formatted_response.Status, milliseconds res.2, (res.1.length : Int)⟩

/-! ## `profile`: the collection loop -/

/-- The variables `respTimes`, `respStatusCodes`, `respByteSize` and `totalTime` of
`profile`. -/
structure Collected where
  respTimes : List Int := []
  respStatusCodes : List Int := []
  respByteSize : List Int := []
  totalTime : Int := 0
  deriving DecidableEq, Repr

/-- The body of the second loop of `profile` (source lines 164-168) once `prof` has been
received. -/
def collectStep (acc : Collected) (prof : Profile) : Collected :=
  { respTimes := acc.respTimes ++ [prof.Time]
    respStatusCodes := acc.respStatusCodes ++ [prof.StatusCode]
    respByteSize := acc.respByteSize ++ [prof.Size]
    totalTime := wrap64 (acc.totalTime + prof.Time) }

/-- The second loop of `profile` (source lines 163-169), from the value `i` of its counter,
with the channel given as the sequence of measurements that it delivers.  The result is
`none` when a receive finds no measurement: `<-channel` then blocks for ever.  The counter
stays below `requestCount`, so `i + 1` cannot overflow. -/
def collectLoop (requestCount : Int) : Int → List Profile → Collected → Option Collected
  | i, [], acc => if i < requestCount then none else some acc
  | i, prof :: channel, acc =>
    if i < requestCount then collectLoop requestCount (i + 1) channel (collectStep acc prof)
    else some acc

/-- The function `profile` (source lines 152-171) after the goroutines are started: the
collection loop and the call of `calculateStats`, whose result goes to `printProfile`. -/
def profile (requestCount : Int) (channel : List Profile) : Option (Run Diagnostic) :=
  (collectLoop requestCount 0 channel {}).map fun c =>
    calculateStats requestCount c.respTimes c.totalTime c.respStatusCodes c.respByteSize

/-! ## `main` -/

/-- What `main` does that can be seen from outside: a line printed with `fmt.Println`, a
call of `request`, a call of `profile`. -/
inductive Event where
  | println (text : GoString) : Event
  | request : Event
  | profile (requestCount : Int) : Event
  deriving DecidableEq, Repr

/-- The function `main` (source lines 239-258) after the flags and the URL are parsed, for
the value `profilePtr` of the flag `-profile`: the events in order, and how `main` ends.
What happens inside the call of `profile` is the subject of `profile`, not of `main`. -/
def main (profilePtr : Int) (net : Network) : List Event × Run Unit :=
  let warning : List Event :=
    if profilePtr < 0 then [.println "Not a valid number of requests".toList] else []
  if profilePtr > 1 then (warning ++ [.profile profilePtr], .ret ())
  else
    match request net with
    | .ret res =>
      match handleResponse res.1 with
      | .ret formatted_response =>
        (warning ++ [.request, .println formatted_response.Body], .ret ())
      | .exit s c => (warning ++ [.request], .exit s c)
      | .panic => (warning ++ [.request], .panic)
    | .exit s c => (warning ++ [.request], .exit s c)
    | .panic => (warning ++ [.request], .panic)

/-! ## `profile`: the goroutines and the channel

The first loop of `profile` starts one goroutine per request; each runs `asyncRequest`,
which computes its measurement and then sends it on the unbuffered channel; the second loop
receives.  A send on an unbuffered channel completes only together with a receive, so a
goroutine that has computed its measurement waits until the second loop takes it.  The
scheduler is free to order these steps; each order is a list of moves. -/

/-- Where a goroutine started by `go asyncRequest(url, channel)` stands: still in `request`
and `handleResponse`, blocked in the send `channel <- prof`, or returned. -/
inductive Task where
  | running : Task
  | sending (prof : Profile) : Task
  | finished : Task
  deriving DecidableEq, Repr

/-- The state of `profile`: the number of goroutines started by the first loop, the state
of each of them, and what the second loop has received so far, in arrival order.  Next to
each received measurement stands the number of the goroutine that sent it; the program
itself sees only the measurement. -/
structure Sched where
  launched : Nat
  tasks : List Task
  received : List (Nat × Profile)
  deriving DecidableEq, Repr

/-- One step of the system: the first loop starts the next goroutine; goroutine `j`
completes `request` and `handleResponse`; the second loop receives from goroutine `j`. -/
inductive Move where
  | launch : Move
  | compute (j : Nat) : Move
  | receive (j : Nat) : Move
  deriving DecidableEq, Repr

/-- The effect of a move, `none` when the move is not possible in this state.  `nets j` is
what the network does for goroutine `j`.  A receive is possible only after the first loop
has ended, while the second loop still runs, and from a goroutine blocked in its send.
A goroutine whose `asyncRequest` does not return ends the whole process: no state
follows. -/
def step (count : Nat) (nets : Nat → Network) (s : Sched) : Move → Option Sched
  | .launch =>
    if s.launched < count then
      some { s with launched := s.launched + 1, tasks := s.tasks ++ [Task.running] }
    else none
  | .compute j =>
    match s.tasks[j]? with
    | some .running =>
      match asyncRequest (nets j) with
      | .ret prof => some { s with tasks := s.tasks.set j (.sending prof) }
      | _ => none
    | _ => none
  | .receive j =>
    if s.launched = count ∧ s.received.length < count then
      match s.tasks[j]? with
      | some (.sending prof) =>
        some { s with tasks := s.tasks.set j .finished, received := s.received ++ [(j, prof)] }
      | _ => none
    else none

/-- A run of the system along a list of moves. -/
def runMoves (count : Nat) (nets : Nat → Network) : Sched → List Move → Option Sched
  | s, [] => some s
  | s, m :: ms =>
    match step count nets s m with
    | some s2 => runMoves count nets s2 ms
    | none => none

/-- The state in which `profile` is entered. -/
def Sched.init : Sched := ⟨0, [], []⟩

/-- Both loops of `profile` have ended. -/
def Sched.done (count : Nat) (s : Sched) : Prop :=
  s.launched = count ∧ s.received.length = count

/-- The number of moves a goroutine in this state still takes part in. -/
def Task.weight : Task → Nat
  | .running => 2
  | .sending _ => 1
  | .finished => 0

/-- The number of moves still to come: three for each goroutine not yet started, and the
weights of those started. -/
def Sched.measure (count : Nat) (s : Sched) : Nat :=
  3 * (count - s.launched) + (s.tasks.map Task.weight).sum

/-- What holds in every state that `profile` can reach: the goroutines started are the ones
listed; a goroutine blocked in its send holds the measurement that `asyncRequest` returned;
every measurement received came from a goroutine that has returned, and is that
goroutine's; every goroutine that has returned has been received from; and no goroutine
has been received from twice. -/
def Sched.Inv (count : Nat) (nets : Nat → Network) (s : Sched) : Prop :=
  s.tasks.length = s.launched ∧ s.launched ≤ count ∧
  (∀ j prof, s.tasks[j]? = some (.sending prof) → asyncRequest (nets j) = .ret prof) ∧
  (∀ j prof, (j, prof) ∈ s.received →
    s.tasks[j]? = some .finished ∧ asyncRequest (nets j) = .ret prof) ∧
  (∀ j, s.tasks[j]? = some .finished → j ∈ s.received.map Prod.fst) ∧
  (s.received.map Prod.fst).Nodup

/-! # Theorems -/

/-! ## Facts about `index` and the sorted times -/

theorem index_of_lt {α : Type} (xs : List α) (i : Int) (n : Nat) (d : α) (hi : i = (n : Int))
    (h : n < xs.length) : index xs i = .ret (xs.getD n d) := by
  subst hi
  unfold index
  have h1 : (0 : Int) ≤ (n : Int) ∧ (n : Int) < (xs.length : Int) :=
    ⟨Int.natCast_nonneg n, by exact_mod_cast h⟩
  rw [if_pos h1]
  simp [List.getElem?_eq_getElem h]

theorem sortInts_length (xs : List Int) : (sortInts xs).length = xs.length :=
  (List.perm_insertionSort _ xs).length_eq

theorem sortInts_sorted (xs : List Int) : (sortInts xs).Sorted (· ≤ ·) :=
  List.sorted_insertionSort _ xs

theorem sortInts_perm (xs : List Int) : (sortInts xs).Perm xs :=
  List.perm_insertionSort _ xs

theorem sortInts_eq_of_sorted_perm (xs s : List Int) (hs : s.Sorted (· ≤ ·))
    (hp : s.Perm xs) : sortInts xs = s :=
  List.eq_of_perm_of_sorted ((sortInts_perm xs).trans hp.symm) (sortInts_sorted xs) hs

/-- With at least two times `calculateStats` returns, and every field of its result is
given in closed form. -/
theorem calculateStats_ret (requestCount : Int) (respTimes : List Int) (totalTime : Int)
    (respStatusCodes respByteSize : List Int) (h : 2 ≤ respTimes.length) :
    calculateStats requestCount respTimes totalTime respStatusCodes respByteSize =
      .ret ⟨requestCount, (sortInts respTimes).getD 0 0,
        (sortInts respTimes).getD (respTimes.length - 1) 0,
        F32.div (F32.ofInt totalTime) (F32.ofInt requestCount),
        medianOf (sortInts respTimes),
        percentOf requestCount (failureLoop respStatusCodes).length,
        failureLoop respStatusCodes,
        (sizeLoop respByteSize).1, (sizeLoop respByteSize).2⟩ := by
  have hl := sortInts_length respTimes
  have hn : ¬ respTimes.length ≤ 1 := by omega
  unfold calculateStats
  rw [if_neg hn]
  have h0 : 0 < (sortInts respTimes).length := by omega
  have hlast : respTimes.length - 1 < (sortInts respTimes).length := by omega
  have hmid : respTimes.length / 2 < (sortInts respTimes).length := by omega
  have hmid1 : respTimes.length / 2 - 1 < (sortInts respTimes).length := by omega
  have e0 := index_of_lt (sortInts respTimes) 0 0 0 rfl h0
  have elast := index_of_lt (sortInts respTimes) (((sortInts respTimes).length : Int) - 1)
    (respTimes.length - 1) 0 (by omega) hlast
  have emid := index_of_lt (sortInts respTimes) (((sortInts respTimes).length : Int) / 2)
    (respTimes.length / 2) 0 (by omega) hmid
  have emid1 := index_of_lt (sortInts respTimes) (((sortInts respTimes).length : Int) / 2 - 1)
    (respTimes.length / 2 - 1) 0 (by omega) hmid1
  simp only [e0, elast, emid, emid1, Run.bind]
  unfold medianOf
  rw [hl]
  by_cases hp : respTimes.length % 2 = 1
  · have hp2 : ((respTimes.length : Int)) % 2 = 1 := by omega
    simp only [hp, hp2, if_true, Run.bind]
    rfl
  · have hp2 : ¬ ((respTimes.length : Int)) % 2 = 1 := by omega
    simp only [hp, hp2, if_false, Run.bind]
    rfl

/-- The first element of a sorted list is a lower bound and the last an upper bound. -/
theorem sorted_bounds (s : List Int) (hs : s.Sorted (· ≤ ·)) (t : Int) (ht : t ∈ s) :
    s.getD 0 0 ≤ t ∧ t ≤ s.getD (s.length - 1) 0 := by
  obtain ⟨i, hi, rfl⟩ := List.getElem_of_mem ht
  have h0 : 0 < s.length := by omega
  have hl : s.length - 1 < s.length := by omega
  rw [List.getD_eq_getElem _ _ h0, List.getD_eq_getElem _ _ hl]
  constructor
  · exact hs.rel_get_of_le (a := ⟨0, h0⟩) (b := ⟨i, hi⟩) (by simp)
  · exact hs.rel_get_of_le (a := ⟨i, hi⟩) (b := ⟨s.length - 1, hl⟩)
      (by simp only [Fin.mk_le_mk]; omega)

theorem getD_mem_of_lt (s : List Int) (i : Nat) (h : i < s.length) : s.getD i 0 ∈ s := by
  rw [List.getD_eq_getElem _ _ h]
  exact List.getElem_mem h

/-- **C1.** With at least two elapsed times `calculateStats` returns a `Diagnostic` whose
`FastestTime` and `SlowestTime` are both elements of the input times, and every input time
lies between them: they are the minimum and the maximum of the times. -/
theorem calculateStats_fastest_slowest (requestCount : Int) (respTimes : List Int)
    (totalTime : Int) (respStatusCodes respByteSize : List Int)
    (h : 2 ≤ respTimes.length) :
    ∃ d, calculateStats requestCount respTimes totalTime respStatusCodes respByteSize = .ret d ∧
      d.FastestTime ∈ respTimes ∧ d.SlowestTime ∈ respTimes ∧
      ∀ t ∈ respTimes, d.FastestTime ≤ t ∧ t ≤ d.SlowestTime := by
  refine ⟨_, calculateStats_ret requestCount respTimes totalTime respStatusCodes respByteSize h,
    ?_, ?_, ?_⟩
  · exact (sortInts_perm respTimes).mem_iff.mp
      (getD_mem_of_lt _ 0 (by rw [sortInts_length]; omega))
  · exact (sortInts_perm respTimes).mem_iff.mp
      (getD_mem_of_lt _ _ (by rw [sortInts_length]; omega))
  · intro t ht
    have hb := sorted_bounds (sortInts respTimes) (sortInts_sorted respTimes) t
      ((sortInts_perm respTimes).mem_iff.mpr ht)
    rw [sortInts_length] at hb
    exact hb

theorem calculateStats_fastest_slowest_witness :
    2 ≤ [30, 10, 20].length ∧
    ∃ d, calculateStats 3 [30, 10, 20] 60 [200, 404, 200] [5, 6, 7] = .ret d ∧
      d.FastestTime ∈ [30, 10, 20] ∧ d.SlowestTime ∈ [30, 10, 20] ∧
      ∀ t ∈ [30, 10, 20], d.FastestTime ≤ t ∧ t ≤ d.SlowestTime :=
  ⟨by decide, calculateStats_fastest_slowest 3 [30, 10, 20] 60 [200, 404, 200] [5, 6, 7]
    (by decide)⟩

/-! ## Facts about rounding -/

theorem roundHalfEven_intCast (k : ℤ) : roundHalfEven (k : ℚ) = k := by
  unfold roundHalfEven
  simp

theorem roundHalfEven_cases (x : ℚ) :
    roundHalfEven x = ⌊x⌋ ∧ x - ⌊x⌋ ≤ 1 / 2 ∨ roundHalfEven x = ⌊x⌋ + 1 ∧ 1 / 2 ≤ x - ⌊x⌋ := by
  unfold roundHalfEven
  simp only
  by_cases h1 : x - (⌊x⌋ : ℚ) < 1 / 2
  · left; rw [if_pos h1]; exact ⟨rfl, le_of_lt h1⟩
  · rw [if_neg h1]
    by_cases h2 : 1 / 2 < x - (⌊x⌋ : ℚ)
    · right; rw [if_pos h2]; exact ⟨rfl, le_of_lt h2⟩
    · rw [if_neg h2]
      have he : x - (⌊x⌋ : ℚ) = 1 / 2 := le_antisymm (not_lt.mp h2) (not_lt.mp h1)
      by_cases h3 : ⌊x⌋ % 2 = 0
      · left; rw [if_pos h3]; exact ⟨rfl, le_of_eq he⟩
      · right; rw [if_neg h3]; exact ⟨rfl, le_of_eq he.symm⟩

/-- Rounding to an integer moves a number by at most one half. -/
theorem roundHalfEven_abs_sub_le (x : ℚ) : |(roundHalfEven x : ℚ) - x| ≤ 1 / 2 := by
  have hf := Int.floor_le x
  have hl := Int.lt_floor_add_one x
  rw [abs_le]
  rcases roundHalfEven_cases x with ⟨h, hd⟩ | ⟨h, hd⟩
  · rw [h]; constructor <;> linarith
  · rw [h]; push_cast; constructor <;> linarith

/-- Rounding to an integer is monotone. -/
theorem roundHalfEven_mono {x y : ℚ} (h : x ≤ y) : roundHalfEven x ≤ roundHalfEven y := by
  by_contra hc
  push_neg at hc
  have hx := abs_le.mp (roundHalfEven_abs_sub_le x)
  have hy := abs_le.mp (roundHalfEven_abs_sub_le y)
  have h1 : (roundHalfEven y : ℚ) + 1 ≤ (roundHalfEven x : ℚ) := by exact_mod_cast hc
  have hxy : x = y := by linarith [hx.1, hx.2, hy.1, hy.2]
  rw [hxy] at hc
  exact lt_irrefl _ hc

theorem two_zpow_pos (e : ℤ) : (0 : ℚ) < (2 : ℚ) ^ e := zpow_pos (by norm_num) e

theorem ulp_pos (q : ℚ) : 0 < ulp q := two_zpow_pos _

/-- The binary logarithm brackets a non-zero rational. -/
theorem log_bounds (q : ℚ) (hq : q ≠ 0) :
    (2 : ℚ) ^ Int.log 2 |q| ≤ |q| ∧ |q| < (2 : ℚ) ^ (Int.log 2 |q| + 1) := by
  have hp : 0 < |q| := abs_pos.mpr hq
  have h1 := Int.zpow_log_le_self (b := 2) (r := |q|) (by norm_num) hp
  have h2 := Int.lt_zpow_succ_log_self (b := 2) (by norm_num) |q|
  simp only [Nat.cast_ofNat] at h1 h2
  exact ⟨h1, h2⟩

/-- The binary logarithm is determined by a bracket of powers of two. -/
theorem log_eq_of_bounds (q : ℚ) (e : ℤ) (h1 : (2 : ℚ) ^ e ≤ |q|)
    (h2 : |q| < (2 : ℚ) ^ (e + 1)) : Int.log 2 |q| = e := by
  have hp : 0 < |q| := lt_of_lt_of_le (two_zpow_pos e) h1
  have hq : q ≠ 0 := abs_pos.mp hp
  obtain ⟨b1, b2⟩ := log_bounds q hq
  have hlt1 : (2 : ℚ) ^ e < (2 : ℚ) ^ (Int.log 2 |q| + 1) := lt_of_le_of_lt h1 b2
  have hlt2 : (2 : ℚ) ^ Int.log 2 |q| < (2 : ℚ) ^ (e + 1) := lt_of_le_of_lt b1 h2
  have k1 := (zpow_lt_zpow_iff_right₀ (by norm_num : (1 : ℚ) < 2)).mp hlt1
  have k2 := (zpow_lt_zpow_iff_right₀ (by norm_num : (1 : ℚ) < 2)).mp hlt2
  omega

/-- A rational that is an integer multiple of its own spacing is not moved by rounding. -/
theorem round32_of_int_mul_ulp (q : ℚ) (z : ℤ) (h : q / ulp q = (z : ℚ)) : round32 q = q := by
  unfold round32
  rw [h, roundHalfEven_intCast, ← h]
  exact div_mul_cancel₀ q (ne_of_gt (ulp_pos q))

theorem round32_zero : round32 0 = 0 := by
  apply round32_of_int_mul_ulp 0 0
  simp

theorem abs_cast_lt (m : ℤ) (hm : |m| < 2 ^ 24) : |(m : ℚ)| < (2 : ℚ) ^ (24 : ℤ) := by
  have h : ((|m| : ℤ) : ℚ) < ((2 ^ 24 : ℤ) : ℚ) := by exact_mod_cast hm
  rw [Int.cast_abs] at h
  norm_num at h ⊢
  exact h

/-- The binade of a non-zero number whose magnitude is below `2 ^ (24 + j)`, with
`j ≥ -149`, is at most `23 + j`. -/
theorem binade_le_of_lt (q : ℚ) (j : ℤ) (hq : q ≠ 0) (hj : -149 ≤ j)
    (h : |q| < (2 : ℚ) ^ (24 + j)) : binade q - 23 ≤ j := by
  obtain ⟨b1, _⟩ := log_bounds q hq
  have hlt : (2 : ℚ) ^ Int.log 2 |q| < (2 : ℚ) ^ (24 + j) := lt_of_le_of_lt b1 h
  have k1 := (zpow_lt_zpow_iff_right₀ (by norm_num : (1 : ℚ) < 2)).mp hlt
  unfold binade
  rcases max_cases (Int.log 2 |q|) (-126) with ⟨he, _⟩ | ⟨he, _⟩ <;> rw [he] <;> omega

/-- Every number `m * 2 ^ j` with `|m| < 2 ^ 24` and `j ≥ -149` is a binary32 number:
rounding does not move it. -/
theorem round32_dyadic (m j : ℤ) (hm : |m| < 2 ^ 24) (hj : -149 ≤ j) :
    round32 ((m : ℚ) * (2 : ℚ) ^ j) = (m : ℚ) * (2 : ℚ) ^ j := by
  by_cases h0 : m = 0
  · subst h0; simp [round32_zero]
  · have hq : (m : ℚ) * (2 : ℚ) ^ j ≠ 0 :=
      mul_ne_zero (by exact_mod_cast h0) (ne_of_gt (two_zpow_pos j))
    have habs : |(m : ℚ) * (2 : ℚ) ^ j| < (2 : ℚ) ^ (24 + j) := by
      rw [abs_mul, abs_of_pos (two_zpow_pos j), zpow_add₀ (by norm_num : (2 : ℚ) ≠ 0)]
      exact mul_lt_mul_of_pos_right (abs_cast_lt m hm) (two_zpow_pos j)
    have hb := binade_le_of_lt _ j hq hj habs
    obtain ⟨k, hk⟩ := Int.eq_ofNat_of_zero_le (a := j - (binade ((m : ℚ) * (2 : ℚ) ^ j) - 23))
      (by omega)
    apply round32_of_int_mul_ulp _ (m * 2 ^ k)
    unfold ulp
    rw [mul_div_assoc, ← zpow_sub₀ (by norm_num : (2 : ℚ) ≠ 0), hk]
    push_cast
    rw [zpow_natCast]

/-- A rounding that does not move its argument and stays below `2 ^ 128` is finite. -/
theorem F32.round_of_exact (q : ℚ) (h : round32 q = q) (hlt : |q| < (2 : ℚ) ^ 128) :
    F32.round q = .fin q := by
  unfold F32.round
  simp only [h]
  rw [if_neg (not_le.mpr hlt)]

/-- The numbers `m * 2 ^ j` with `|m| < 2 ^ 24` and `-149 ≤ j ≤ 104` are `float32` values. -/
theorem F32.round_dyadic (m j : ℤ) (hm : |m| < 2 ^ 24) (hj : -149 ≤ j) (hj2 : j ≤ 104) :
    F32.round ((m : ℚ) * (2 : ℚ) ^ j) = .fin ((m : ℚ) * (2 : ℚ) ^ j) := by
  apply F32.round_of_exact _ (round32_dyadic m j hm hj)
  rw [abs_mul, abs_of_pos (two_zpow_pos j)]
  have h1 : |(m : ℚ)| < (2 : ℚ) ^ (24 : ℤ) := abs_cast_lt m hm
  have h2 : (2 : ℚ) ^ j ≤ (2 : ℚ) ^ (104 : ℤ) :=
    (zpow_le_zpow_iff_right₀ (by norm_num : (1 : ℚ) < 2)).mpr hj2
  calc |(m : ℚ)| * (2 : ℚ) ^ j ≤ |(m : ℚ)| * (2 : ℚ) ^ (104 : ℤ) :=
        mul_le_mul_of_nonneg_left h2 (abs_nonneg _)
    _ < (2 : ℚ) ^ (24 : ℤ) * (2 : ℚ) ^ (104 : ℤ) :=
        mul_lt_mul_of_pos_right h1 (two_zpow_pos 104)
    _ = (2 : ℚ) ^ 128 := by norm_num

/-- The conversion `float32(i)` is exact for `|i| < 2 ^ 24`. -/
theorem F32.ofInt_of_small (i : Int) (h : |i| < 2 ^ 24) : F32.ofInt i = .fin (i : ℚ) := by
  have := F32.round_dyadic i 0 h (by norm_num) (by norm_num)
  simpa [F32.ofInt] using this

/-- A number strictly within one half of an integer rounds to that integer. -/
theorem roundHalfEven_eq_of_lt (x : ℚ) (z : ℤ) (h1 : (z : ℚ) - 1 / 2 < x)
    (h2 : x < (z : ℚ) + 1 / 2) : roundHalfEven x = z := by
  have hf := Int.floor_le x
  have hl := Int.lt_floor_add_one x
  rcases roundHalfEven_cases x with ⟨h, hd⟩ | ⟨h, hd⟩
  · rw [h]
    have a1 : (⌊x⌋ : ℚ) < (z : ℚ) + 1 := by linarith
    have a2 : (z : ℚ) < (⌊x⌋ : ℚ) + 1 := by linarith
    have b1 : ⌊x⌋ < z + 1 := by exact_mod_cast a1
    have b2 : z < ⌊x⌋ + 1 := by exact_mod_cast a2
    omega
  · rw [h]
    have a1 : (⌊x⌋ : ℚ) < (z : ℚ) := by linarith
    have a2 : (z : ℚ) < (⌊x⌋ : ℚ) + 2 := by linarith
    have b1 : ⌊x⌋ < z := by exact_mod_cast a1
    have b2 : z < ⌊x⌋ + 2 := by exact_mod_cast a2
    omega

/-- A number half-way between an even integer and its successor rounds to the even one. -/
theorem roundHalfEven_tie_even (z : ℤ) (hz : z % 2 = 0) :
    roundHalfEven ((z : ℚ) + 1 / 2) = z := by
  have hfl : ⌊(z : ℚ) + 1 / 2⌋ = z := by
    rw [Int.floor_eq_iff]; constructor <;> linarith
  unfold roundHalfEven
  simp only [hfl]
  rw [if_neg (by norm_num), if_neg (by norm_num), if_pos hz]

/-- Evaluation of `round32` from a bracket of powers of two in the normal range. -/
theorem round32_eval (q : ℚ) (e z : ℤ) (he : -126 ≤ e) (h1 : (2 : ℚ) ^ e ≤ |q|)
    (h2 : |q| < (2 : ℚ) ^ (e + 1)) (hz : roundHalfEven (q / (2 : ℚ) ^ (e - 23)) = z) :
    round32 q = (z : ℚ) * (2 : ℚ) ^ (e - 23) := by
  have hb : binade q = e := by
    unfold binade
    rw [log_eq_of_bounds q e h1 h2]
    exact max_eq_left he
  unfold round32 ulp
  rw [hb, hz]

/-- **C2 (as amended).** For elapsed times of magnitude below `2 ^ 23` given in any order,
with `s` their ascending sort, `calculateStats` returns, and `MedianTime` is exactly
`s[n/2]` when `n` is odd and exactly `(s[n/2 - 1] + s[n/2]) / 2` when `n` is even. -/
theorem calculateStats_median (requestCount : Int) (respTimes : List Int) (totalTime : Int)
    (respStatusCodes respByteSize s : List Int) (hs : s.Sorted (· ≤ ·))
    (hp : s.Perm respTimes) (h : 2 ≤ respTimes.length)
    (hb : ∀ t ∈ respTimes, |t| < 2 ^ 23) :
    ∃ d, calculateStats requestCount respTimes totalTime respStatusCodes respByteSize = .ret d ∧
      (respTimes.length % 2 = 1 →
        d.MedianTime = .fin ((s.getD (respTimes.length / 2) 0 : ℤ) : ℚ)) ∧
      (respTimes.length % 2 = 0 →
        d.MedianTime = .fin ((((s.getD (respTimes.length / 2 - 1) 0 : ℤ) : ℚ) +
          ((s.getD (respTimes.length / 2) 0 : ℤ) : ℚ)) / 2)) := by
  have hsort := sortInts_eq_of_sorted_perm respTimes s hs hp
  have hlen : s.length = respTimes.length := hp.length_eq
  have hbs : ∀ i, i < s.length → |s.getD i 0| < 2 ^ 23 := fun i hi =>
    hb _ (hp.mem_iff.mp (getD_mem_of_lt s i hi))
  refine ⟨_, calculateStats_ret requestCount respTimes totalTime respStatusCodes respByteSize h,
    ?_, ?_⟩
  · intro hodd
    simp only [hsort, medianOf, hlen, hodd, if_true]
    have := hbs (respTimes.length / 2) (by omega)
    exact F32.ofInt_of_small _ (lt_trans this (by norm_num))
  · intro heven
    have hne : ¬ respTimes.length % 2 = 1 := by omega
    simp only [hsort, medianOf, hlen, hne, if_false]
    have ha := abs_lt.mp (hbs (respTimes.length / 2 - 1) (by omega))
    have hb2 := abs_lt.mp (hbs (respTimes.length / 2) (by omega))
    generalize s.getD (respTimes.length / 2 - 1) 0 = a at ha ⊢
    generalize s.getD (respTimes.length / 2) 0 = b at hb2 ⊢
    have hw : wrap64 (a + b) = a + b := by unfold wrap64; omega
    have hab : |a + b| < 2 ^ 24 := by rw [abs_lt]; constructor <;> omega
    rw [hw, F32.ofInt_of_small _ hab, F32.ofInt_of_small 2 (by norm_num)]
    have hd := F32.round_dyadic (a + b) (-1) hab (by norm_num) (by norm_num)
    have he : ((a + b : ℤ) : ℚ) * (2 : ℚ) ^ (-1 : ℤ) = ((a : ℚ) + (b : ℚ)) / 2 := by
      push_cast; rw [zpow_neg_one]; ring
    rw [he] at hd
    simp only [F32.div]
    rw [if_neg (by norm_num)]
    push_cast
    exact hd

theorem calculateStats_median_witness :
    (∃ d, calculateStats 3 [30, 10, 20] 60 [200, 200, 200] [1, 1, 1] = .ret d ∧
      d.MedianTime = .fin 20) ∧
    (∃ d, calculateStats 4 [40, 10, 30, 20] 100 [200, 200, 200, 200] [1, 1, 1, 1] = .ret d ∧
      d.MedianTime = .fin 25) := by
  constructor
  · obtain ⟨d, hd, hodd, _⟩ := calculateStats_median 3 [30, 10, 20] 60 [200, 200, 200]
      [1, 1, 1] [10, 20, 30] (by decide) (by decide) (by decide) (by decide)
    refine ⟨d, hd, ?_⟩
    rw [hodd (by decide)]
    norm_num
  · obtain ⟨d, hd, _, heven⟩ := calculateStats_median 4 [40, 10, 30, 20] 100
      [200, 200, 200, 200] [1, 1, 1, 1] [10, 20, 30, 40] (by decide) (by decide) (by decide)
      (by decide)
    refine ⟨d, hd, ?_⟩
    rw [heven (by decide)]
    norm_num

/-- The conversion `float32(16777217)` gives `16777216`: `2 ^ 24 + 1` is not a `float32`. -/
theorem F32.ofInt_16777217 : F32.ofInt 16777217 = .fin 16777216 := by
  have hr : round32 ((16777217 : ℤ) : ℚ) = ((8388608 : ℤ) : ℚ) * (2 : ℚ) ^ ((24 : ℤ) - 23) := by
    apply round32_eval _ 24 8388608 (by norm_num)
    · norm_num [abs_of_pos]
    · norm_num [abs_of_pos]
    · have h := roundHalfEven_tie_even 8388608 (by norm_num)
      have he : ((16777217 : ℤ) : ℚ) / (2 : ℚ) ^ ((24 : ℤ) - 23) = ((8388608 : ℤ) : ℚ) + 1 / 2 := by
        norm_num
      rw [he]; exact h
  unfold F32.ofInt F32.round
  simp only [hr]
  norm_num

/-- **C2, counterexample.** For the three times `[16777217, 16777217, 16777217]` (already in
ascending order, `n = 3` odd) the middle element is `16777217`, and `calculateStats`
returns `MedianTime = 16777216`. -/
theorem calculateStats_median_counterexample :
    ∃ d, calculateStats 3 [16777217, 16777217, 16777217] 50331651 [200, 200, 200]
        [1, 1, 1] = .ret d ∧
      sortInts [16777217, 16777217, 16777217] = [16777217, 16777217, 16777217] ∧
      [16777217, 16777217, 16777217].getD (3 / 2) (0 : ℤ) = 16777217 ∧
      d.MedianTime = .fin 16777216 ∧
      d.MedianTime ≠ .fin ((16777217 : ℤ) : ℚ) := by
  have hs : sortInts [16777217, 16777217, 16777217] = [16777217, 16777217, 16777217] := by
    simp [sortInts]
  have hm : medianOf [16777217, 16777217, 16777217] = .fin 16777216 := by
    rw [← F32.ofInt_16777217]
    simp [medianOf]
  refine ⟨_, calculateStats_ret 3 _ 50331651 [200, 200, 200] [1, 1, 1] (by simp), hs,
    by simp, ?_, ?_⟩
  · simp only [hs, hm]
  · simp only [hs, hm]
    intro hc
    injection hc with hc
    norm_num at hc

/-- Rounding to binary32 moves a number by at most half its spacing. -/
theorem round32_abs_sub_le_ulp (q : ℚ) : |round32 q - q| ≤ ulp q / 2 := by
  have hu := ulp_pos q
  have h := roundHalfEven_abs_sub_le (q / ulp q)
  have he : round32 q - q = ((roundHalfEven (q / ulp q) : ℚ) - q / ulp q) * ulp q := by
    unfold round32
    rw [sub_mul, div_mul_cancel₀ q (ne_of_gt hu)]
  rw [he, abs_mul, abs_of_pos hu]
  calc |(roundHalfEven (q / ulp q) : ℚ) - q / ulp q| * ulp q ≤ 1 / 2 * ulp q :=
        mul_le_mul_of_nonneg_right h (le_of_lt hu)
    _ = ulp q / 2 := by ring

/-- In the normal range the spacing around `q` is at most `|q| / 2 ^ 23`. -/
theorem ulp_le_of_normal (q : ℚ) (hq : (2 : ℚ) ^ (-126 : ℤ) ≤ |q|) :
    ulp q ≤ |q| / 2 ^ 23 := by
  have hp : 0 < |q| := lt_of_lt_of_le (two_zpow_pos _) hq
  have hne : q ≠ 0 := abs_pos.mp hp
  have hl : (-126 : ℤ) ≤ Int.log 2 |q| := by
    have := (Int.zpow_le_iff_le_log (b := 2) (by norm_num) (x := -126) hp).mp
      (by simpa using hq)
    exact this
  obtain ⟨b1, _⟩ := log_bounds q hne
  unfold ulp binade
  rw [max_eq_left hl, zpow_sub₀ (by norm_num : (2 : ℚ) ≠ 0)]
  have h23 : (2 : ℚ) ^ (23 : ℤ) = 2 ^ 23 := by norm_num
  rw [h23]
  exact div_le_div_of_nonneg_right b1 (by norm_num)

/-- The relative error of a rounding to binary32 in the normal range is at most `2 ^ -24`. -/
theorem round32_rel_error (q : ℚ) (hq : q = 0 ∨ (2 : ℚ) ^ (-126 : ℤ) ≤ |q|) :
    |round32 q - q| ≤ |q| / 2 ^ 24 := by
  rcases hq with h0 | hn
  · subst h0; simp [round32_zero]
  · have h1 := round32_abs_sub_le_ulp q
    have h2 := ulp_le_of_normal q hn
    calc |round32 q - q| ≤ ulp q / 2 := h1
      _ ≤ |q| / 2 ^ 23 / 2 := by linarith
      _ = |q| / 2 ^ 24 := by ring

theorem round32_nonneg (q : ℚ) (h : 0 ≤ q) : 0 ≤ round32 q := by
  have h0 : (0 : ℚ) ≤ q / ulp q := div_nonneg h (le_of_lt (ulp_pos q))
  have h1 := roundHalfEven_mono h0
  have h2 : roundHalfEven 0 = 0 := by simpa using roundHalfEven_intCast 0
  rw [h2] at h1
  unfold round32
  exact mul_nonneg (by exact_mod_cast h1) (le_of_lt (ulp_pos q))

theorem ulp_mul_two_pow (q : ℚ) : (2 : ℚ) ^ (24 : ℤ) * ulp q = (2 : ℚ) ^ (binade q + 1) := by
  unfold ulp
  rw [← zpow_add₀ (by norm_num : (2 : ℚ) ≠ 0)]
  congr 1; ring

theorem ulp_mul_two_pow23 (q : ℚ) : (2 : ℚ) ^ (23 : ℤ) * ulp q = (2 : ℚ) ^ binade q := by
  unfold ulp
  rw [← zpow_add₀ (by norm_num : (2 : ℚ) ≠ 0)]
  congr 1; ring

/-- A positive number rounds to at most the power of two that closes its binade. -/
theorem round32_le_pow (x : ℚ) (hx : 0 < x) : round32 x ≤ (2 : ℚ) ^ (binade x + 1) := by
  have hu := ulp_pos x
  obtain ⟨_, b2⟩ := log_bounds x (ne_of_gt hx)
  rw [abs_of_pos hx] at b2
  have hle : (2 : ℚ) ^ (Int.log 2 x + 1) ≤ (2 : ℚ) ^ (binade x + 1) := by
    apply (zpow_le_zpow_iff_right₀ (by norm_num : (1 : ℚ) < 2)).mpr
    have : Int.log 2 x ≤ binade x := by
      unfold binade; rw [abs_of_pos hx]; exact le_max_left _ _
    omega
  have hxle : x ≤ (2 : ℚ) ^ (24 : ℤ) * ulp x := by
    rw [ulp_mul_two_pow]; exact le_of_lt (lt_of_lt_of_le b2 hle)
  have hdiv : x / ulp x ≤ (((2 : ℤ) ^ 24 : ℤ) : ℚ) := by
    rw [div_le_iff₀ hu]
    have : (((2 : ℤ) ^ 24 : ℤ) : ℚ) = (2 : ℚ) ^ (24 : ℤ) := by norm_num
    rw [this]; exact hxle
  have hr := roundHalfEven_mono hdiv
  rw [roundHalfEven_intCast] at hr
  have hr2 : (roundHalfEven (x / ulp x) : ℚ) ≤ (2 : ℚ) ^ (24 : ℤ) := by
    have : ((roundHalfEven (x / ulp x) : ℤ) : ℚ) ≤ (((2 : ℤ) ^ 24 : ℤ) : ℚ) := by
      exact_mod_cast hr
    norm_num at this ⊢
    exact this
  unfold round32
  rw [← ulp_mul_two_pow]
  exact mul_le_mul_of_nonneg_right hr2 (le_of_lt hu)

/-- A positive normal number rounds to at least the power of two that opens its binade. -/
theorem pow_le_round32 (y : ℚ) (hy : 0 < y) (hb : binade y = Int.log 2 |y|) :
    (2 : ℚ) ^ binade y ≤ round32 y := by
  have hu := ulp_pos y
  obtain ⟨b1, _⟩ := log_bounds y (ne_of_gt hy)
  rw [← hb, abs_of_pos hy] at b1
  have hdiv : (((2 : ℤ) ^ 23 : ℤ) : ℚ) ≤ y / ulp y := by
    rw [le_div_iff₀ hu]
    have : (((2 : ℤ) ^ 23 : ℤ) : ℚ) = (2 : ℚ) ^ (23 : ℤ) := by norm_num
    rw [this, ulp_mul_two_pow23]; exact b1
  have hr := roundHalfEven_mono hdiv
  rw [roundHalfEven_intCast] at hr
  have hr2 : (2 : ℚ) ^ (23 : ℤ) ≤ (roundHalfEven (y / ulp y) : ℚ) := by
    have : (((2 : ℤ) ^ 23 : ℤ) : ℚ) ≤ ((roundHalfEven (y / ulp y) : ℤ) : ℚ) := by
      exact_mod_cast hr
    norm_num at this ⊢
    exact this
  unfold round32
  rw [← ulp_mul_two_pow23]
  exact mul_le_mul_of_nonneg_right hr2 (le_of_lt hu)

/-- Rounding to binary32 is monotone on the non-negative rationals. -/
theorem round32_mono_of_nonneg {x y : ℚ} (hx : 0 ≤ x) (hxy : x ≤ y) :
    round32 x ≤ round32 y := by
  rcases eq_or_lt_of_le hx with h0 | hpos
  · rw [← h0, round32_zero]; exact round32_nonneg y (le_trans hx hxy)
  · have hy : 0 < y := lt_of_lt_of_le hpos hxy
    have hlog : Int.log 2 |x| ≤ Int.log 2 |y| := by
      rw [abs_of_pos hpos, abs_of_pos hy]
      exact Int.log_mono_right hpos hxy
    have hbin : binade x ≤ binade y := max_le_max hlog (le_refl _)
    rcases eq_or_lt_of_le hbin with heq | hlt
    · have hu : ulp x = ulp y := by unfold ulp; rw [heq]
      unfold round32
      rw [hu]
      have hd : x / ulp y ≤ y / ulp y := div_le_div_of_nonneg_right hxy (le_of_lt (ulp_pos y))
      have := roundHalfEven_mono hd
      exact mul_le_mul_of_nonneg_right (by exact_mod_cast this) (le_of_lt (ulp_pos y))
    · have hby : binade y = Int.log 2 |y| := by
        have h126 : (-126 : ℤ) ≤ binade x := le_max_right _ _
        unfold binade at hlt ⊢
        rcases max_cases (Int.log 2 |y|) (-126) with ⟨he, _⟩ | ⟨he, _⟩
        · exact he
        · rw [he] at hlt; unfold binade at h126; omega
      calc round32 x ≤ (2 : ℚ) ^ (binade x + 1) := round32_le_pow x hpos
        _ ≤ (2 : ℚ) ^ binade y :=
            (zpow_le_zpow_iff_right₀ (by norm_num : (1 : ℚ) < 2)).mpr (by omega)
        _ ≤ round32 y := pow_le_round32 y hy hby

/-- A rounding whose result stays below `2 ^ 128` is the finite number `round32 q`. -/
theorem F32.round_of_lt (q : ℚ) (h : |round32 q| < (2 : ℚ) ^ 128) :
    F32.round q = .fin (round32 q) := by
  unfold F32.round
  simp only
  rw [if_neg (not_le.mpr h)]

/-- The quotient of two integers of magnitude below `2 ^ 24` is, as a `float32`, the
rounding of the exact quotient, with relative error at most `2 ^ -24`. -/
theorem F32.div_ofInt_ofInt (a b : ℤ) (ha : |a| < 2 ^ 24) (hb : |b| < 2 ^ 24) (hb0 : b ≠ 0) :
    F32.div (F32.ofInt a) (F32.ofInt b) = .fin (round32 ((a : ℚ) / (b : ℚ))) ∧
      |round32 ((a : ℚ) / (b : ℚ)) - (a : ℚ) / (b : ℚ)| ≤ |(a : ℚ) / (b : ℚ)| / 2 ^ 24 := by
  have hbq : (b : ℚ) ≠ 0 := by exact_mod_cast hb0
  have hA := abs_cast_lt a ha
  have hB := abs_cast_lt b hb
  have hbpos : 0 < |(b : ℚ)| := abs_pos.mpr hbq
  have hb1 : (1 : ℚ) ≤ |(b : ℚ)| := by
    have : (1 : ℤ) ≤ |b| := Int.one_le_abs hb0
    have h2 : ((1 : ℤ) : ℚ) ≤ ((|b| : ℤ) : ℚ) := by exact_mod_cast this
    simpa using h2
  have hq : (a : ℚ) / (b : ℚ) = 0 ∨ (2 : ℚ) ^ (-126 : ℤ) ≤ |(a : ℚ) / (b : ℚ)| := by
    by_cases ha0 : a = 0
    · left; simp [ha0]
    · right
      have ha1 : (1 : ℚ) ≤ |(a : ℚ)| := by
        have : (1 : ℤ) ≤ |a| := Int.one_le_abs ha0
        have h2 : ((1 : ℤ) : ℚ) ≤ ((|a| : ℤ) : ℚ) := by exact_mod_cast this
        simpa using h2
      rw [abs_div, le_div_iff₀ hbpos]
      have h126 : (2 : ℚ) ^ (-126 : ℤ) * (2 : ℚ) ^ (24 : ℤ) ≤ 1 := by
        rw [← zpow_add₀ (by norm_num : (2 : ℚ) ≠ 0)]
        exact zpow_le_one_of_nonpos₀ (by norm_num) (by norm_num)
      calc (2 : ℚ) ^ (-126 : ℤ) * |(b : ℚ)|
          ≤ (2 : ℚ) ^ (-126 : ℤ) * (2 : ℚ) ^ (24 : ℤ) :=
            mul_le_mul_of_nonneg_left (le_of_lt hB) (le_of_lt (two_zpow_pos _))
        _ ≤ 1 := h126
        _ ≤ |(a : ℚ)| := ha1
  have herr := round32_rel_error _ hq
  have hqlt : |(a : ℚ) / (b : ℚ)| < (2 : ℚ) ^ (24 : ℤ) := by
    rw [abs_div, div_lt_iff₀ hbpos]
    calc |(a : ℚ)| < (2 : ℚ) ^ (24 : ℤ) := hA
      _ ≤ (2 : ℚ) ^ (24 : ℤ) * |(b : ℚ)| := by
        have := mul_le_mul_of_nonneg_left hb1 (le_of_lt (two_zpow_pos (24 : ℤ)))
        simpa using this
  have hrlt : |round32 ((a : ℚ) / (b : ℚ))| < (2 : ℚ) ^ 128 := by
    have h1 : |round32 ((a : ℚ) / (b : ℚ))| ≤
        |round32 ((a : ℚ) / (b : ℚ)) - (a : ℚ) / (b : ℚ)| + |(a : ℚ) / (b : ℚ)| := by
      have := abs_add (round32 ((a : ℚ) / (b : ℚ)) - (a : ℚ) / (b : ℚ)) ((a : ℚ) / (b : ℚ))
      simpa using this
    have h24 : (2 : ℚ) ^ (24 : ℤ) = 16777216 := by norm_num
    rw [h24] at hqlt
    have hnn := abs_nonneg ((a : ℚ) / (b : ℚ))
    have h3 : |(a : ℚ) / (b : ℚ)| / 2 ^ 24 ≤ |(a : ℚ) / (b : ℚ)| :=
      div_le_self hnn (by norm_num)
    have h4 : (2 : ℚ) * 16777216 < (2 : ℚ) ^ 128 := by norm_num
    linarith
  refine ⟨?_, herr⟩
  rw [F32.ofInt_of_small a ha, F32.ofInt_of_small b hb]
  simp only [F32.div]
  rw [if_neg hbq]
  exact F32.round_of_lt _ hrlt

/-- **C3 (as amended).** For `n ≥ 2` elapsed times with `requestCount = n` and
`totalTime` their sum, both of magnitude below `2 ^ 24`, `calculateStats` returns and
`MeanTime` is the quotient `sum / n` rounded to the nearest `float32`; it differs from
the exact quotient by at most the fraction `2 ^ -24` of it. -/
theorem calculateStats_mean (respTimes respStatusCodes respByteSize : List Int)
    (h : 2 ≤ respTimes.length) (hn : respTimes.length < 2 ^ 24)
    (hsum : |respTimes.sum| < 2 ^ 24) :
    ∃ d m, calculateStats respTimes.length respTimes respTimes.sum respStatusCodes
        respByteSize = .ret d ∧
      d.MeanTime = .fin m ∧
      m = round32 ((respTimes.sum : ℚ) / (respTimes.length : ℚ)) ∧
      |m - (respTimes.sum : ℚ) / (respTimes.length : ℚ)| ≤
        |(respTimes.sum : ℚ) / (respTimes.length : ℚ)| / 2 ^ 24 := by
  have hnz : ((respTimes.length : ℕ) : ℤ) ≠ 0 := by omega
  have hnabs : |((respTimes.length : ℕ) : ℤ)| < 2 ^ 24 := by
    rw [abs_of_nonneg (Int.natCast_nonneg _)]; exact_mod_cast hn
  obtain ⟨h1, h2⟩ := F32.div_ofInt_ofInt respTimes.sum respTimes.length hsum hnabs hnz
  refine ⟨_, _, calculateStats_ret _ respTimes _ respStatusCodes respByteSize h, ?_, rfl, ?_⟩
  · simpa using h1
  · simpa using h2

theorem calculateStats_mean_witness :
    ∃ d, calculateStats 3 [100, 200, 300] 600 [200, 200, 200] [1, 1, 1] = .ret d ∧
      d.MeanTime = .fin 200 := by
  obtain ⟨d, m, hd, hm, hr, _⟩ := calculateStats_mean [100, 200, 300] [200, 200, 200]
    [1, 1, 1] (by decide) (by decide) (by decide)
  refine ⟨d, hd, ?_⟩
  have h200 := round32_dyadic 200 0 (by norm_num) (by norm_num)
  have hq : (([100, 200, 300] : List Int).sum : ℚ) / (([100, 200, 300] : List Int).length : ℚ)
      = ((200 : ℤ) : ℚ) * (2 : ℚ) ^ (0 : ℤ) := by
    norm_num
  rw [hq, h200] at hr
  rw [hm, hr]
  norm_num

/-- The `float32` nearest to one third is `11184811 / 2 ^ 25`. -/
theorem round32_one_third : round32 (1 / 3) = 11184811 / 33554432 := by
  have hr : round32 (1 / 3) = ((11184811 : ℤ) : ℚ) * (2 : ℚ) ^ ((-2 : ℤ) - 23) := by
    apply round32_eval _ (-2) 11184811 (by norm_num)
    · rw [abs_of_pos (by norm_num)]; norm_num
    · rw [abs_of_pos (by norm_num)]; norm_num
    · apply roundHalfEven_eq_of_lt <;> norm_num
  rw [hr]
  norm_num

/-- **C3, counterexample.** For the times `[0, 1, 0]` with count `3` and total `1` the
exact mean is `1 / 3`, and `calculateStats` returns `MeanTime = 11184811 / 33554432`. -/
theorem calculateStats_mean_counterexample :
    ∃ d, calculateStats 3 [0, 1, 0] 1 [200, 200, 200] [1, 1, 1] = .ret d ∧
      ([0, 1, 0] : List Int).sum = 1 ∧ ([0, 1, 0] : List Int).length = 3 ∧
      d.MeanTime = .fin (11184811 / 33554432) ∧
      d.MeanTime ≠ .fin (1 / 3) := by
  have hm : F32.div (F32.ofInt 1) (F32.ofInt 3) = .fin (11184811 / 33554432) := by
    have h := (F32.div_ofInt_ofInt 1 3 (by norm_num) (by norm_num) (by norm_num)).1
    rw [h]
    have : ((1 : ℤ) : ℚ) / ((3 : ℤ) : ℚ) = 1 / 3 := by norm_num
    rw [this, round32_one_third]
  refine ⟨_, calculateStats_ret 3 [0, 1, 0] 1 [200, 200, 200] [1, 1, 1] (by simp),
    by simp, by simp, ?_, ?_⟩
  · exact hm
  · simp only [hm]
    intro hc
    injection hc with hc
    norm_num at hc

theorem round32_one : round32 1 = 1 := by
  simpa using round32_dyadic 1 0 (by norm_num) (by norm_num)

theorem round32_hundred : round32 100 = 100 := by
  simpa using round32_dyadic 100 0 (by norm_num) (by norm_num)

/-- Two successive roundings, the second after a multiplication by one hundred, of a
ratio `x` in `[0, 1]` that is zero or at least `2 ^ -24`: the result is in `[0, 100]` and
differs from `100 * x` by at most the fraction `2 ^ -22` of it. -/
theorem round32_percent (x : ℚ) (hx0 : 0 ≤ x) (hx1 : x ≤ 1)
    (hx : x = 0 ∨ (2 : ℚ) ^ (-24 : ℤ) ≤ x) :
    0 ≤ round32 x ∧ round32 x ≤ 1 ∧
      0 ≤ round32 (round32 x * 100) ∧ round32 (round32 x * 100) ≤ 100 ∧
      |round32 (round32 x * 100) - 100 * x| ≤ 100 * x / 2 ^ 22 := by
  have hr0 : 0 ≤ round32 x := round32_nonneg x hx0
  have hr1 : round32 x ≤ 1 := by
    have := round32_mono_of_nonneg hx0 hx1
    rwa [round32_one] at this
  have hm0 : 0 ≤ round32 x * 100 := by positivity
  have hm1 : round32 x * 100 ≤ 100 := by linarith
  have hp0 : 0 ≤ round32 (round32 x * 100) := round32_nonneg _ hm0
  have hp1 : round32 (round32 x * 100) ≤ 100 := by
    have := round32_mono_of_nonneg hm0 hm1
    rwa [round32_hundred] at this
  refine ⟨hr0, hr1, hp0, hp1, ?_⟩
  rcases hx with h0 | hbig
  · subst h0; simp [round32_zero]
  · have h24 : (2 : ℚ) ^ (-24 : ℤ) = ((1 : ℤ) : ℚ) * (2 : ℚ) ^ (-24 : ℤ) := by simp
    have hlow : (2 : ℚ) ^ (-24 : ℤ) ≤ round32 x := by
      have := round32_mono_of_nonneg (le_of_lt (two_zpow_pos (-24))) hbig
      rw [h24, round32_dyadic 1 (-24) (by norm_num) (by norm_num), ← h24] at this
      exact this
    have hle126 : (2 : ℚ) ^ (-126 : ℤ) ≤ (2 : ℚ) ^ (-24 : ℤ) :=
      (zpow_le_zpow_iff_right₀ (by norm_num : (1 : ℚ) < 2)).mpr (by norm_num)
    have e1 := round32_rel_error x (Or.inr (by rw [abs_of_nonneg hx0]; linarith))
    have e2 := round32_rel_error (round32 x * 100)
      (Or.inr (by rw [abs_of_nonneg hm0]; linarith))
    rw [abs_of_nonneg hx0] at e1
    rw [abs_of_nonneg hm0] at e2
    have a1 := abs_le.mp e1
    have a2 := abs_le.mp e2
    rw [abs_le]
    have c24 : (0 : ℚ) < 2 ^ 24 := by norm_num
    have hx24 : x / 2 ^ 24 ≤ x := div_le_self hx0 (by norm_num)
    have k1 : round32 x * 100 / 2 ^ 24 ≤ 200 * x / 2 ^ 24 := by
      apply div_le_div_of_nonneg_right _ (le_of_lt c24)
      linarith [a1.2]
    have k2 : 100 * x / 2 ^ 22 = 400 * x / 2 ^ 24 := by norm_num; ring
    have k3 : 200 * x / 2 ^ 24 = 200 * (x / 2 ^ 24) := by ring
    have k4 : 400 * x / 2 ^ 24 = 400 * (x / 2 ^ 24) := by ring
    have k5 : 0 ≤ x / 2 ^ 24 := div_nonneg hx0 (le_of_lt c24)
    rw [k2, k4]
    rw [k3] at k1
    constructor <;> linarith [a1.1, a1.2, a2.1, a2.2]

/-! ## The status codes -/

theorem failureLoop_foldl (acc respStatusCodes : List Int) :
    respStatusCodes.foldl
      (fun failueCodes status =>
        if isSuccess status then failueCodes else failueCodes ++ [status]) acc =
      acc ++ respStatusCodes.filter (fun s => !isSuccess s) := by
  induction respStatusCodes generalizing acc with
  | nil => simp
  | cons s rest ih =>
    rw [List.foldl_cons, ih]
    cases hs : isSuccess s <;> simp [List.filter_cons, hs]

/-- The loop that collects the failure codes is a filter of the status list. -/
theorem failureLoop_eq_filter (respStatusCodes : List Int) :
    failureLoop respStatusCodes = respStatusCodes.filter (fun s => !isSuccess s) := by
  unfold failureLoop
  rw [failureLoop_foldl]
  simp

/-- The failure codes and the successes partition the status list. -/
theorem failureLoop_length_add (respStatusCodes : List Int) :
    (failureLoop respStatusCodes).length + (respStatusCodes.filter isSuccess).length =
      respStatusCodes.length := by
  rw [failureLoop_eq_filter]
  induction respStatusCodes with
  | nil => simp
  | cons s rest ih =>
    cases hs : isSuccess s <;> simp [List.filter_cons, hs] <;> omega

theorem isSuccess_iff (status : Int) : isSuccess status = true ↔ 200 ≤ status ∧ status ≤ 299 := by
  simp [isSuccess]

/-- **C5.** With at least two elapsed times `calculateStats` returns, and `ErrorCodes` is
exactly the status list with the statuses in `[200,299]` filtered out: every other
status, in arrival order, duplicates retained. -/
theorem calculateStats_errorCodes (requestCount : Int) (respTimes : List Int)
    (totalTime : Int) (respStatusCodes respByteSize : List Int)
    (h : 2 ≤ respTimes.length) :
    ∃ d, calculateStats requestCount respTimes totalTime respStatusCodes respByteSize = .ret d ∧
      d.ErrorCodes = respStatusCodes.filter (fun s => decide (¬ (200 ≤ s ∧ s ≤ 299))) := by
  refine ⟨_, calculateStats_ret requestCount respTimes totalTime respStatusCodes respByteSize h,
    ?_⟩
  show failureLoop respStatusCodes = _
  rw [failureLoop_eq_filter]
  congr 1
  funext s
  by_cases h1 : 200 ≤ s <;> by_cases h2 : s ≤ 299 <;> simp [isSuccess, h1, h2]

theorem calculateStats_errorCodes_witness :
    ∃ d, calculateStats 4 [10, 20, 30, 40] 100 [200, 404, 200, 500] [50, 200, 10, 999] = .ret d ∧
      d.ErrorCodes = [404, 500] := by
  obtain ⟨d, hd, he⟩ := calculateStats_errorCodes 4 [10, 20, 30, 40] 100 [200, 404, 200, 500]
    [50, 200, 10, 999] (by decide)
  exact ⟨d, hd, by rw [he]; decide⟩

/-- The ratio of successes `(n - f) / n` is in `[0, 1]`, and zero or at least `2 ^ -24`
when `n < 2 ^ 24`. -/
theorem ratio_bounds (n f : ℕ) (hn0 : 0 < n) (hf : f ≤ n) (hn : n < 2 ^ 24) :
    0 ≤ ((n : ℚ) - (f : ℚ)) / (n : ℚ) ∧ ((n : ℚ) - (f : ℚ)) / (n : ℚ) ≤ 1 ∧
      (((n : ℚ) - (f : ℚ)) / (n : ℚ) = 0 ∨
        (2 : ℚ) ^ (-24 : ℤ) ≤ ((n : ℚ) - (f : ℚ)) / (n : ℚ)) := by
  have hnq : (0 : ℚ) < (n : ℚ) := by exact_mod_cast hn0
  have hfq : (f : ℚ) ≤ (n : ℚ) := by exact_mod_cast hf
  have hf0 : (0 : ℚ) ≤ (f : ℚ) := by exact_mod_cast Nat.zero_le f
  refine ⟨div_nonneg (by linarith) (le_of_lt hnq), ?_, ?_⟩
  · rw [div_le_one hnq]; linarith
  · by_cases he : f = n
    · left; subst he; simp
    · right
      have hlt : f + 1 ≤ n := by omega
      have hltq : (f : ℚ) + 1 ≤ (n : ℚ) := by exact_mod_cast hlt
      have hn24 : (n : ℚ) < 2 ^ 24 := by exact_mod_cast hn
      rw [le_div_iff₀ hnq]
      have h24 : (2 : ℚ) ^ (-24 : ℤ) = 1 / 2 ^ 24 := by
        rw [zpow_neg]; norm_num
      rw [h24]
      have : 1 / 2 ^ 24 * (n : ℚ) ≤ 1 := by
        rw [div_mul_eq_mul_div, one_mul, div_le_one (by norm_num)]
        exact le_of_lt hn24
      linarith

/-- Closed form of `percentSuccess` for a count below `2 ^ 24`: two roundings. -/
theorem percentOf_eq (n f : ℕ) (hn0 : 0 < n) (hf : f ≤ n) (hn : n < 2 ^ 24) :
    percentOf n f = .fin (round32 (round32 (((n : ℚ) - (f : ℚ)) / (n : ℚ)) * 100)) := by
  obtain ⟨hx0, hx1, hx⟩ := ratio_bounds n f hn0 hf hn
  obtain ⟨hr0, hr1, hp0, hp1, _⟩ := round32_percent _ hx0 hx1 hx
  have hnabs : |((n : ℕ) : ℤ)| < 2 ^ 24 := by
    rw [abs_of_nonneg (Int.natCast_nonneg _)]; exact_mod_cast hn
  have hfabs : |((f : ℕ) : ℤ)| < 2 ^ 24 := by
    rw [abs_of_nonneg (Int.natCast_nonneg _)]
    have : f < 2 ^ 24 := lt_of_le_of_lt hf hn
    exact_mod_cast this
  have hdabs : |((n : ℕ) : ℤ) - ((f : ℕ) : ℤ)| < 2 ^ 24 := by
    rw [abs_lt]; constructor <;> omega
  have hnq : ((n : ℕ) : ℚ) ≠ 0 := by
    have : (0 : ℚ) < (n : ℚ) := by exact_mod_cast hn0
    exact ne_of_gt this
  have hsub : F32.round ((n : ℚ) - (f : ℚ)) = .fin ((n : ℚ) - (f : ℚ)) := by
    have := F32.round_dyadic (((n : ℕ) : ℤ) - ((f : ℕ) : ℤ)) 0 hdabs (by norm_num) (by norm_num)
    simpa using this
  have hbig : (100 : ℚ) < (2 : ℚ) ^ 128 := by norm_num
  have hdiv : F32.round (((n : ℚ) - (f : ℚ)) / (n : ℚ)) =
      .fin (round32 (((n : ℚ) - (f : ℚ)) / (n : ℚ))) := by
    apply F32.round_of_lt
    rw [abs_of_nonneg hr0]; linarith
  have hmul : F32.round (round32 (((n : ℚ) - (f : ℚ)) / (n : ℚ)) * 100) =
      .fin (round32 (round32 (((n : ℚ) - (f : ℚ)) / (n : ℚ)) * 100)) := by
    apply F32.round_of_lt
    rw [abs_of_nonneg hp0]; linarith
  have h100 : F32.ofInt 100 = .fin 100 := by
    simpa using F32.ofInt_of_small 100 (by norm_num)
  unfold percentOf
  rw [F32.ofInt_of_small _ hnabs, F32.ofInt_of_small _ hfabs, h100]
  simp only [F32.sub, Int.cast_natCast, hsub, F32.div, if_neg hnq, hdiv, F32.mul, hmul]

/-- **C4 (as amended).** For `n ≥ 2` status codes (`n < 2 ^ 24`) summarised with
`requestCount = n`, `calculateStats` returns and `PercentSuccess` is the `float32`
evaluation of `(n - failures) / n * 100`: the ratio of the statuses in `[200,299]` to `n`,
rounded, times `100`, rounded.  The value is in the range `0` to `100` inclusive and
differs from `100 * successes / n` by at most the fraction `2 ^ -22` of it. -/
theorem calculateStats_percentSuccess (respTimes : List Int) (totalTime : Int)
    (respStatusCodes respByteSize : List Int) (h : 2 ≤ respTimes.length)
    (hlen : respStatusCodes.length = respTimes.length)
    (hn : respStatusCodes.length < 2 ^ 24) :
    ∃ d p, calculateStats respStatusCodes.length respTimes totalTime respStatusCodes
        respByteSize = .ret d ∧
      d.PercentSuccess = .fin p ∧
      p = round32 (round32 (((respStatusCodes.filter isSuccess).length : ℚ) /
        (respStatusCodes.length : ℚ)) * 100) ∧
      0 ≤ p ∧ p ≤ 100 ∧
      |p - 100 * (((respStatusCodes.filter isSuccess).length : ℚ) /
        (respStatusCodes.length : ℚ))| ≤
        100 * (((respStatusCodes.filter isSuccess).length : ℚ) /
          (respStatusCodes.length : ℚ)) / 2 ^ 22 := by
  have hpart := failureLoop_length_add respStatusCodes
  have hf : (failureLoop respStatusCodes).length ≤ respStatusCodes.length := by omega
  have hn0 : 0 < respStatusCodes.length := by omega
  have hs : ((respStatusCodes.filter isSuccess).length : ℚ) =
      (respStatusCodes.length : ℚ) - ((failureLoop respStatusCodes).length : ℚ) := by
    have : (((failureLoop respStatusCodes).length + (respStatusCodes.filter isSuccess).length
      : ℕ) : ℚ) = (respStatusCodes.length : ℚ) := by rw [hpart]
    push_cast at this
    linarith
  obtain ⟨hx0, hx1, hx⟩ := ratio_bounds _ _ hn0 hf hn
  obtain ⟨_, _, hp0, hp1, herr⟩ := round32_percent _ hx0 hx1 hx
  refine ⟨_, _, calculateStats_ret _ respTimes totalTime respStatusCodes respByteSize h,
    percentOf_eq _ _ hn0 hf hn, ?_, hp0, hp1, ?_⟩
  · rw [hs]
  · rw [hs]; exact herr

theorem calculateStats_percentSuccess_witness :
    ∃ d, calculateStats 4 [10, 20, 30, 40] 100 [200, 404, 200, 500] [50, 200, 10, 999] = .ret d ∧
      d.PercentSuccess = .fin 50 := by
  obtain ⟨d, p, hd, hp, hr, _⟩ := calculateStats_percentSuccess [10, 20, 30, 40] 100
    [200, 404, 200, 500] [50, 200, 10, 999] (by decide) (by decide) (by decide)
  refine ⟨d, hd, ?_⟩
  have hcount : (([200, 404, 200, 500] : List Int).filter isSuccess).length = 2 := by decide
  have hhalf : round32 (((1 : ℤ) : ℚ) * (2 : ℚ) ^ (-1 : ℤ)) = ((1 : ℤ) : ℚ) * (2 : ℚ) ^ (-1 : ℤ) :=
    round32_dyadic 1 (-1) (by norm_num) (by norm_num)
  have hfifty : round32 (((50 : ℤ) : ℚ) * (2 : ℚ) ^ (0 : ℤ)) = ((50 : ℤ) : ℚ) * (2 : ℚ) ^ (0 : ℤ) :=
    round32_dyadic 50 0 (by norm_num) (by norm_num)
  have e1 : (((2 : ℕ) : ℚ)) / ((([200, 404, 200, 500] : List Int).length : ℕ) : ℚ) =
      ((1 : ℤ) : ℚ) * (2 : ℚ) ^ (-1 : ℤ) := by
    rw [zpow_neg_one]; norm_num
  have e2 : ((1 : ℤ) : ℚ) * (2 : ℚ) ^ (-1 : ℤ) * 100 = ((50 : ℤ) : ℚ) * (2 : ℚ) ^ (0 : ℤ) := by
    rw [zpow_neg_one]; norm_num
  rw [hcount, e1, hhalf, e2, hfifty] at hr
  rw [hp, hr]
  norm_num

/-- The `float32` evaluation of `(2 / 3) * 100`. -/
theorem round32_two_thirds_percent :
    round32 (round32 (2 / 3) * 100) = 4369067 / 65536 := by
  have h1 : round32 (2 / 3) = ((11184811 : ℤ) : ℚ) * (2 : ℚ) ^ ((-1 : ℤ) - 23) := by
    apply round32_eval _ (-1) 11184811 (by norm_num)
    · rw [abs_of_pos (by norm_num)]; norm_num
    · rw [abs_of_pos (by norm_num)]; norm_num
    · apply roundHalfEven_eq_of_lt <;> norm_num
  have h2 : round32 (((11184811 : ℤ) : ℚ) * (2 : ℚ) ^ ((-1 : ℤ) - 23) * 100) =
      ((8738134 : ℤ) : ℚ) * (2 : ℚ) ^ ((6 : ℤ) - 23) := by
    apply round32_eval _ 6 8738134 (by norm_num)
    · rw [abs_of_pos (by norm_num)]; norm_num
    · rw [abs_of_pos (by norm_num)]; norm_num
    · apply roundHalfEven_eq_of_lt <;> norm_num
  rw [h1, h2]
  norm_num

/-- **C4, counterexample.** For the statuses `[200, 200, 404]` with count `3` two of the
three statuses are in `[200,299]`, the exact percentage is `200 / 3`, and
`calculateStats` returns `PercentSuccess = 4369067 / 65536`. -/
theorem calculateStats_percentSuccess_counterexample :
    ∃ d, calculateStats 3 [10, 20, 30] 60 [200, 200, 404] [1, 1, 1] = .ret d ∧
      (([200, 200, 404] : List Int).filter isSuccess).length = 2 ∧
      d.PercentSuccess = .fin (4369067 / 65536) ∧
      d.PercentSuccess ≠ .fin (100 * 2 / 3) := by
  have hp : percentOf 3 (failureLoop [200, 200, 404]).length = .fin (4369067 / 65536) := by
    have hl : (failureLoop [200, 200, 404]).length = 1 := by decide
    rw [hl]
    have h := percentOf_eq 3 1 (by norm_num) (by norm_num) (by norm_num)
    have e : (((3 : ℕ) : ℚ) - ((1 : ℕ) : ℚ)) / ((3 : ℕ) : ℚ) = 2 / 3 := by norm_num
    rw [e, round32_two_thirds_percent] at h
    exact h
  refine ⟨_, calculateStats_ret 3 [10, 20, 30] 60 [200, 200, 404] [1, 1, 1] (by simp),
    by decide, hp, ?_⟩
  show percentOf 3 (failureLoop [200, 200, 404]).length ≠ _
  rw [hp]
  intro hc
  injection hc with hc
  norm_num at hc

/-! ## The response sizes -/

/-- Invariant of the size loop: the running minimum is the start value or an element seen,
it is below the start value and below every element seen; dually for the maximum. -/
theorem sizeLoop_foldl (l : List Int) (lo hi : Int) :
    ((l.foldl sizeStep (lo, hi)).1 = lo ∨ (l.foldl sizeStep (lo, hi)).1 ∈ l) ∧
      (l.foldl sizeStep (lo, hi)).1 ≤ lo ∧
      (∀ s ∈ l, (l.foldl sizeStep (lo, hi)).1 ≤ s) ∧
      ((l.foldl sizeStep (lo, hi)).2 = hi ∨ (l.foldl sizeStep (lo, hi)).2 ∈ l) ∧
      hi ≤ (l.foldl sizeStep (lo, hi)).2 ∧
      (∀ s ∈ l, s ≤ (l.foldl sizeStep (lo, hi)).2) := by
  induction l generalizing lo hi with
  | nil => simp
  | cons a rest ih =>
    rw [List.foldl_cons]
    obtain ⟨h1, h2, h3, h4, h5, h6⟩ := ih (sizeStep (lo, hi) a).1 (sizeStep (lo, hi) a).2
    have hlo : (sizeStep (lo, hi) a).1 = if a < lo then a else lo := rfl
    have hhi : (sizeStep (lo, hi) a).2 = if a > hi then a else hi := rfl
    have hpair : sizeStep (lo, hi) a = ((sizeStep (lo, hi) a).1, (sizeStep (lo, hi) a).2) := rfl
    rw [hpair]
    generalize (List.foldl sizeStep ((sizeStep (lo, hi) a).1, (sizeStep (lo, hi) a).2) rest).1
      = lo' at h1 h2 h3
    generalize (List.foldl sizeStep ((sizeStep (lo, hi) a).1, (sizeStep (lo, hi) a).2) rest).2
      = hi' at h4 h5 h6
    rw [hlo] at h1 h2
    rw [hhi] at h4 h5
    refine ⟨?_, ?_, ?_, ?_, ?_, ?_⟩
    · rcases h1 with h | h
      · by_cases c : a < lo
        · rw [if_pos c] at h; right; rw [h]; exact List.mem_cons_self _ _
        · rw [if_neg c] at h; left; exact h
      · right; exact List.mem_cons_of_mem _ h
    · by_cases c : a < lo
      · rw [if_pos c] at h2; omega
      · rw [if_neg c] at h2; exact h2
    · intro s hs
      rcases List.mem_cons.mp hs with h | h
      · subst h
        by_cases c : s < lo
        · rw [if_pos c] at h2; exact h2
        · rw [if_neg c] at h2; omega
      · exact h3 s h
    · rcases h4 with h | h
      · by_cases c : a > hi
        · rw [if_pos c] at h; right; rw [h]; exact List.mem_cons_self _ _
        · rw [if_neg c] at h; left; exact h
      · right; exact List.mem_cons_of_mem _ h
    · by_cases c : a > hi
      · rw [if_pos c] at h5; omega
      · rw [if_neg c] at h5; exact h5
    · intro s hs
      rcases List.mem_cons.mp hs with h | h
      · subst h
        by_cases c : s > hi
        · rw [if_pos c] at h5; exact h5
        · rw [if_neg c] at h5; omega
      · exact h6 s h

/-- **C6.** For `n ≥ 2` measurements whose response sizes are non-negative Go integers,
`calculateStats` returns, `SmallestResponse` is the minimum and `LargestResponse` the
maximum of the input sizes: both are elements of the sizes and bound every size, so
neither sentinel survives. -/
theorem calculateStats_sizes (requestCount : Int) (respTimes : List Int) (totalTime : Int)
    (respStatusCodes respByteSize : List Int) (h : 2 ≤ respTimes.length)
    (hlen : respByteSize.length = respTimes.length)
    (hnn : ∀ s ∈ respByteSize, 0 ≤ s ∧ s ≤ MaxInt64) :
    ∃ d, calculateStats requestCount respTimes totalTime respStatusCodes respByteSize = .ret d ∧
      d.SmallestResponse ∈ respByteSize ∧ d.LargestResponse ∈ respByteSize ∧
      ∀ s ∈ respByteSize, d.SmallestResponse ≤ s ∧ s ≤ d.LargestResponse := by
  obtain ⟨h1, _, h3, h4, _, h6⟩ := sizeLoop_foldl respByteSize MaxInt64 (-1)
  have hne : respByteSize ≠ [] := by
    intro he; rw [he] at hlen; simp at hlen; omega
  obtain ⟨s0, hs0⟩ := List.exists_mem_of_ne_nil _ hne
  refine ⟨_, calculateStats_ret requestCount respTimes totalTime respStatusCodes respByteSize h,
    ?_, ?_, fun s hs => ⟨h3 s hs, h6 s hs⟩⟩
  · show (sizeLoop respByteSize).1 ∈ respByteSize
    unfold sizeLoop
    rcases h1 with he | hm
    · have ha := h3 s0 hs0
      have hb := (hnn s0 hs0).2
      have : s0 = (List.foldl sizeStep (MaxInt64, -1) respByteSize).1 := by omega
      rw [← this]; exact hs0
    · exact hm
  · show (sizeLoop respByteSize).2 ∈ respByteSize
    unfold sizeLoop
    rcases h4 with he | hm
    · have ha := h6 s0 hs0
      have hb := (hnn s0 hs0).1
      omega
    · exact hm

theorem calculateStats_sizes_witness :
    ∃ d, calculateStats 4 [10, 20, 30, 40] 100 [200, 404, 200, 500] [50, 200, 10, 999] = .ret d ∧
      d.SmallestResponse = 10 ∧ d.LargestResponse = 999 := by
  obtain ⟨d, hd, hs, hl, hb⟩ := calculateStats_sizes 4 [10, 20, 30, 40] 100
    [200, 404, 200, 500] [50, 200, 10, 999] (by decide) (by decide) (by decide)
  refine ⟨d, hd, ?_, ?_⟩
  · have h10 := (hb 10 (by decide)).1
    simp only [List.mem_cons, List.mem_singleton, List.not_mem_nil, or_false] at hs
    rcases hs with h | h | h | h <;> omega
  · have h999 := (hb 999 (by decide)).2
    simp only [List.mem_cons, List.mem_singleton, List.not_mem_nil, or_false] at hl
    rcases hl with h | h | h | h <;> omega

/-! ## The guard of `calculateStats` -/

/-- The conversion to `float32` of a count between `2` and `math.MaxInt64` is a finite
number that is at least `2`, in particular not zero. -/
theorem F32.ofInt_count (n : Int) (h2 : 2 ≤ n) (hmax : n ≤ MaxInt64) :
    ∃ q : ℚ, F32.ofInt n = .fin q ∧ 2 ≤ q := by
  have hn2 : (2 : ℚ) ≤ (n : ℚ) := by exact_mod_cast h2
  have hn63 : (n : ℚ) ≤ (2 : ℚ) ^ (63 : ℤ) := by
    have : n ≤ 2 ^ 63 := by unfold MaxInt64 at hmax; omega
    have h : ((n : ℤ) : ℚ) ≤ (((2 : ℤ) ^ 63 : ℤ) : ℚ) := by exact_mod_cast this
    norm_num at h ⊢
    exact h
  have r2 : round32 2 = 2 := by
    simpa using round32_dyadic 2 0 (by norm_num) (by norm_num)
  have r63 : round32 ((2 : ℚ) ^ (63 : ℤ)) = (2 : ℚ) ^ (63 : ℤ) := by
    simpa using round32_dyadic 1 63 (by norm_num) (by norm_num)
  have hlo := round32_mono_of_nonneg (by norm_num : (0 : ℚ) ≤ 2) hn2
  have hhi := round32_mono_of_nonneg (by linarith : (0 : ℚ) ≤ (n : ℚ)) hn63
  rw [r2] at hlo
  rw [r63] at hhi
  refine ⟨round32 (n : ℚ), ?_, hlo⟩
  unfold F32.ofInt
  apply F32.round_of_lt
  rw [abs_of_nonneg (by linarith)]
  have : (2 : ℚ) ^ (63 : ℤ) < (2 : ℚ) ^ 128 := by norm_num
  linarith

/-- **C7.** `calculateStats` returns a `Diagnostic` if and only if it is given at least two
elapsed times.  Given fewer it prints the diagnostic and exits with status `1`, computing
nothing.  It never panics (no index into the times is out of range), and when it returns
with `requestCount` the number of times, the divisor `float32(requestCount)` is a finite
non-zero number. -/
theorem calculateStats_guard (requestCount : Int) (respTimes : List Int) (totalTime : Int)
    (respStatusCodes respByteSize : List Int) :
    (2 ≤ respTimes.length ↔
      ∃ d, calculateStats requestCount respTimes totalTime respStatusCodes respByteSize
        = .ret d) ∧
    (respTimes.length ≤ 1 →
      calculateStats requestCount respTimes totalTime respStatusCodes respByteSize
        = .exit notEnoughMsg 1) ∧
    calculateStats requestCount respTimes totalTime respStatusCodes respByteSize ≠ .panic ∧
    (requestCount = respTimes.length → requestCount ≤ MaxInt64 →
      (∃ d, calculateStats requestCount respTimes totalTime respStatusCodes respByteSize
        = .ret d) →
      ∃ q : ℚ, F32.ofInt requestCount = .fin q ∧ q ≠ 0) := by
  have hexit : respTimes.length ≤ 1 →
      calculateStats requestCount respTimes totalTime respStatusCodes respByteSize
        = .exit notEnoughMsg 1 := by
    intro hle
    unfold calculateStats
    rw [if_pos hle]
  have hiff : 2 ≤ respTimes.length ↔
      ∃ d, calculateStats requestCount respTimes totalTime respStatusCodes respByteSize
        = .ret d := by
    constructor
    · intro h
      exact ⟨_, calculateStats_ret requestCount respTimes totalTime respStatusCodes
        respByteSize h⟩
    · rintro ⟨d, hd⟩
      by_contra hc
      rw [hexit (by omega)] at hd
      cases hd
  refine ⟨hiff, hexit, ?_, ?_⟩
  · by_cases h : 2 ≤ respTimes.length
    · rw [calculateStats_ret requestCount respTimes totalTime respStatusCodes respByteSize h]
      intro hc; cases hc
    · rw [hexit (by omega)]
      intro hc; cases hc
  · intro hrc hmax hret
    have h2 := hiff.mpr hret
    obtain ⟨q, hq, hq2⟩ := F32.ofInt_count requestCount (by omega) hmax
    exact ⟨q, hq, by linarith⟩

theorem calculateStats_guard_witness :
    calculateStats 1 [5] 5 [200] [10] = .exit notEnoughMsg 1 ∧
    calculateStats 0 [] 0 [] [] = .exit notEnoughMsg 1 ∧
    (∃ d, calculateStats 2 [5, 7] 12 [200, 200] [10, 10] = .ret d) ∧
    ∃ q : ℚ, F32.ofInt 2 = .fin q ∧ q ≠ 0 :=
  ⟨(calculateStats_guard 1 [5] 5 [200] [10]).2.1 (by decide),
    (calculateStats_guard 0 [] 0 [] []).2.1 (by decide),
    (calculateStats_guard 2 [5, 7] 12 [200, 200] [10, 10]).1.mp (by decide),
    (calculateStats_guard 2 [5, 7] 12 [200, 200] [10, 10]).2.2.2 (by decide) (by decide)
      ((calculateStats_guard 2 [5, 7] 12 [200, 200] [10, 10]).1.mp (by decide))⟩

/-! ## Facts about the string library calls -/

theorem splitAux_ne_nil (sep : GoString) (s : GoString) (k : Nat) : splitAux sep s k ≠ [] := by
  induction s generalizing k with
  | nil => simp [splitAux]
  | cons c rest ih =>
    cases k with
    | succ k => simp only [splitAux]; exact ih k
    | zero =>
      simp only [splitAux]
      split
      · simp
      · split <;> simp

theorem splitAux_colon_cons (c : Char) (rest : GoString) :
    splitAux COLON (c :: rest) 0 =
      if c = ':' then [] :: splitAux COLON rest 0
      else
        match splitAux COLON rest 0 with
        | p :: ps => (c :: p) :: ps
        | [] => [[c]] := by
  by_cases h : c = ':'
  · subst h; simp [splitAux, COLON, List.isPrefixOf]
  · have h2 : ¬ (':' = c) := fun e => h e.symm
    simp [splitAux, COLON, List.isPrefixOf, h, h2]

/-- A line without a colon is a single field. -/
theorem stringsSplit_colon_of_not_mem (s : GoString) (h : ':' ∉ s) :
    stringsSplit s COLON = [s] := by
  unfold stringsSplit
  induction s with
  | nil => simp [splitAux]
  | cons c rest ih =>
    have hc : c ≠ ':' := fun e => h (by rw [e]; exact List.mem_cons_self _ _)
    have hr : ':' ∉ rest := fun e => h (List.mem_cons_of_mem _ e)
    rw [splitAux_colon_cons, if_neg hc, ih hr]

/-- A line with a colon has at least two fields. -/
theorem stringsSplit_colon_of_mem (s : GoString) (h : ':' ∈ s) :
    2 ≤ (stringsSplit s COLON).length := by
  unfold stringsSplit
  induction s with
  | nil => simp at h
  | cons c rest ih =>
    rw [splitAux_colon_cons]
    by_cases hc : c = ':'
    · rw [if_pos hc]
      have := splitAux_ne_nil COLON rest 0
      have hpos : 0 < (splitAux COLON rest 0).length := List.length_pos.mpr this
      simp only [List.length_cons]
      omega
    · rw [if_neg hc]
      have hr : ':' ∈ rest := by
        rcases List.mem_cons.mp h with e | e
        · exact absurd e.symm hc
        · exact e
      have := ih hr
      cases hsp : splitAux COLON rest 0 with
      | nil => rw [hsp] at this; simp at this
      | cons p ps => rw [hsp] at this; simpa using this

theorem isDigit_bounds (c : Char) (h : c.isDigit = true) : 48 ≤ c.toNat ∧ c.toNat ≤ 57 := by
  simp only [Char.isDigit, Bool.and_eq_true, decide_eq_true_eq] at h
  obtain ⟨h1, h2⟩ := h
  have a1 : (48 : UInt32).toNat ≤ c.val.toNat := h1
  have a2 : c.val.toNat ≤ (57 : UInt32).toNat := h2
  exact ⟨a1, a2⟩

theorem isDigit_ne_sign (c : Char) (h : c.isDigit = true) : c ≠ '-' ∧ c ≠ '+' := by
  constructor
  · intro e; subst e; revert h; decide
  · intro e; subst e; revert h; decide

theorem digits_foldl_le (l : GoString) (n : Nat) :
    n ≤ l.foldl (fun n ch => n * 10 + (ch.toNat - '0'.toNat)) n := by
  induction l generalizing n with
  | nil => exact Nat.le_refl n
  | cons c rest ih =>
    simp only [List.foldl_cons]
    have := ih (n * 10 + (c.toNat - '0'.toNat))
    omega

/-- The loop of `strconv.ParseUint` in closed form: a range error when the digits before
the first byte that is not a digit exceed `2 ^ 64 - 1`, else a syntax error when there is
such a byte, else the value of the digits. -/
theorem parseUintLoop_eq (s : GoString) (n : Nat) (hn : n ≤ 2 ^ 64 - 1) :
    parseUintLoop s n =
      if 2 ^ 64 - 1 <
          (s.takeWhile Char.isDigit).foldl (fun n ch => n * 10 + (ch.toNat - '0'.toNat)) n then
        .error .outOfRange
      else if s.all Char.isDigit = true then
        .ok (s.foldl (fun n ch => n * 10 + (ch.toNat - '0'.toNat)) n)
      else .error .invalid := by
  induction s generalizing n with
  | nil =>
    simp only [parseUintLoop, List.takeWhile_nil, List.foldl_nil, List.all_nil, if_true]
    rw [if_neg (by omega)]
  | cons c rest ih =>
    by_cases hc : c.isDigit = true
    · simp only [parseUintLoop, hc, if_true, List.takeWhile_cons, List.foldl_cons,
        List.all_cons, Bool.true_and]
      by_cases hov : 2 ^ 64 - 1 < n * 10 + (c.toNat - '0'.toNat)
      · rw [if_pos hov]
        have := digits_foldl_le (rest.takeWhile Char.isDigit) (n * 10 + (c.toNat - '0'.toNat))
        rw [if_pos (by omega)]
      · rw [if_neg hov]
        exact ih _ (by omega)
    · have hf : c.isDigit = false := by simpa using hc
      simp only [parseUintLoop, hf, List.takeWhile_cons, List.foldl_nil, List.all_cons,
        Bool.false_and, Bool.false_eq_true, if_false]
      rw [if_neg (by omega)]

/-- When the digits before the first byte that is not a digit do not exceed `2 ^ 64 - 1`,
`strconv.Atoi` gives `0` for a text that is not a run of digits after an optional sign, and
otherwise the number, clamped to the range of `int`. -/
theorem atoi_of_no_overflow (s : GoString)
    (hno : digitsValue ((if s.head? = some '-' ∨ s.head? = some '+' then s.tail else s).takeWhile
      Char.isDigit) < 2 ^ 64) :
    atoi s =
      if (if s.head? = some '-' ∨ s.head? = some '+' then s.tail else s) = [] ∨
          ¬ ((if s.head? = some '-' ∨ s.head? = some '+' then s.tail else s).all Char.isDigit
            = true) then 0
      else if s.head? = some '-' then
        (if 2 ^ 63 < digitsValue (if s.head? = some '-' ∨ s.head? = some '+' then s.tail else s)
          then MinInt64
          else -(digitsValue (if s.head? = some '-' ∨ s.head? = some '+' then s.tail else s)
            : Int))
      else
        (if 2 ^ 63 ≤ digitsValue (if s.head? = some '-' ∨ s.head? = some '+' then s.tail else s)
          then MaxInt64
          else (digitsValue (if s.head? = some '-' ∨ s.head? = some '+' then s.tail else s)
            : Int)) := by
  unfold atoi
  simp only
  generalize (if s.head? = some '-' ∨ s.head? = some '+' then s.tail else s) = ds at hno ⊢
  by_cases hnil : ds = []
  · rw [if_pos hnil, if_pos (Or.inl hnil)]
  · rw [if_neg hnil, parseUintLoop_eq ds 0 (by norm_num)]
    have hno2 : ¬ 2 ^ 64 - 1 <
        (ds.takeWhile Char.isDigit).foldl (fun n ch => n * 10 + (ch.toNat - '0'.toNat)) 0 := by
      unfold digitsValue at hno
      omega
    rw [if_neg hno2]
    by_cases hall : ds.all Char.isDigit = true
    · have hcond : ¬ (ds = [] ∨ ¬ ds.all Char.isDigit = true) := by
        intro h
        rcases h with h | h
        · exact hnil h
        · exact h hall
      rw [if_pos hall, if_neg hcond]
      rfl
    · rw [if_neg hall, if_pos (Or.inr hall)]

/-- When the digits before the first byte that is not a digit exceed `2 ^ 64 - 1`,
`strconv.Atoi` gives the smallest `int` after a minus sign and the largest otherwise,
whatever follows those digits. -/
theorem atoi_of_overflow (s : GoString)
    (hov : 2 ^ 64 ≤ digitsValue
      ((if s.head? = some '-' ∨ s.head? = some '+' then s.tail else s).takeWhile
        Char.isDigit)) :
    atoi s = if s.head? = some '-' then MinInt64 else MaxInt64 := by
  unfold atoi
  simp only
  generalize (if s.head? = some '-' ∨ s.head? = some '+' then s.tail else s) = ds at hov ⊢
  have hnil : ds ≠ [] := by
    intro e
    rw [e] at hov
    simp [digitsValue] at hov
  rw [if_neg hnil, parseUintLoop_eq ds 0 (by norm_num)]
  have hov2 : 2 ^ 64 - 1 <
      (ds.takeWhile Char.isDigit).foldl (fun n ch => n * 10 + (ch.toNat - '0'.toNat)) 0 := by
    unfold digitsValue at hov
    omega
  rw [if_pos hov2]

theorem takeWhile_isDigit_of_all (ds : GoString) (h : ds.all Char.isDigit = true) :
    ds.takeWhile Char.isDigit = ds := by
  rw [List.takeWhile_eq_self_iff]
  intro c hc
  exact (List.all_eq_true.mp h) c hc

/-- A non-empty run of decimal digits whose value is in the range of `int` is read by
`strconv.Atoi` as that value. -/
theorem atoi_digits (ds : GoString) (hne : ds ≠ []) (hd : ds.all Char.isDigit = true)
    (hr : digitsValue ds < 2 ^ 63) : atoi ds = (digitsValue ds : Int) := by
  cases ds with
  | nil => exact absurd rfl hne
  | cons c cs =>
    have hc : c.isDigit = true := by
      simp only [List.all_cons, Bool.and_eq_true] at hd
      exact hd.1
    obtain ⟨n1, n2⟩ := isDigit_ne_sign c hc
    have hbody : (if (c :: cs).head? = some '-' ∨ (c :: cs).head? = some '+' then (c :: cs).tail
        else c :: cs) = c :: cs := by
      simp [n1, n2]
    have hno : digitsValue ((if (c :: cs).head? = some '-' ∨ (c :: cs).head? = some '+' then
        (c :: cs).tail else c :: cs).takeWhile Char.isDigit) < 2 ^ 64 := by
      rw [hbody, takeWhile_isDigit_of_all _ hd]
      omega
    rw [atoi_of_no_overflow _ hno, hbody]
    have hcond : ¬ (c :: cs = [] ∨ ¬ (c :: cs).all Char.isDigit = true) := by
      intro h
      rcases h with h | h
      · cases h
      · exact h hd
    have hneg : ¬ (c :: cs).head? = some '-' := by simp [n1]
    rw [if_neg hcond, if_neg hneg, if_neg (by omega)]

/-- The value that `strconv.Atoi` gives to three decimal digits. -/
theorem atoi_three_digits (c1 c2 c3 : Char) (h1 : c1.isDigit = true) (h2 : c2.isDigit = true)
    (h3 : c3.isDigit = true) :
    atoi [c1, c2, c3] =
      ((c1.toNat - 48 : ℕ) : Int) * 100 + ((c2.toNat - 48 : ℕ) : Int) * 10 +
        ((c3.toNat - 48 : ℕ) : Int) := by
  have b1 := isDigit_bounds c1 h1
  have b2 := isDigit_bounds c2 h2
  have b3 := isDigit_bounds c3 h3
  have hv : digitsValue [c1, c2, c3] =
      (c1.toNat - 48) * 100 + (c2.toNat - 48) * 10 + (c3.toNat - 48) := by
    simp only [digitsValue, List.foldl_cons, List.foldl_nil]
    have : '0'.toNat = 48 := by decide
    rw [this]
    ring
  have hall : ([c1, c2, c3] : GoString).all Char.isDigit = true := by
    simp [h1, h2, h3]
  rw [atoi_digits [c1, c2, c3] (by simp) hall (by rw [hv]; omega), hv]
  push_cast
  rfl

/-! ## Facts about the loop of `handleResponse` -/

theorem assignField_Status (response : HTTPResponse) (t f : GoString) :
    (assignField response t f).Status = response.Status := by
  simp only [assignField, apply_ite HTTPResponse.Status, ite_self]

/-- After the first blank line every line is appended to the body. -/
theorem handleLine_body (response : HTTPResponse) (line : GoString) :
    handleLine (response, true) line =
      .ret ({ response with Body := response.Body ++ line }, true) := by
  unfold handleLine
  simp

/-- A blank line starts the body. -/
theorem handleLine_blank (response : HTTPResponse) (b : Bool) :
    handleLine (response, b) [] = .ret ({ response with Body := response.Body ++ [] }, true) := by
  unfold handleLine
  simp

/-- A line with a colon, met before the body, takes the header path and returns. -/
theorem handleLine_header (response : HTTPResponse) (line : GoString) (h : ':' ∈ line) :
    ∃ t f, handleLine (response, false) line = .ret (assignField response t f, false) := by
  have hlen := stringsSplit_colon_of_mem line h
  have hne : ¬ line.length = 0 := by
    intro e; rw [List.length_eq_zero] at e; rw [e] at h; simp at h
  unfold handleLine
  simp only [Bool.false_eq_true, false_or, if_neg hne]
  rw [if_neg (by omega)]
  unfold headerLine
  rw [index_of_lt (stringsSplit line COLON) 0 0 [] rfl (by omega),
    index_of_lt (stringsSplit line COLON) 1 1 [] rfl (by omega)]
  exact ⟨_, _, rfl⟩

theorem handleLines_body_status (rest : List GoString) (response : HTTPResponse) :
    ∃ r, handleLines rest (response, true) = .ret (r, true) ∧ r.Status = response.Status := by
  induction rest generalizing response with
  | nil => exact ⟨response, rfl, rfl⟩
  | cons line rest ih =>
    obtain ⟨r, hr, hs⟩ := ih { response with Body := response.Body ++ line }
    refine ⟨r, ?_, hs⟩
    simp only [handleLines, handleLine_body, Run.bind]
    exact hr

/-- When every line before the first blank line has a colon, the loop returns and leaves
the status as it found it. -/
theorem handleLines_headers_status (rest : List GoString) (response : HTTPResponse)
    (h : ∀ l ∈ rest.takeWhile (fun l => !l.isEmpty), ':' ∈ l) :
    ∃ r b, handleLines rest (response, false) = .ret (r, b) ∧ r.Status = response.Status := by
  induction rest generalizing response with
  | nil => exact ⟨response, false, rfl, rfl⟩
  | cons line rest ih =>
    cases line with
    | nil =>
      obtain ⟨r, hr, hs⟩ := handleLines_body_status rest { response with Body := response.Body ++ [] }
      refine ⟨r, true, ?_, hs⟩
      simp only [handleLines, handleLine_blank, Run.bind]
      exact hr
    | cons c cs =>
      have hcol : ':' ∈ c :: cs := h (c :: cs) (by simp [List.takeWhile])
      have hrest : ∀ l ∈ rest.takeWhile (fun l => !l.isEmpty), ':' ∈ l := by
        intro l hl
        exact h l (by simp [List.takeWhile, hl])
      obtain ⟨t, f, hline⟩ := handleLine_header response (c :: cs) hcol
      obtain ⟨r, b, hr, hs⟩ := ih (assignField response t f) hrest
      refine ⟨r, b, ?_, by rw [hs, assignField_Status]⟩
      simp only [handleLines, hline, Run.bind]
      exact hr

/-- A colon-free line of the shape `HTTP/x.y NNN ...`, met before the body, sets the
status from the three digits. -/
theorem handleLine_statusLine (response : HTTPResponse) (x y c1 c2 c3 : Char)
    (reason : GoString) (hx : x ≠ ':') (hy : y ≠ ':') (hr : ':' ∉ reason)
    (h1 : c1.isDigit = true) (h2 : c2.isDigit = true) (h3 : c3.isDigit = true) :
    handleLine (response, false)
        (['H', 'T', 'T', 'P', '/', x, '.', y, ' ', c1, c2, c3, ' '] ++ reason) =
      .ret ({ response with Status := atoi [c1, c2, c3] }, false) := by
  have hd1 := (isDigit_ne_sign c1 h1)
  have c1c : c1 ≠ ':' := by intro e; subst e; revert h1; decide
  have c2c : c2 ≠ ':' := by intro e; subst e; revert h2; decide
  have c3c : c3 ≠ ':' := by intro e; subst e; revert h3; decide
  have hnc : ':' ∉ (['H', 'T', 'T', 'P', '/', x, '.', y, ' ', c1, c2, c3, ' '] ++ reason) := by
    intro hm
    rcases List.mem_append.mp hm with hm | hm
    · simp only [List.mem_cons, List.mem_singleton, List.not_mem_nil, or_false] at hm
      rcases hm with e | e | e | e | e | e | e | e | e | e | e | e | e
      · exact absurd e (by decide)
      · exact absurd e (by decide)
      · exact absurd e (by decide)
      · exact absurd e (by decide)
      · exact absurd e (by decide)
      · exact hx e.symm
      · exact absurd e (by decide)
      · exact hy e.symm
      · exact absurd e (by decide)
      · exact c1c e.symm
      · exact c2c e.symm
      · exact c3c e.symm
      · exact absurd e (by decide)
    · exact hr hm
  have hsplit := stringsSplit_colon_of_not_mem _ hnc
  unfold handleLine
  simp only [hsplit]
  have hcont : stringsContains
      (['H', 'T', 'T', 'P', '/', x, '.', y, ' ', c1, c2, c3, ' '] ++ reason) HTTP = true := by
    simp [stringsContains, HTTP, List.isPrefixOf]
  have hslice : slice (['H', 'T', 'T', 'P', '/', x, '.', y, ' ', c1, c2, c3, ' '] ++ reason)
      9 12 = .ret [c1, c2, c3] := by
    unfold slice
    rw [if_pos (by simp)]
    rfl
  have hidx : index [(['H', 'T', 'T', 'P', '/', x, '.', y, ' ', c1, c2, c3, ' '] ++ reason)] 0
      = .ret (['H', 'T', 'T', 'P', '/', x, '.', y, ' ', c1, c2, c3, ' '] ++ reason) := by
    simp [index]
  simp only [Bool.false_eq_true, false_or, List.length_singleton, if_true, hidx, Run.bind, hcont,
    hslice]
  rw [if_neg (by simp)]



/-- **C8 (as amended).** For every raw response whose first line has the shape
`HTTP/x.y NNN <reason text>` with three decimal digits `NNN` and no colon in the line, and
in which every later line before the first blank line contains a colon, `handleResponse`
returns with `Status = NNN`. -/
theorem handleResponse_status (response_str : GoString) (x y c1 c2 c3 : Char)
    (reason : GoString) (rest : List GoString)
    (hlines : stringsSplit response_str CRLF =
      (['H', 'T', 'T', 'P', '/', x, '.', y, ' ', c1, c2, c3, ' '] ++ reason) :: rest)
    (h1 : c1.isDigit = true) (h2 : c2.isDigit = true) (h3 : c3.isDigit = true)
    (hx : x ≠ ':') (hy : y ≠ ':') (hr : ':' ∉ reason)
    (hrest : ∀ l ∈ rest.takeWhile (fun l => !l.isEmpty), ':' ∈ l) :
    ∃ r, handleResponse response_str = .ret r ∧
      r.Status = ((c1.toNat - 48 : ℕ) : Int) * 100 + ((c2.toNat - 48 : ℕ) : Int) * 10 +
        ((c3.toNat - 48 : ℕ) : Int) := by
  have hline := handleLine_statusLine {} x y c1 c2 c3 reason hx hy hr h1 h2 h3
  obtain ⟨r, b, hrun, hs⟩ := handleLines_headers_status rest
    { ({} : HTTPResponse) with Status := atoi [c1, c2, c3] } hrest
  refine ⟨r, ?_, ?_⟩
  · unfold handleResponse
    rw [hlines]
    simp only [handleLines, hline, Run.bind]
    rw [hrun]
  · rw [hs]
    exact atoi_three_digits c1 c2 c3 h1 h2 h3

theorem handleResponse_status_witness :
    (∃ r, handleResponse "HTTP/1.0 200 OK".toList = .ret r ∧ r.Status = 200) ∧
    (∃ r, handleResponse "HTTP/1.1 404 Not Found\r\nServer:x\r\n\r\nbody".toList = .ret r ∧
      r.Status = 404) := by
  constructor
  · obtain ⟨r, hr, hs⟩ := handleResponse_status "HTTP/1.0 200 OK".toList '1' '0' '2' '0' '0'
      "OK".toList [] (by decide) (by decide) (by decide) (by decide) (by decide) (by decide)
      (by decide) (by decide)
    exact ⟨r, hr, by rw [hs]; decide⟩
  · obtain ⟨r, hr, hs⟩ := handleResponse_status
      "HTTP/1.1 404 Not Found\r\nServer:x\r\n\r\nbody".toList '1' '1' '4' '0' '4'
      "Not Found".toList ["Server:x".toList, [], "body".toList]
      (by decide) (by decide) (by decide) (by decide) (by decide) (by decide)
      (by decide) (by decide)
    exact ⟨r, hr, by rw [hs]; decide⟩

/-- **C8, counterexample.** The first line `HTTP/1.1 200 OK: fine` has the digits `200` at
byte offsets 9..12 and a colon in its reason text: `handleResponse` returns `Status = 0`.
And after the status line `HTTP/1.0 200 OK` a second colon-free line containing `HTTP`
replaces the status: `handleResponse` returns `Status = 404`. -/
theorem handleResponse_status_counterexample :
    (slice "HTTP/1.1 200 OK: fine".toList 9 12 = .ret "200".toList ∧
      ∃ r, handleResponse "HTTP/1.1 200 OK: fine\r\n\r\nbody".toList = .ret r ∧
        r.Status = 0 ∧ r.Status ≠ 200) ∧
    (∃ r, handleResponse "HTTP/1.0 200 OK\r\nHTTP/1.0 404 Not Found\r\n\r\n".toList = .ret r ∧
      r.Status = 404 ∧ r.Status ≠ 200) := by
  refine ⟨⟨by decide, ?_⟩, ?_⟩
  · exact ⟨{ Body := "body".toList }, by decide, by decide, by decide⟩
  · exact ⟨{ Status := 404 }, by decide, by decide, by decide⟩

/-- **C9, the code at the failing input.** For the header line
`Date: Mon, 01 Jan 2020 10:00:00 GMT` the text after the first colon is
` Mon, 01 Jan 2020 10:00:00 GMT`; `handleResponse` stores ` Mon, 01 Jan 2020 10`, the text
between the first and the second colon. -/
theorem handleResponse_date_truncated :
    ∃ r, handleResponse
        "HTTP/1.0 200 OK\r\nDate: Mon, 01 Jan 2020 10:00:00 GMT\r\n\r\n".toList = .ret r ∧
      r.Date = " Mon, 01 Jan 2020 10".toList ∧
      r.Date ≠ " Mon, 01 Jan 2020 10:00:00 GMT".toList :=
  ⟨{ Status := 200, Date := " Mon, 01 Jan 2020 10".toList }, by decide, by decide, by decide⟩

/-- A colon-free, non-blank line without `HTTP`, met before the body, makes the loop body
panic: the index `line_split[1]` is out of range. -/
theorem handleLine_panic (response : HTTPResponse) (line : GoString) (hne : line ≠ [])
    (hc : ':' ∉ line) (hh : stringsContains line HTTP = false) :
    handleLine (response, false) line = .panic := by
  have hlen : ¬ line.length = 0 := by
    intro e; exact hne (List.length_eq_zero.mp e)
  unfold handleLine
  simp only [stringsSplit_colon_of_not_mem line hc, Bool.false_eq_true, false_or, if_neg hlen,
    List.length_singleton, if_true]
  have hidx : index [line] 0 = .ret line := by simp [index]
  simp only [hidx, Run.bind, hh, Bool.false_eq_true, if_false, headerLine]
  have hidx1 : index [line] 1 = .panic := by simp [index]
  simp only [hidx1, Run.bind]

/-- **C10, the code at the failing input.** With the colon-free line `foo` between the
status line and the blank line `handleResponse` panics; with that line absent it
returns. -/
theorem handleResponse_colonFree_panics :
    handleResponse "HTTP/1.0 200 OK\r\nfoo\r\n\r\nbody".toList = .panic ∧
    handleResponse "HTTP/1.0 200 OK\r\n\r\nbody".toList =
      .ret { Status := 200, Body := "body".toList } :=
  ⟨by decide, by decide⟩


/-! ## The fields of a header line -/

/-- Splitting at the first colon: the text before it is the first field. -/
theorem stringsSplit_colon_append (a b : GoString) (ha : ':' ∉ a) :
    stringsSplit (a ++ ':' :: b) COLON = a :: stringsSplit b COLON := by
  unfold stringsSplit
  induction a with
  | nil => rw [List.nil_append, splitAux_colon_cons, if_pos rfl]
  | cons c rest ih =>
    have hc : c ≠ ':' := fun e => ha (by rw [e]; exact List.mem_cons_self _ _)
    have hr : ':' ∉ rest := fun e => ha (List.mem_cons_of_mem _ e)
    rw [List.cons_append, splitAux_colon_cons, if_neg hc, ih hr]

/-- The first field of any string is its text up to the first colon. -/
theorem stringsSplit_colon_head (s : GoString) :
    ∃ tl, stringsSplit s COLON = s.takeWhile (fun c => c != ':') :: tl := by
  unfold stringsSplit
  induction s with
  | nil => exact ⟨[], by simp [splitAux]⟩
  | cons c rest ih =>
    obtain ⟨tl, htl⟩ := ih
    rw [splitAux_colon_cons]
    by_cases hc : c = ':'
    · subst hc
      rw [if_pos rfl]
      exact ⟨splitAux COLON rest 0, by simp [List.takeWhile]⟩
    · rw [if_neg hc, htl]
      have hb : (c != ':') = true := by simpa using hc
      exact ⟨tl, by simp only [List.takeWhile, hb]⟩

/-- Every string with a colon is a colon-free name, a colon, and a remainder. -/
theorem exists_name_of_mem_colon (l : GoString) (h : ':' ∈ l) :
    ∃ a b, l = a ++ ':' :: b ∧ ':' ∉ a := by
  induction l with
  | nil => simp at h
  | cons c rest ih =>
    by_cases hc : c = ':'
    · exact ⟨[], rest, by simp [hc], by simp⟩
    · have hr : ':' ∈ rest := by
        rcases List.mem_cons.mp h with e | e
        · exact absurd e.symm hc
        · exact e
      obtain ⟨a, b, hab, ha⟩ := ih hr
      refine ⟨c :: a, b, by simp [hab], ?_⟩
      intro hm
      rcases List.mem_cons.mp hm with e | e
      · exact hc e.symm
      · exact ha e

/-- The loop body on a header line `name:rest`, met before the body: the field `name`
receives the text of `rest` up to its first colon. -/
theorem handleLine_field (response : HTTPResponse) (a b : GoString) (ha : ':' ∉ a) :
    handleLine (response, false) (a ++ ':' :: b) =
      .ret (assignField response a (b.takeWhile (fun c => c != ':')), false) := by
  obtain ⟨tl, htl⟩ := stringsSplit_colon_head b
  have hsplit : stringsSplit (a ++ ':' :: b) COLON =
      a :: b.takeWhile (fun c => c != ':') :: tl := by
    rw [stringsSplit_colon_append a b ha, htl]
  have hne : ¬ (a ++ ':' :: b).length = 0 := by simp
  unfold handleLine
  simp only [hsplit, Bool.false_eq_true, false_or, if_neg hne]
  rw [if_neg (by simp)]
  unfold headerLine
  rw [index_of_lt _ 0 0 [] rfl (by simp), index_of_lt _ 1 1 [] rfl (by simp)]
  rfl

/-- The loop body on a colon-free line that contains `HTTP` and has at least twelve bytes,
met before the body: the status is read from bytes 9..12. -/
theorem handleLine_http (response : HTTPResponse) (line : GoString) (hc : ':' ∉ line)
    (hh : stringsContains line HTTP = true) (hlen : 12 ≤ line.length) :
    handleLine (response, false) line =
      .ret ({ response with Status := atoi ((line.drop 9).take (12 - 9)) }, false) := by
  have hne : ¬ line.length = 0 := by omega
  unfold handleLine
  simp only [stringsSplit_colon_of_not_mem line hc, Bool.false_eq_true, false_or, if_neg hne,
    List.length_singleton, if_true]
  have hidx : index [line] 0 = .ret line := by simp [index]
  have hslice : slice line 9 12 = .ret ((line.drop 9).take (12 - 9)) := by
    unfold slice
    rw [if_pos ⟨by norm_num, hlen⟩]
  simp only [hidx, Run.bind, hh, if_true, hslice]

/-- A colon-free line that contains `HTTP` but has fewer than twelve bytes, met before the
body, makes the loop body panic: the slice `[9:12]` is out of range. -/
theorem handleLine_http_short (response : HTTPResponse) (line : GoString) (hne : line ≠ [])
    (hc : ':' ∉ line) (hh : stringsContains line HTTP = true) (hlen : ¬ 12 ≤ line.length) :
    handleLine (response, false) line = .panic := by
  have hne0 : ¬ line.length = 0 := by
    intro e; exact hne (List.length_eq_zero.mp e)
  unfold handleLine
  simp only [stringsSplit_colon_of_not_mem line hc, Bool.false_eq_true, false_or, if_neg hne0,
    List.length_singleton, if_true]
  have hidx : index [line] 0 = .ret line := by simp [index]
  have hslice : slice line 9 12 = .panic := by
    unfold slice
    rw [if_neg (fun h => hlen h.2)]
  simp only [hidx, Run.bind, hh, if_true, hslice]

theorem assignField_Body (response : HTTPResponse) (t f : GoString) :
    (assignField response t f).Body = response.Body := by
  simp only [assignField, apply_ite HTTPResponse.Body, ite_self]

/-- Whenever the loop body returns on a non-blank line met before the body, the body has
not started and the text of the body is unchanged. -/
theorem handleLine_ret_body (response r : HTTPResponse) (b : Bool) (line : GoString)
    (hne : line ≠ []) (h : handleLine (response, false) line = .ret (r, b)) :
    b = false ∧ r.Body = response.Body := by
  by_cases hc : ':' ∈ line
  · obtain ⟨a, t, hl, ha⟩ := exists_name_of_mem_colon line hc
    rw [hl, handleLine_field response a t ha] at h
    injection h with h
    injection h with h1 h2
    exact ⟨h2.symm, by rw [← h1, assignField_Body]⟩
  · by_cases hh : stringsContains line HTTP = true
    · by_cases hlen : 12 ≤ line.length
      · rw [handleLine_http response line hc hh hlen] at h
        injection h with h
        injection h with h1 h2
        exact ⟨h2.symm, by rw [← h1]⟩
      · rw [handleLine_http_short response line hne hc hh hlen] at h
        cases h
    · rw [handleLine_panic response line hne hc (by simpa using hh)] at h
      cases h

/-- After the first blank line the loop returns, with every remaining line appended to the
body. -/
theorem handleLines_body_eq (rest : List GoString) (response : HTTPResponse) :
    handleLines rest (response, true) =
      .ret ({ response with Body := response.Body ++ rest.flatten }, true) := by
  induction rest generalizing response with
  | nil => simp [handleLines]
  | cons line rest ih =>
    simp only [handleLines, handleLine_body, Run.bind]
    rw [ih]
    simp [List.append_assoc]

/-- Whenever the loop returns, the body is the text it started with followed by the lines
after the first blank line, concatenated. -/
theorem handleLines_ret_body (lines : List GoString) (response r : HTTPResponse) (b : Bool)
    (h : handleLines lines (response, false) = .ret (r, b)) :
    r.Body = response.Body ++ ((lines.dropWhile (fun l => !l.isEmpty)).drop 1).flatten := by
  induction lines generalizing response with
  | nil =>
    simp only [handleLines] at h
    injection h with h
    injection h with h1 h2
    simp [← h1]
  | cons line rest ih =>
    cases line with
    | nil =>
      simp only [handleLines, handleLine_blank, Run.bind] at h
      rw [handleLines_body_eq] at h
      injection h with h
      injection h with h1 h2
      simp [← h1, List.dropWhile]
    | cons c cs =>
      simp only [handleLines] at h
      cases hl : handleLine (response, false) (c :: cs) with
      | ret st =>
        obtain ⟨r1, b1⟩ := st
        obtain ⟨hb, hbody⟩ := handleLine_ret_body response r1 b1 (c :: cs) (by simp) hl
        subst hb
        rw [hl] at h
        simp only [Run.bind] at h
        have := ih r1 h
        rw [this, hbody]
        simp [List.dropWhile]
      | exit s code => rw [hl] at h; simp only [Run.bind] at h; cases h
      | panic => rw [hl] at h; simp only [Run.bind] at h; cases h

/-- **C12 (as amended).** For every raw response on which `handleResponse` returns, `Body`
is the concatenation, with no separators, of all the lines that follow the first blank
line; when there is no blank line it is the empty string. -/
theorem handleResponse_body (response_str : GoString) (r : HTTPResponse)
    (h : handleResponse response_str = .ret r) :
    r.Body = (((stringsSplit response_str CRLF).dropWhile (fun l => !l.isEmpty)).drop 1).flatten ∧
      ((∀ l ∈ stringsSplit response_str CRLF, l ≠ []) → r.Body = []) := by
  unfold handleResponse at h
  cases hl : handleLines (stringsSplit response_str CRLF) ({}, false) with
  | ret st =>
    obtain ⟨r1, b1⟩ := st
    rw [hl] at h
    simp only [Run.bind] at h
    injection h with h
    subst h
    have hb := handleLines_ret_body _ _ _ _ hl
    have hb' : r1.Body =
        (((stringsSplit response_str CRLF).dropWhile (fun l => !l.isEmpty)).drop 1).flatten := by
      rw [hb]; rfl
    refine ⟨hb', ?_⟩
    intro hall
    rw [hb']
    have : (stringsSplit response_str CRLF).dropWhile (fun l => !l.isEmpty) = [] := by
      rw [List.dropWhile_eq_nil_iff]
      intro l hlmem
      have := hall l hlmem
      cases l with
      | nil => exact absurd rfl this
      | cons c cs => rfl
    rw [this]
    rfl
  | exit s code => rw [hl] at h; simp only [Run.bind] at h; cases h
  | panic => rw [hl] at h; simp only [Run.bind] at h; cases h

theorem handleResponse_body_witness :
    ∃ r, handleResponse "HTTP/1.0 200 OK\r\nServer:x\r\n\r\nab\r\n\r\nX:y\r\ncd".toList = .ret r ∧
      r.Body = "abX:ycd".toList := by
  have hr : handleResponse "HTTP/1.0 200 OK\r\nServer:x\r\n\r\nab\r\n\r\nX:y\r\ncd".toList =
      .ret { Status := 200, Server := "x".toList, Body := "abX:ycd".toList } := by decide
  exact ⟨_, hr, by rw [(handleResponse_body _ _ hr).1]; decide⟩

/-- **C12, counterexample.** The raw response of a blank line followed by the bytes
`a \r \r \n \n b` has the lines `a\r` and `\nb` after the blank line: `handleResponse`
returns, and `Body` is `a\r\nb`, which contains the sequence `\r\n`. -/
theorem handleResponse_body_counterexample :
    stringsSplit "\r\na\r\r\n\nb".toList CRLF = ["".toList, "a\r".toList, "\nb".toList] ∧
    ∃ r, handleResponse "\r\na\r\r\n\nb".toList = .ret r ∧ r.Body = "a\r\nb".toList ∧
      stringsContains r.Body CRLF = true :=
  ⟨by decide, { Body := "a\r\nb".toList }, by decide, by decide, by decide⟩

/-! ## Safety of `handleResponse` on well-formed header sections -/

/-- The loop body returns on every non-blank line that has a colon, or contains `HTTP` and
has at least twelve bytes. -/
theorem handleLine_wellFormed (response : HTTPResponse) (line : GoString)
    (h : ':' ∈ line ∨ (stringsContains line HTTP = true ∧ 12 ≤ line.length)) :
    ∃ r, handleLine (response, false) line = .ret (r, false) := by
  by_cases hc : ':' ∈ line
  · obtain ⟨a, t, hl, ha⟩ := exists_name_of_mem_colon line hc
    exact ⟨_, by rw [hl, handleLine_field response a t ha]⟩
  · rcases h with h | ⟨hh, hlen⟩
    · exact absurd h hc
    · exact ⟨_, handleLine_http response line hc hh hlen⟩

theorem handleLines_wellFormed (lines : List GoString) (response : HTTPResponse)
    (h : ∀ l ∈ lines.takeWhile (fun l => !l.isEmpty),
      ':' ∈ l ∨ (stringsContains l HTTP = true ∧ 12 ≤ l.length)) :
    ∃ r b, handleLines lines (response, false) = .ret (r, b) := by
  induction lines generalizing response with
  | nil => exact ⟨response, false, rfl⟩
  | cons line rest ih =>
    cases line with
    | nil =>
      have hb := handleLines_body_eq rest { response with Body := response.Body ++ [] }
      exact ⟨_, true, by simp only [handleLines, handleLine_blank, Run.bind]; exact hb⟩
    | cons c cs =>
      have hline := h (c :: cs) (by simp [List.takeWhile])
      have hrest : ∀ l ∈ rest.takeWhile (fun l => !l.isEmpty),
          ':' ∈ l ∨ (stringsContains l HTTP = true ∧ 12 ≤ l.length) := by
        intro l hl
        exact h l (by simp [List.takeWhile, hl])
      obtain ⟨r1, hr1⟩ := handleLine_wellFormed response (c :: cs) hline
      obtain ⟨r, b, hr⟩ := ih r1 hrest
      exact ⟨r, b, by simp only [handleLines, hr1, Run.bind]; exact hr⟩

/-- **C19.** For every raw response in which every line before the first blank line either
contains a colon, or contains `HTTP` and is at least twelve bytes long, `handleResponse`
returns normally: neither the slice `line[9:12]` nor the index `line_split[1]` is out of
range. -/
theorem handleResponse_returns (response_str : GoString)
    (h : ∀ l ∈ (stringsSplit response_str CRLF).takeWhile (fun l => !l.isEmpty),
      ':' ∈ l ∨ (stringsContains l HTTP = true ∧ 12 ≤ l.length)) :
    ∃ r, handleResponse response_str = .ret r := by
  obtain ⟨r, b, hr⟩ := handleLines_wellFormed _ {} h
  exact ⟨r, by unfold handleResponse; rw [hr]; rfl⟩

theorem handleResponse_returns_witness :
    ∃ r, handleResponse
      "HTTP/1.1 200 OK\r\nDate: Mon, 01 Jan 2020 10:00:00 GMT\r\nX-Foo:bar\r\n\r\nfoo\r\nHTTP".toList
        = .ret r :=
  handleResponse_returns _ (by decide)

/-! ## Unrecognised header names -/

/-- A name outside the eleven recognised ones assigns nothing. -/
theorem assignField_unrecognised (response : HTTPResponse) (t f : GoString)
    (h : t ∉ recognisedNames) : assignField response t f = response := by
  simp only [recognisedNames, List.mem_cons, List.mem_singleton, List.not_mem_nil, or_false,
    not_or] at h
  obtain ⟨h1, h2, h3, h4, h5, h6, h7, h8, h9, h10, h11⟩ := h
  unfold assignField
  rw [if_neg h1, if_neg h2, if_neg h3, if_neg h4, if_neg h5, if_neg h6, if_neg h7, if_neg h8,
    if_neg h9, if_neg h10, if_neg h11]

/-- Lines before the first blank line that the loop body leaves the state unchanged on can
be removed. -/
theorem handleLines_remove (pre post : List GoString) (line : GoString)
    (st : HTTPResponse × Bool)
    (hline : ∀ response, handleLine (response, false) line = .ret (response, false))
    (hst : st.2 = false) (hpre : ∀ p ∈ pre, p ≠ []) :
    handleLines (pre ++ line :: post) st = handleLines (pre ++ post) st := by
  induction pre generalizing st with
  | nil =>
    obtain ⟨r, b⟩ := st
    simp only at hst
    subst hst
    simp only [List.nil_append, handleLines, hline, Run.bind]
  | cons p rest ih =>
    obtain ⟨r, b⟩ := st
    simp only at hst
    subst hst
    have hp : p ≠ [] := hpre p (List.mem_cons_self _ _)
    have hrest : ∀ q ∈ rest, q ≠ [] := fun q hq => hpre q (List.mem_cons_of_mem _ hq)
    simp only [List.cons_append, handleLines]
    cases hl : handleLine (r, false) p with
    | ret st1 =>
      obtain ⟨r1, b1⟩ := st1
      obtain ⟨hb, _⟩ := handleLine_ret_body r r1 b1 p hp hl
      simp only [Run.bind]
      exact ih (r1, b1) hb hrest
    | exit s code => rfl
    | panic => rfl

/-- **C13.** A header line `Name:Value` before the first blank line whose `Name` is not
exactly one of the eleven recognised field names changes nothing: `handleResponse` gives
the same outcome as on the response with that line removed. -/
theorem handleResponse_unrecognised (response_str response_str2 : GoString)
    (pre post : List GoString) (name value : GoString)
    (hs : stringsSplit response_str CRLF = pre ++ (name ++ ':' :: value) :: post)
    (hs2 : stringsSplit response_str2 CRLF = pre ++ post)
    (hpre : ∀ p ∈ pre, p ≠ []) (hname : ':' ∉ name) (hun : name ∉ recognisedNames) :
    handleResponse response_str = handleResponse response_str2 := by
  have hline : ∀ response, handleLine (response, false) (name ++ ':' :: value) =
      .ret (response, false) := by
    intro response
    rw [handleLine_field response name value hname, assignField_unrecognised _ _ _ hun]
  unfold handleResponse
  rw [hs, hs2, handleLines_remove pre post _ ({}, false) hline rfl hpre]

theorem handleResponse_unrecognised_witness :
    handleResponse "HTTP/1.0 200 OK\r\ncontent-length:5\r\nServer:x\r\n\r\nbody".toList =
        handleResponse "HTTP/1.0 200 OK\r\nServer:x\r\n\r\nbody".toList ∧
      handleResponse "HTTP/1.0 200 OK\r\nX-Foo:bar\r\n\r\nbody".toList =
        .ret { Status := 200, Body := "body".toList } :=
  ⟨handleResponse_unrecognised _ _ ["HTTP/1.0 200 OK".toList]
      ["Server:x".toList, [], "body".toList] "content-length".toList "5".toList
      (by decide) (by decide) (by decide) (by decide) (by decide),
    by decide⟩

/-! ## The `Content-Length` header -/

theorem takeWhile_name (a b : GoString) (ha : ':' ∉ a) :
    (a ++ ':' :: b).takeWhile (fun c => c != ':') = a := by
  induction a with
  | nil => simp [List.takeWhile]
  | cons c rest ih =>
    have hc : c ≠ ':' := fun e => ha (by rw [e]; exact List.mem_cons_self _ _)
    have hr : ':' ∉ rest := fun e => ha (List.mem_cons_of_mem _ e)
    have hb : (c != ':') = true := by simpa using hc
    rw [List.cons_append, List.takeWhile_cons_of_pos (p := fun c => c != ':') hb, ih hr]

theorem takeWhile_of_not_mem (v : GoString) (hv : ':' ∉ v) :
    v.takeWhile (fun c => c != ':') = v := by
  rw [List.takeWhile_eq_self_iff]
  intro c hc
  have : c ≠ ':' := fun e => hv (e ▸ hc)
  simpa using this

theorem assignField_contentLength (response : HTTPResponse) (f : GoString) :
    assignField response "Content-Length".toList f =
      { response with ContentLength := atoi f } := by
  unfold assignField
  rw [if_neg (by decide), if_neg (by decide), if_pos rfl]

theorem assignField_ContentLength_of_ne (response : HTTPResponse) (t f : GoString)
    (h : t ≠ "Content-Length".toList) :
    (assignField response t f).ContentLength = response.ContentLength := by
  simp only [assignField, apply_ite HTTPResponse.ContentLength, ite_self, if_neg h]

/-- After the first blank line the content length is not touched. -/
theorem handleLines_body_contentLength (rest : List GoString) (response : HTTPResponse) :
    ∃ r, handleLines rest (response, true) = .ret (r, true) ∧
      r.ContentLength = response.ContentLength :=
  ⟨_, handleLines_body_eq rest response, rfl⟩

/-- Header lines with another name, and status lines, leave the content length as it is. -/
theorem handleLines_keep_contentLength (post : List GoString) (response : HTTPResponse)
    (h : ∀ l ∈ post.takeWhile (fun l => !l.isEmpty),
      (':' ∈ l ∧ l.takeWhile (fun c => c != ':') ≠ "Content-Length".toList) ∨
        (':' ∉ l ∧ stringsContains l HTTP = true ∧ 12 ≤ l.length)) :
    ∃ r b, handleLines post (response, false) = .ret (r, b) ∧
      r.ContentLength = response.ContentLength := by
  induction post generalizing response with
  | nil => exact ⟨response, false, rfl, rfl⟩
  | cons line rest ih =>
    cases line with
    | nil =>
      obtain ⟨r, hr, hcl⟩ := handleLines_body_contentLength rest
        { response with Body := response.Body ++ [] }
      exact ⟨r, true, by simp only [handleLines, handleLine_blank, Run.bind]; exact hr, hcl⟩
    | cons c cs =>
      have hline := h (c :: cs) (by simp [List.takeWhile])
      have hrest : ∀ l ∈ rest.takeWhile (fun l => !l.isEmpty),
          (':' ∈ l ∧ l.takeWhile (fun c => c != ':') ≠ "Content-Length".toList) ∨
            (':' ∉ l ∧ stringsContains l HTTP = true ∧ 12 ≤ l.length) := by
        intro l hl
        exact h l (by simp [List.takeWhile, hl])
      rcases hline with ⟨hc, hn⟩ | ⟨hc, hh, hlen⟩
      · obtain ⟨a, t, hl, ha⟩ := exists_name_of_mem_colon (c :: cs) hc
        rw [hl, takeWhile_name a t ha] at hn
        obtain ⟨r, b, hr, hcl⟩ := ih (assignField response a (t.takeWhile (fun c => c != ':')))
          hrest
        refine ⟨r, b, ?_, by rw [hcl, assignField_ContentLength_of_ne _ _ _ hn]⟩
        simp only [handleLines]
        rw [hl, handleLine_field response a t ha]
        simp only [Run.bind]
        exact hr
      · obtain ⟨r, b, hr, hcl⟩ := ih
          { response with Status := atoi (((c :: cs).drop 9).take (12 - 9)) } hrest
        refine ⟨r, b, ?_, by rw [hcl]⟩
        simp only [handleLines]
        rw [handleLine_http response (c :: cs) hc hh hlen]
        simp only [Run.bind]
        exact hr

/-- Well-formed non-blank lines are passed with the body not started. -/
theorem handleLines_pre (pre rest : List GoString) (response : HTTPResponse)
    (h : ∀ p ∈ pre, ':' ∈ p ∨ (stringsContains p HTTP = true ∧ 12 ≤ p.length)) :
    ∃ r, handleLines (pre ++ rest) (response, false) = handleLines rest (r, false) := by
  induction pre generalizing response with
  | nil => exact ⟨response, rfl⟩
  | cons p ps ih =>
    obtain ⟨r1, hr1⟩ := handleLine_wellFormed response p (h p (List.mem_cons_self _ _))
    obtain ⟨r, hr⟩ := ih r1 (fun q hq => h q (List.mem_cons_of_mem _ hq))
    exact ⟨r, by simp only [List.cons_append, handleLines, hr1, Run.bind]; exact hr⟩

/-- A text that, after an optional leading sign, is empty, or has a byte that is not a
decimal digit with the digits before the first such byte not above `2 ^ 64 - 1`, is read by
`strconv.Atoi` as `0`. -/
theorem atoi_invalid (v : GoString)
    (h : (if v.head? = some '-' ∨ v.head? = some '+' then v.tail else v) = [] ∨
      ((∃ c ∈ (if v.head? = some '-' ∨ v.head? = some '+' then v.tail else v),
          c.isDigit = false) ∧
        digitsValue ((if v.head? = some '-' ∨ v.head? = some '+' then v.tail else v).takeWhile
          Char.isDigit) < 2 ^ 64)) : atoi v = 0 := by
  have hno : digitsValue ((if v.head? = some '-' ∨ v.head? = some '+' then v.tail
      else v).takeWhile Char.isDigit) < 2 ^ 64 := by
    rcases h with h | ⟨_, h⟩
    · rw [h]
      simp [digitsValue]
    · exact h
  rw [atoi_of_no_overflow v hno, if_pos]
  rcases h with h | ⟨⟨c, hc, hd⟩, _⟩
  · left; exact h
  · right
    intro hall
    rw [List.all_eq_true] at hall
    have := hall c hc
    rw [hd] at this
    exact absurd this (by decide)

/-- **C11 (as amended).** Take a raw response whose header section is well formed (every
line before the first blank line has a colon, or is colon-free with `HTTP` and at least
twelve bytes) and whose last header line named `Content-Length` before the first blank
line is `Content-Length:` immediately followed by a colon-free `value`.  Then
`handleResponse` returns; `ContentLength` is the number when `value` is a decimal integer
literal in the range of `int`, and `0` when `value`, after an optional leading sign, is
empty, or has a character that is not a decimal digit while the digits before the first
such character do not exceed `2 ^ 64 - 1`. -/
theorem handleResponse_contentLength (response_str : GoString) (pre post : List GoString)
    (value : GoString)
    (hs : stringsSplit response_str CRLF =
      pre ++ ("Content-Length".toList ++ ':' :: value) :: post)
    (hpre : ∀ p ∈ pre, ':' ∈ p ∨ (stringsContains p HTTP = true ∧ 12 ≤ p.length))
    (hpost : ∀ l ∈ post.takeWhile (fun l => !l.isEmpty),
      (':' ∈ l ∧ l.takeWhile (fun c => c != ':') ≠ "Content-Length".toList) ∨
        (':' ∉ l ∧ stringsContains l HTTP = true ∧ 12 ≤ l.length))
    (hval : ':' ∉ value) :
    ∃ r, handleResponse response_str = .ret r ∧
      (value ≠ [] → value.all Char.isDigit = true → digitsValue value < 2 ^ 63 →
        r.ContentLength = (digitsValue value : Int)) ∧
      (((if value.head? = some '-' ∨ value.head? = some '+' then value.tail else value) = [] ∨
        ((∃ c ∈ (if value.head? = some '-' ∨ value.head? = some '+' then value.tail else value),
            c.isDigit = false) ∧
          digitsValue
            ((if value.head? = some '-' ∨ value.head? = some '+' then value.tail
              else value).takeWhile Char.isDigit) < 2 ^ 64)) → r.ContentLength = 0) := by
  obtain ⟨r1, hr1⟩ := handleLines_pre pre
    (("Content-Length".toList ++ ':' :: value) :: post) {} hpre
  have hline := handleLine_field r1 "Content-Length".toList value (by decide)
  rw [takeWhile_of_not_mem value hval, assignField_contentLength] at hline
  obtain ⟨r, b, hr, hcl⟩ := handleLines_keep_contentLength post
    { r1 with ContentLength := atoi value } hpost
  have hrun : handleResponse response_str = .ret r := by
    unfold handleResponse
    rw [hs, hr1]
    simp only [handleLines, hline, Run.bind]
    rw [hr]
  refine ⟨r, hrun, ?_, ?_⟩
  · intro hne hd hrange
    rw [hcl]
    exact atoi_digits value hne hd hrange
  · intro hbad
    rw [hcl]
    exact atoi_invalid value hbad

theorem handleResponse_contentLength_witness :
    (∃ r, handleResponse "Content-Length:1234".toList = .ret r ∧ r.ContentLength = 1234) ∧
    (∃ r, handleResponse "HTTP/1.0 200 OK\r\nContent-Length:abc\r\nServer:x\r\n\r\nbody".toList
      = .ret r ∧ r.ContentLength = 0) := by
  constructor
  · obtain ⟨r, hr, hgood, _⟩ := handleResponse_contentLength "Content-Length:1234".toList
      [] [] "1234".toList (by decide) (by decide) (by decide) (by decide)
    exact ⟨r, hr, by rw [hgood (by decide) (by decide) (by decide)]; decide⟩
  · obtain ⟨r, hr, _, hbad⟩ := handleResponse_contentLength
      "HTTP/1.0 200 OK\r\nContent-Length:abc\r\nServer:x\r\n\r\nbody".toList
      ["HTTP/1.0 200 OK".toList] ["Server:x".toList, [], "body".toList] "abc".toList
      (by decide) (by decide) (by decide) (by decide)
    exact ⟨r, hr, hbad (Or.inr ⟨⟨'a', by decide, by decide⟩, by decide⟩)⟩

/-- **C11, counterexample.** With the two header lines `Content-Length:5` and
`Content-Length:7` before the blank line `handleResponse` returns `ContentLength = 7`, not
`5`.  With the line `Content-Length:99999999999999999999`, whose value is a decimal integer
literal outside the range of `int`, it returns `ContentLength = 9223372036854775807`:
neither the number nor `0`.  With the line `Content-Length:99999999999999999999x`, whose
value is not an integer, it returns `9223372036854775807` as well, not `0`. -/
theorem handleResponse_contentLength_counterexample :
    (∃ r, handleResponse "Content-Length:5\r\nContent-Length:7\r\n\r\n".toList = .ret r ∧
      r.ContentLength = 7 ∧ r.ContentLength ≠ 5) ∧
    (∃ r, handleResponse "Content-Length:99999999999999999999\r\n\r\n".toList = .ret r ∧
      r.ContentLength = 9223372036854775807 ∧
      r.ContentLength ≠ 99999999999999999999 ∧ r.ContentLength ≠ 0) ∧
    (∃ r, handleResponse "Content-Length:99999999999999999999x\r\n\r\n".toList = .ret r ∧
      r.ContentLength = 9223372036854775807 ∧ r.ContentLength ≠ 0) :=
  ⟨⟨{ ContentLength := 7 }, by decide, by decide, by decide⟩,
    ⟨{ ContentLength := 9223372036854775807 }, by decide, by decide, by decide, by decide⟩,
    ⟨{ ContentLength := 9223372036854775807 }, by decide, by decide, by decide⟩⟩

/-! ## Arrival order -/

theorem sortInts_eq_of_perm (xs ys : List Int) (h : xs.Perm ys) : sortInts xs = sortInts ys :=
  sortInts_eq_of_sorted_perm xs (sortInts ys) (sortInts_sorted ys) ((sortInts_perm ys).trans h.symm)

theorem sizeStep_comm (acc : Int × Int) (a b : Int) :
    sizeStep (sizeStep acc a) b = sizeStep (sizeStep acc b) a := by
  obtain ⟨lo, hi⟩ := acc
  simp only [sizeStep]
  refine Prod.ext ?_ ?_
  · simp only
    split_ifs <;> omega
  · simp only
    split_ifs <;> omega

theorem sizeLoop_eq_of_perm (xs ys : List Int) (h : xs.Perm ys) : sizeLoop xs = sizeLoop ys := by
  unfold sizeLoop
  exact h.foldl_eq' (fun x _ y _ z => sizeStep_comm z x y) _

/-- **C18.** `calculateStats` is insensitive to arrival order: for two measurement sets of
`n ≥ 2` measurements that are permutations of one another, with the same `requestCount` and
`totalTime`, both calls return, the fastest, slowest, mean and median time, the percentage
of successes and the smallest and largest response are equal, and the two lists of error
codes are permutations of each other. -/
theorem calculateStats_perm (requestCount totalTime : Int) (ms ms2 : List Profile)
    (h : 2 ≤ ms.length) (hp : ms.Perm ms2) :
    ∃ d d2,
      calculateStats requestCount (ms.map Profile.Time) totalTime (ms.map Profile.StatusCode)
        (ms.map Profile.Size) = .ret d ∧
      calculateStats requestCount (ms2.map Profile.Time) totalTime
        (ms2.map Profile.StatusCode) (ms2.map Profile.Size) = .ret d2 ∧
      d.FastestTime = d2.FastestTime ∧ d.SlowestTime = d2.SlowestTime ∧
      d.MeanTime = d2.MeanTime ∧ d.MedianTime = d2.MedianTime ∧
      d.PercentSuccess = d2.PercentSuccess ∧
      d.SmallestResponse = d2.SmallestResponse ∧ d.LargestResponse = d2.LargestResponse ∧
      d.ErrorCodes.Perm d2.ErrorCodes := by
  have hlen : ms2.length = ms.length := hp.length_eq.symm
  have h1 : 2 ≤ (ms.map Profile.Time).length := by simpa using h
  have h2 : 2 ≤ (ms2.map Profile.Time).length := by simpa [hlen] using h
  have hl : (ms2.map Profile.Time).length = (ms.map Profile.Time).length := by simp [hlen]
  have hsort := sortInts_eq_of_perm _ _ (hp.map Profile.Time)
  have hsize := sizeLoop_eq_of_perm _ _ (hp.map Profile.Size)
  have hfail : (failureLoop (ms.map Profile.StatusCode)).Perm
      (failureLoop (ms2.map Profile.StatusCode)) := by
    rw [failureLoop_eq_filter, failureLoop_eq_filter]
    exact (hp.map Profile.StatusCode).filter _
  refine ⟨_, _, calculateStats_ret requestCount _ totalTime _ _ h1,
    calculateStats_ret requestCount _ totalTime _ _ h2, ?_, ?_, rfl, ?_, ?_, ?_, ?_, hfail⟩
  · simp only [hsort]
  · simp only [hsort, hl]
  · simp only [hsort]
  · simp only [hfail.length_eq]
  · simp only [hsize]
  · simp only [hsize]

theorem calculateStats_perm_witness :
    ∃ d d2,
      calculateStats 3 [30, 10, 20] 60 [200, 404, 500] [7, 5, 6] = .ret d ∧
      calculateStats 3 [10, 20, 30] 60 [404, 500, 200] [5, 6, 7] = .ret d2 ∧
      d.FastestTime = d2.FastestTime ∧ d.SlowestTime = d2.SlowestTime ∧
      d.MeanTime = d2.MeanTime ∧ d.MedianTime = d2.MedianTime ∧
      d.PercentSuccess = d2.PercentSuccess ∧
      d.SmallestResponse = d2.SmallestResponse ∧ d.LargestResponse = d2.LargestResponse ∧
      d.ErrorCodes.Perm d2.ErrorCodes :=
  calculateStats_perm 3 60 [⟨200, 30, 7⟩, ⟨404, 10, 5⟩, ⟨500, 20, 6⟩]
    [⟨404, 10, 5⟩, ⟨500, 20, 6⟩, ⟨200, 30, 7⟩] (by decide) (by decide)

/-! ## Rounding of negative numbers, halving, and idempotence -/

/-- A number half-way between an odd integer and its successor rounds to the successor. -/
theorem roundHalfEven_tie_odd (z : ℤ) (hz : z % 2 = 1) :
    roundHalfEven ((z : ℚ) + 1 / 2) = z + 1 := by
  have hfl : ⌊(z : ℚ) + 1 / 2⌋ = z := by
    rw [Int.floor_eq_iff]; constructor <;> linarith
  unfold roundHalfEven
  simp only [hfl]
  rw [if_neg (by norm_num), if_neg (by norm_num), if_neg (by omega)]

/-- Rounding to the nearest integer, ties to even, is an odd function. -/
theorem roundHalfEven_neg (x : ℚ) : roundHalfEven (-x) = -roundHalfEven x := by
  have hf := Int.floor_le x
  have hl := Int.lt_floor_add_one x
  by_cases h1 : x - (⌊x⌋ : ℚ) < 1 / 2
  · have e1 : roundHalfEven x = ⌊x⌋ :=
      roundHalfEven_eq_of_lt x ⌊x⌋ (by linarith) (by linarith)
    have e2 : roundHalfEven (-x) = -⌊x⌋ :=
      roundHalfEven_eq_of_lt (-x) (-⌊x⌋) (by push_cast; linarith) (by push_cast; linarith)
    rw [e1, e2]
  · by_cases h2 : 1 / 2 < x - (⌊x⌋ : ℚ)
    · have e1 : roundHalfEven x = ⌊x⌋ + 1 :=
        roundHalfEven_eq_of_lt x (⌊x⌋ + 1) (by push_cast; linarith) (by push_cast; linarith)
      have e2 : roundHalfEven (-x) = -(⌊x⌋ + 1) :=
        roundHalfEven_eq_of_lt (-x) (-(⌊x⌋ + 1)) (by push_cast; linarith)
          (by push_cast; linarith)
      rw [e1, e2]
    · have he : x = (⌊x⌋ : ℚ) + 1 / 2 := by
        have := le_antisymm (not_lt.mp h2) (not_lt.mp h1)
        linarith
      obtain ⟨f, hfx⟩ : ∃ f : ℤ, x = (f : ℚ) + 1 / 2 := ⟨⌊x⌋, he⟩
      have hn : -x = ((-f - 1 : ℤ) : ℚ) + 1 / 2 := by rw [hfx]; push_cast; ring
      rw [hn, hfx]
      rcases Int.emod_two_eq_zero_or_one f with hp | hp
      · rw [roundHalfEven_tie_even f hp, roundHalfEven_tie_odd (-f - 1) (by omega)]
        ring
      · rw [roundHalfEven_tie_odd f hp, roundHalfEven_tie_even (-f - 1) (by omega)]
        ring

theorem ulp_neg (q : ℚ) : ulp (-q) = ulp q := by
  unfold ulp binade
  rw [abs_neg]

/-- Rounding to binary32 is an odd function. -/
theorem round32_neg (q : ℚ) : round32 (-q) = -round32 q := by
  unfold round32
  rw [ulp_neg, neg_div, roundHalfEven_neg]
  push_cast
  ring

/-- Rounding to binary32 is monotone. -/
theorem round32_mono {x y : ℚ} (hxy : x ≤ y) : round32 x ≤ round32 y := by
  by_cases hx : 0 ≤ x
  · exact round32_mono_of_nonneg hx hxy
  · push_neg at hx
    by_cases hy : 0 ≤ y
    · have h1 := round32_nonneg (-x) (by linarith)
      rw [round32_neg] at h1
      have h2 := round32_nonneg y hy
      linarith
    · push_neg at hy
      have h := round32_mono_of_nonneg (by linarith : (0 : ℚ) ≤ -y) (by linarith : -y ≤ -x)
      rw [round32_neg, round32_neg] at h
      linarith

/-- The quotient by its spacing of any number is below `2 ^ 24` in magnitude, so the
rounded quotient is at most `2 ^ 24` in magnitude. -/
theorem roundHalfEven_div_ulp_le (q : ℚ) : |roundHalfEven (q / ulp q)| ≤ 2 ^ 24 := by
  have hu := ulp_pos q
  have hq : |q| ≤ (2 : ℚ) ^ (24 : ℤ) * ulp q := by
    rw [ulp_mul_two_pow]
    by_cases h0 : q = 0
    · subst h0; simp only [abs_zero]; exact le_of_lt (two_zpow_pos _)
    · obtain ⟨_, b2⟩ := log_bounds q h0
      have hle : (2 : ℚ) ^ (Int.log 2 |q| + 1) ≤ (2 : ℚ) ^ (binade q + 1) := by
        apply (zpow_le_zpow_iff_right₀ (by norm_num : (1 : ℚ) < 2)).mpr
        have : Int.log 2 |q| ≤ binade q := le_max_left _ _
        omega
      exact le_of_lt (lt_of_lt_of_le b2 hle)
  have h24 : (((2 : ℤ) ^ 24 : ℤ) : ℚ) = (2 : ℚ) ^ (24 : ℤ) := by norm_num
  have habs := abs_le.mp hq
  have hhi : q / ulp q ≤ (((2 : ℤ) ^ 24 : ℤ) : ℚ) := by
    rw [div_le_iff₀ hu, h24]; exact habs.2
  have hlo : ((-(2 : ℤ) ^ 24 : ℤ) : ℚ) ≤ q / ulp q := by
    rw [le_div_iff₀ hu]
    have : ((-(2 : ℤ) ^ 24 : ℤ) : ℚ) = -(2 : ℚ) ^ (24 : ℤ) := by norm_num
    rw [this]; linarith [habs.1]
  have r1 := roundHalfEven_mono hhi
  have r2 := roundHalfEven_mono hlo
  rw [roundHalfEven_intCast] at r1 r2
  rw [abs_le]
  constructor <;> omega

/-- Rounding to binary32 gives a binary32 number: rounding again changes nothing. -/
theorem round32_idem (q : ℚ) : round32 (round32 q) = round32 q := by
  have hm := roundHalfEven_div_ulp_le q
  have hj : (-149 : ℤ) ≤ binade q - 23 := by
    have : (-126 : ℤ) ≤ binade q := le_max_right _ _
    omega
  have hform : round32 q = (roundHalfEven (q / ulp q) : ℚ) * (2 : ℚ) ^ (binade q - 23) := rfl
  rcases lt_or_eq_of_le hm with hlt | heq
  · rw [hform]
    exact round32_dyadic _ _ hlt hj
  · have hcases : roundHalfEven (q / ulp q) = 2 ^ 24 ∨ roundHalfEven (q / ulp q) = -2 ^ 24 := by
      rcases abs_cases (roundHalfEven (q / ulp q)) with ⟨h1, _⟩ | ⟨h1, _⟩
      · left; omega
      · right; omega
    have h2 : (2 : ℚ) ^ (24 : ℤ) * (2 : ℚ) ^ (binade q - 23) = (2 : ℚ) ^ (binade q - 23 + 24) := by
      rw [← zpow_add₀ (by norm_num : (2 : ℚ) ≠ 0)]
      congr 1; ring
    rcases hcases with h | h
    · have e : round32 q = ((1 : ℤ) : ℚ) * (2 : ℚ) ^ (binade q - 23 + 24) := by
        rw [hform, h, ← h2]; norm_num
      rw [e]
      exact round32_dyadic 1 _ (by norm_num) (by omega)
    · have e : round32 q = ((-1 : ℤ) : ℚ) * (2 : ℚ) ^ (binade q - 23 + 24) := by
        rw [hform, h, ← h2]; norm_num
      rw [e]
      exact round32_dyadic (-1) _ (by norm_num) (by omega)

/-- Halving commutes with rounding to binary32 away from the subnormal range. -/
theorem round32_half (q : ℚ) (hq : q = 0 ∨ (2 : ℚ) ^ (-125 : ℤ) ≤ |q|) :
    round32 (q / 2) = round32 q / 2 := by
  rcases hq with h0 | hbig
  · subst h0; simp [round32_zero]
  · have hp : 0 < |q| := lt_of_lt_of_le (two_zpow_pos _) hbig
    have hne : q ≠ 0 := abs_pos.mp hp
    obtain ⟨b1, b2⟩ := log_bounds q hne
    have hl : (-125 : ℤ) ≤ Int.log 2 |q| := by
      have := (Int.zpow_le_iff_le_log (b := 2) (by norm_num) (x := -125) hp).mp
        (by simpa using hbig)
      exact this
    have habs : |q / 2| = |q| / 2 := by rw [abs_div]; norm_num
    have hlog : Int.log 2 |q / 2| = Int.log 2 |q| - 1 := by
      apply log_eq_of_bounds
      · rw [habs, zpow_sub_one₀ (by norm_num : (2 : ℚ) ≠ 0)]
        rw [div_eq_mul_inv]
        exact mul_le_mul_of_nonneg_right b1 (by norm_num)
      · rw [habs, sub_add_cancel]
        have : (2 : ℚ) ^ (Int.log 2 |q| + 1) = (2 : ℚ) ^ Int.log 2 |q| * 2 := by
          rw [zpow_add_one₀ (by norm_num : (2 : ℚ) ≠ 0)]
        rw [this] at b2
        linarith
    have hb1 : binade q = Int.log 2 |q| := max_eq_left (by omega)
    have hb2 : binade (q / 2) = Int.log 2 |q| - 1 := by
      unfold binade; rw [hlog]; exact max_eq_left (by omega)
    have hu : ulp (q / 2) = ulp q / 2 := by
      unfold ulp
      rw [hb1, hb2]
      have : Int.log 2 |q| - 1 - 23 = Int.log 2 |q| - 23 - 1 := by ring
      rw [this, zpow_sub_one₀ (by norm_num : (2 : ℚ) ≠ 0), div_eq_mul_inv]
    unfold round32
    rw [hu]
    have hup := ulp_pos q
    have hdiv : q / 2 / (ulp q / 2) = q / ulp q := by
      field_simp
    rw [hdiv]
    ring

theorem wrap64_of_isInt64 (i : Int) (h : isInt64 i) : wrap64 i = i := by
  unfold isInt64 MinInt64 MaxInt64 at h
  unfold wrap64
  omega

/-- The conversion `float32(i)` of any Go `int` is the finite number `round32 i`. -/
theorem F32.ofInt_of_isInt64 (i : Int) (h : isInt64 i) :
    F32.ofInt i = .fin (round32 (i : ℚ)) ∧ |round32 (i : ℚ)| ≤ (2 : ℚ) ^ (63 : ℤ) := by
  unfold isInt64 MinInt64 MaxInt64 at h
  have r63 : round32 ((2 : ℚ) ^ (63 : ℤ)) = (2 : ℚ) ^ (63 : ℤ) := by
    simpa using round32_dyadic 1 63 (by norm_num) (by norm_num)
  have hhi : (i : ℚ) ≤ (2 : ℚ) ^ (63 : ℤ) := by
    have : i ≤ 2 ^ 63 := by omega
    have h2 : ((i : ℤ) : ℚ) ≤ (((2 : ℤ) ^ 63 : ℤ) : ℚ) := by exact_mod_cast this
    norm_num at h2 ⊢
    exact h2
  have hlo : -(2 : ℚ) ^ (63 : ℤ) ≤ (i : ℚ) := by
    have : -(2 ^ 63) ≤ i := h.1
    have h2 : ((-(2 : ℤ) ^ 63 : ℤ) : ℚ) ≤ ((i : ℤ) : ℚ) := by exact_mod_cast this
    norm_num at h2 ⊢
    exact h2
  have m1 := round32_mono hhi
  have m2 := round32_mono hlo
  rw [r63] at m1
  rw [round32_neg, r63] at m2
  have habs : |round32 (i : ℚ)| ≤ (2 : ℚ) ^ (63 : ℤ) := abs_le.mpr ⟨m2, m1⟩
  refine ⟨?_, habs⟩
  unfold F32.ofInt
  apply F32.round_of_lt
  have : (2 : ℚ) ^ (63 : ℤ) < (2 : ℚ) ^ 128 := by norm_num
  linarith

/-- An integer is zero or at least one in magnitude, far from the subnormal range. -/
theorem int_normal (i : Int) : (i : ℚ) = 0 ∨ (2 : ℚ) ^ (-125 : ℤ) ≤ |(i : ℚ)| := by
  by_cases h0 : i = 0
  · left; exact_mod_cast h0
  · right
    have h1 : (1 : ℚ) ≤ |(i : ℚ)| := by
      have : (1 : ℤ) ≤ |i| := Int.one_le_abs h0
      have h2 : ((1 : ℤ) : ℚ) ≤ ((|i| : ℤ) : ℚ) := by exact_mod_cast this
      simpa using h2
    have h2 : (2 : ℚ) ^ (-125 : ℤ) ≤ 1 := zpow_le_one_of_nonpos₀ (by norm_num) (by norm_num)
    linarith

/-- Half of the conversion of a Go `int`, as computed in `float32`, is the exact half
rounded once. -/
theorem F32.half_ofInt (w : Int) (h : isInt64 w) :
    F32.div (F32.ofInt w) (F32.ofInt 2) = .fin (round32 ((w : ℚ) / 2)) := by
  obtain ⟨hw, hwabs⟩ := F32.ofInt_of_isInt64 w h
  have h2 : F32.ofInt 2 = .fin 2 := by
    simpa using F32.ofInt_of_small 2 (by norm_num)
  have hhalf := round32_half (w : ℚ) (int_normal w)
  rw [hw, h2]
  simp only [F32.div]
  rw [if_neg (by norm_num), ← hhalf]
  apply F32.round_of_exact _ (round32_idem _)
  rw [hhalf, abs_div]
  have h63 : (2 : ℚ) ^ (63 : ℤ) < (2 : ℚ) ^ 128 := by norm_num
  have : |round32 (w : ℚ)| / |(2 : ℚ)| ≤ |round32 (w : ℚ)| :=
    div_le_self (abs_nonneg _) (by norm_num)
  linarith

/-- The median in closed form for any Go integers whose sums do not overflow: the exact
median (the middle element, or half the sum of the two middle elements) rounded once to
binary32. -/
theorem medianOf_eq_round32 (s : List Int) (h : 2 ≤ s.length)
    (hsum : ∀ a ∈ s, ∀ b ∈ s, isInt64 (a + b)) :
    medianOf s = .fin (round32
      (if s.length % 2 = 1 then ((s.getD (s.length / 2) 0 : ℤ) : ℚ)
        else (((s.getD (s.length / 2 - 1) 0 : ℤ) : ℚ) + ((s.getD (s.length / 2) 0 : ℤ) : ℚ)) / 2)) := by
  have hmid := getD_mem_of_lt s (s.length / 2) (by omega)
  have hmid1 := getD_mem_of_lt s (s.length / 2 - 1) (by omega)
  unfold medianOf
  by_cases hodd : s.length % 2 = 1
  · rw [if_pos hodd, if_pos hodd]
    have hi : isInt64 (s.getD (s.length / 2) 0) := by
      have := hsum _ hmid _ hmid
      unfold isInt64 MinInt64 MaxInt64 at this ⊢
      omega
    exact (F32.ofInt_of_isInt64 _ hi).1
  · rw [if_neg hodd, if_neg hodd]
    have hi := hsum _ hmid1 _ hmid
    rw [wrap64_of_isInt64 _ hi, F32.half_ofInt _ hi]
    push_cast
    rfl

/-- **C20 (as amended).** For `n ≥ 2` elapsed times whose sums do not overflow,
`calculateStats` returns and `MedianTime` lies between the `float32` conversions of
`FastestTime` and `SlowestTime`, inclusive.  When every time has magnitude below `2 ^ 23`
those conversions are exact, and `FastestTime ≤ MedianTime ≤ SlowestTime`. -/
theorem calculateStats_median_between (requestCount : Int) (respTimes : List Int)
    (totalTime : Int) (respStatusCodes respByteSize : List Int) (h : 2 ≤ respTimes.length)
    (hsum : ∀ a ∈ respTimes, ∀ b ∈ respTimes, isInt64 (a + b)) :
    ∃ d f m s,
      calculateStats requestCount respTimes totalTime respStatusCodes respByteSize = .ret d ∧
      F32.ofInt d.FastestTime = .fin f ∧ d.MedianTime = .fin m ∧
      F32.ofInt d.SlowestTime = .fin s ∧ f ≤ m ∧ m ≤ s ∧
      ((∀ t ∈ respTimes, |t| < 2 ^ 23) →
        (d.FastestTime : ℚ) ≤ m ∧ m ≤ (d.SlowestTime : ℚ)) := by
  have hlen := sortInts_length respTimes
  have hperm := sortInts_perm respTimes
  have hsorted := sortInts_sorted respTimes
  have hS : 2 ≤ (sortInts respTimes).length := by omega
  have hsumS : ∀ a ∈ sortInts respTimes, ∀ b ∈ sortInts respTimes, isInt64 (a + b) :=
    fun a ha b hb => hsum a (hperm.mem_iff.mp ha) b (hperm.mem_iff.mp hb)
  have hint : ∀ a ∈ sortInts respTimes, isInt64 a := by
    intro a ha
    have := hsumS a ha a ha
    unfold isInt64 MinInt64 MaxInt64 at this ⊢
    omega
  have hmed := medianOf_eq_round32 (sortInts respTimes) hS hsumS
  have hm0 := getD_mem_of_lt (sortInts respTimes) 0 (by omega)
  have hmL := getD_mem_of_lt (sortInts respTimes) (respTimes.length - 1) (by omega)
  have hmid := getD_mem_of_lt (sortInts respTimes) ((sortInts respTimes).length / 2) (by omega)
  have hmid1 := getD_mem_of_lt (sortInts respTimes) ((sortInts respTimes).length / 2 - 1)
    (by omega)
  have bmid := sorted_bounds _ hsorted _ hmid
  have bmid1 := sorted_bounds _ hsorted _ hmid1
  have hL : (sortInts respTimes).length - 1 = respTimes.length - 1 := by rw [hlen]
  rw [hL] at bmid bmid1
  -- the exact median lies between the first and the last sorted time
  have hex : (((sortInts respTimes).getD 0 0 : ℤ) : ℚ) ≤
        (if (sortInts respTimes).length % 2 = 1 then
          (((sortInts respTimes).getD ((sortInts respTimes).length / 2) 0 : ℤ) : ℚ)
        else ((((sortInts respTimes).getD ((sortInts respTimes).length / 2 - 1) 0 : ℤ) : ℚ) +
          (((sortInts respTimes).getD ((sortInts respTimes).length / 2) 0 : ℤ) : ℚ)) / 2) ∧
      (if (sortInts respTimes).length % 2 = 1 then
          (((sortInts respTimes).getD ((sortInts respTimes).length / 2) 0 : ℤ) : ℚ)
        else ((((sortInts respTimes).getD ((sortInts respTimes).length / 2 - 1) 0 : ℤ) : ℚ) +
          (((sortInts respTimes).getD ((sortInts respTimes).length / 2) 0 : ℤ) : ℚ)) / 2) ≤
        (((sortInts respTimes).getD (respTimes.length - 1) 0 : ℤ) : ℚ) := by
    have c1 : (((sortInts respTimes).getD 0 0 : ℤ) : ℚ) ≤
        (((sortInts respTimes).getD ((sortInts respTimes).length / 2) 0 : ℤ) : ℚ) := by
      exact_mod_cast bmid.1
    have c2 : (((sortInts respTimes).getD ((sortInts respTimes).length / 2) 0 : ℤ) : ℚ) ≤
        (((sortInts respTimes).getD (respTimes.length - 1) 0 : ℤ) : ℚ) := by
      exact_mod_cast bmid.2
    have c3 : (((sortInts respTimes).getD 0 0 : ℤ) : ℚ) ≤
        (((sortInts respTimes).getD ((sortInts respTimes).length / 2 - 1) 0 : ℤ) : ℚ) := by
      exact_mod_cast bmid1.1
    have c4 : (((sortInts respTimes).getD ((sortInts respTimes).length / 2 - 1) 0 : ℤ) : ℚ) ≤
        (((sortInts respTimes).getD (respTimes.length - 1) 0 : ℤ) : ℚ) := by
      exact_mod_cast bmid1.2
    split_ifs
    · exact ⟨c1, c2⟩
    · constructor <;> linarith
  obtain ⟨hf, _⟩ := F32.ofInt_of_isInt64 _ (hint _ hm0)
  obtain ⟨hs, _⟩ := F32.ofInt_of_isInt64 _ (hint _ hmL)
  refine ⟨_, _, _, _,
    calculateStats_ret requestCount respTimes totalTime respStatusCodes respByteSize h,
    hf, hmed, hs, round32_mono hex.1, round32_mono hex.2, ?_⟩
  intro hsmall
  have e0 : round32 (((sortInts respTimes).getD 0 0 : ℤ) : ℚ) =
      (((sortInts respTimes).getD 0 0 : ℤ) : ℚ) := by
    have hb := hsmall _ (hperm.mem_iff.mp hm0)
    simpa using round32_dyadic _ 0 (lt_trans hb (by norm_num)) (by norm_num)
  have eL : round32 (((sortInts respTimes).getD (respTimes.length - 1) 0 : ℤ) : ℚ) =
      (((sortInts respTimes).getD (respTimes.length - 1) 0 : ℤ) : ℚ) := by
    have hb := hsmall _ (hperm.mem_iff.mp hmL)
    simpa using round32_dyadic _ 0 (lt_trans hb (by norm_num)) (by norm_num)
  have k1 := round32_mono hex.1
  have k2 := round32_mono hex.2
  rw [e0] at k1
  rw [eL] at k2
  exact ⟨k1, k2⟩

theorem calculateStats_median_between_witness :
    ∃ d m, calculateStats 4 [40, 10, 30, 20] 100 [200, 200, 200, 200] [1, 1, 1, 1] = .ret d ∧
      d.MedianTime = .fin m ∧ (d.FastestTime : ℚ) ≤ m ∧ m ≤ (d.SlowestTime : ℚ) := by
  obtain ⟨d, f, m, s, hd, _, hm, _, _, _, hsmall⟩ := calculateStats_median_between 4
    [40, 10, 30, 20] 100 [200, 200, 200, 200] [1, 1, 1, 1] (by decide) (by decide)
  exact ⟨d, m, hd, hm, hsmall (by decide)⟩

/-- **C20, counterexample.** For the times `[16777217, 16777219, 16777217]` the fastest time
is `16777217` and `calculateStats` returns `MedianTime = 16777216`, which is below it. -/
theorem calculateStats_median_between_counterexample :
    ∃ d, calculateStats 3 [16777217, 16777219, 16777217] 50331653 [200, 200, 200]
        [1, 1, 1] = .ret d ∧
      d.FastestTime = 16777217 ∧ d.MedianTime = .fin 16777216 ∧
      ¬ ((16777217 : ℚ) ≤ 16777216) := by
  have hs : sortInts [16777217, 16777219, 16777217] = [16777217, 16777217, 16777219] := by
    simp [sortInts]
  have hm : medianOf [16777217, 16777217, 16777219] = .fin 16777216 := by
    rw [← F32.ofInt_16777217]
    simp [medianOf]
  refine ⟨_, calculateStats_ret 3 _ 50331653 [200, 200, 200] [1, 1, 1] (by simp), ?_, ?_,
    by norm_num⟩
  · simp only [hs]
    rfl
  · simp only [hs, hm]

/-! ## The collection loop of `profile` -/

theorem wrap64_add_wrap64 (a b : Int) : wrap64 (wrap64 a + b) = wrap64 (a + b) := by
  unfold wrap64
  omega

/-- The collection loop, from any counter value `i ≥ 0` and any state, on a channel that
delivers exactly the `requestCount - i` measurements still to be received. -/
theorem collectLoop_spec (requestCount : Int) (channel : List Profile) (i : Int)
    (acc : Collected) (hlen : i + (channel.length : Int) = requestCount)
    (hacc : wrap64 acc.totalTime = acc.totalTime) :
    ∃ c, collectLoop requestCount i channel acc = some c ∧
      c.respTimes = acc.respTimes ++ channel.map Profile.Time ∧
      c.respStatusCodes = acc.respStatusCodes ++ channel.map Profile.StatusCode ∧
      c.respByteSize = acc.respByteSize ++ channel.map Profile.Size ∧
      c.totalTime = wrap64 (acc.totalTime + (channel.map Profile.Time).sum) := by
  induction channel generalizing i acc with
  | nil =>
    have hi : ¬ i < requestCount := by simp at hlen; omega
    refine ⟨acc, ?_, by simp, by simp, by simp, ?_⟩
    · simp only [collectLoop, if_neg hi]
    · simp only [List.map_nil, List.sum_nil, add_zero]
      exact hacc.symm
  | cons p rest ih =>
    have hi : i < requestCount := by simp at hlen; omega
    obtain ⟨c, hc, h1, h2, h3, h4⟩ := ih (i + 1) (collectStep acc p)
      (by simp at hlen ⊢; omega) (by simp only [collectStep]; unfold wrap64; omega)
    refine ⟨c, ?_, ?_, ?_, ?_, ?_⟩
    · simp only [collectLoop, if_pos hi]; exact hc
    · rw [h1]; simp [collectStep]
    · rw [h2]; simp [collectStep]
    · rw [h3]; simp [collectStep]
    · rw [h4]
      simp only [collectStep, List.map_cons, List.sum_cons]
      rw [wrap64_add_wrap64, add_assoc]

/-- **C14.** With the channel taken as the sequence of measurements delivered to `profile`:
for every `requestCount ≥ 0` and every sequence of `requestCount` measurements the
collection loop ends; the three lists have length `requestCount` and hold the `Time`,
`StatusCode` and `Size` of the measurements in arrival order; `totalTime` is the sum of
`respTimes` in the arithmetic of `int`, hence the sum itself whenever that is in the range
of `int`; and `calculateStats` is called with exactly these arguments. -/
theorem profile_collects (requestCount : Int) (channel : List Profile)
    (hlen : (channel.length : Int) = requestCount) :
    ∃ c, collectLoop requestCount 0 channel {} = some c ∧
      (c.respTimes.length : Int) = requestCount ∧
      (c.respStatusCodes.length : Int) = requestCount ∧
      (c.respByteSize.length : Int) = requestCount ∧
      c.respTimes = channel.map Profile.Time ∧
      c.respStatusCodes = channel.map Profile.StatusCode ∧
      c.respByteSize = channel.map Profile.Size ∧
      c.totalTime = wrap64 c.respTimes.sum ∧
      (isInt64 c.respTimes.sum → c.totalTime = c.respTimes.sum) ∧
      profile requestCount channel =
        some (calculateStats requestCount c.respTimes c.totalTime c.respStatusCodes
          c.respByteSize) := by
  obtain ⟨c, hc, h1, h2, h3, h4⟩ := collectLoop_spec requestCount channel 0 {}
    (by omega) (by decide)
  have e1 : c.respTimes = channel.map Profile.Time := by rw [h1]; rfl
  have e2 : c.respStatusCodes = channel.map Profile.StatusCode := by rw [h2]; rfl
  have e3 : c.respByteSize = channel.map Profile.Size := by rw [h3]; rfl
  have e4 : c.totalTime = wrap64 c.respTimes.sum := by
    rw [h4, e1]
    show wrap64 (0 + _) = _
    rw [zero_add]
  refine ⟨c, hc, ?_, ?_, ?_, e1, e2, e3, e4, ?_, ?_⟩
  · rw [e1, List.length_map]; exact hlen
  · rw [e2, List.length_map]; exact hlen
  · rw [e3, List.length_map]; exact hlen
  · intro hin
    rw [e4, wrap64_of_isInt64 _ hin]
  · unfold profile
    rw [hc]
    rfl

theorem profile_collects_witness :
    ∃ c, collectLoop 3 0 [⟨200, 30, 7⟩, ⟨404, 10, 5⟩, ⟨500, 20, 6⟩] {} = some c ∧
      c.respTimes = [30, 10, 20] ∧ c.respStatusCodes = [200, 404, 500] ∧
      c.respByteSize = [7, 5, 6] ∧ c.totalTime = 60 := by
  obtain ⟨c, hc, _, _, _, e1, e2, e3, e4, _, _⟩ := profile_collects 3
    [⟨200, 30, 7⟩, ⟨404, 10, 5⟩, ⟨500, 20, 6⟩] (by decide)
  refine ⟨c, hc, e1, e2, e3, ?_⟩
  rw [e4, e1]
  decide

/-! ## The exit status of the fatal paths -/

/-- Whenever `request` does not return, it has called `os.Exit` with status `0`. -/
theorem request_ret_or_exit_zero (net : Network) :
    (∃ res, request net = .ret res) ∨ ∃ out, request net = .exit out 0 := by
  unfold request
  cases net.dialErr with
  | some err => exact Or.inr ⟨_, rfl⟩
  | none =>
    cases net.writeErr with
    | some err => exact Or.inr ⟨_, rfl⟩
    | none =>
      cases net.readAll with
      | error err => exact Or.inr ⟨_, rfl⟩
      | ok response => exact Or.inl ⟨_, rfl⟩

/-- **C15, the code at the failing inputs.** A connection failure, a write failure and a
read failure in `request` each end the process with exit status `0`; too few samples in
`calculateStats` end it with exit status `1`. -/
theorem fatal_paths_exit_status :
    (∃ out, request ⟨some "dial tcp: i/o timeout", "<nil>", none, .ok [], 0⟩ = .exit out 0) ∧
    (∃ out, request ⟨none, "", some "broken pipe", .ok [], 0⟩ = .exit out 0) ∧
    (∃ out, request ⟨none, "", none, .error "connection reset", 0⟩ = .exit out 0) ∧
    (∃ out, calculateStats 1 [5] 5 [200] [10] = .exit out 1) :=
  ⟨⟨_, rfl⟩, ⟨_, rfl⟩, ⟨_, rfl⟩, ⟨_, rfl⟩⟩

/-! ## `main` -/

theorem main_events_of_le_one (profilePtr : Int) (net : Network) (h : profilePtr ≤ 1) :
    ∃ tail : List Event, (∀ e ∈ tail, ∃ text, e = .println text) ∧
      (main profilePtr net).1 =
        (if profilePtr < 0 then [Event.println "Not a valid number of requests".toList]
          else []) ++ Event.request :: tail := by
  unfold main
  have h1 : ¬ profilePtr > 1 := by omega
  simp only [if_neg h1]
  cases hreq : request net with
  | ret res =>
    cases hres : handleResponse res.1 with
    | ret r => exact ⟨[.println r.Body], by simp, by simp only [hres]⟩
    | exit out code => exact ⟨[], by simp, by simp only [hres]⟩
    | panic => exact ⟨[], by simp, by simp only [hres]⟩
  | exit out code => exact ⟨[], by simp, by simp⟩
  | panic => exact ⟨[], by simp, by simp⟩

theorem main_of_le_one (profilePtr : Int) (net : Network) (response_str : GoString)
    (elapsed : Int) (r : HTTPResponse) (h : profilePtr ≤ 1)
    (hreq : request net = .ret (response_str, elapsed))
    (hres : handleResponse response_str = .ret r) :
    main profilePtr net =
      ((if profilePtr < 0 then [Event.println "Not a valid number of requests".toList]
          else []) ++ [Event.request, Event.println r.Body], .ret ()) := by
  unfold main
  have h1 : ¬ profilePtr > 1 := by omega
  simp only [if_neg h1, hreq, hres]

theorem main_of_gt_one (profilePtr : Int) (net : Network) (h : 1 < profilePtr) :
    main profilePtr net = ([.profile profilePtr], .ret ()) := by
  unfold main
  have hneg : ¬ profilePtr < 0 := by omega
  simp [if_neg hneg, if_pos h]

/-- **C17 (as amended).** For the profile count `1` and for every negative count `main`
takes the single-request path: it calls `request` exactly once, whatever the network does,
and, when that returns a raw response on which `handleResponse` returns, it prints the
`Body`; for count `1` that line is the whole output, for a negative count the line
`Not a valid number of requests` precedes it.  For every count `≤ 1`, whatever the network
does, `main` never calls `profile`, the only caller of `calculateStats`.  For every count
`> 1`, whatever the network does, `main` calls `profile` with that count and does nothing
else.  What `main` requests and prints for the count `0` is not part of the statement. -/
theorem main_paths (profilePtr : Int) (net : Network) :
    (profilePtr = 1 ∨ profilePtr < 0 →
      List.count Event.request (main profilePtr net).1 = 1) ∧
    (profilePtr = 1 → ∀ (response_str : GoString) (elapsed : Int) (r : HTTPResponse),
      request net = .ret (response_str, elapsed) → handleResponse response_str = .ret r →
        main profilePtr net = ([.request, .println r.Body], .ret ())) ∧
    (profilePtr < 0 → ∀ (response_str : GoString) (elapsed : Int) (r : HTTPResponse),
      request net = .ret (response_str, elapsed) → handleResponse response_str = .ret r →
        main profilePtr net =
          ([.println "Not a valid number of requests".toList, .request, .println r.Body],
            .ret ())) ∧
    (profilePtr ≤ 1 → ∀ n, Event.profile n ∉ (main profilePtr net).1) ∧
    (1 < profilePtr → main profilePtr net = ([.profile profilePtr], .ret ())) := by
  refine ⟨?_, ?_, ?_, ?_, main_of_gt_one profilePtr net⟩
  · intro h
    obtain ⟨tail, htail, hev⟩ := main_events_of_le_one profilePtr net (by omega)
    have hc : List.count Event.request tail = 0 := by
      rw [List.count_eq_zero]
      intro hmem
      obtain ⟨text, ht⟩ := htail _ hmem
      cases ht
    rw [hev, List.count_append, List.count_cons_self, hc]
    by_cases hneg : profilePtr < 0
    · rw [if_pos hneg]
      rfl
    · rw [if_neg hneg]
      rfl
  · intro h response_str elapsed r hreq hres
    rw [main_of_le_one profilePtr net response_str elapsed r (by omega) hreq hres,
      if_neg (by omega)]
    rfl
  · intro h response_str elapsed r hreq hres
    rw [main_of_le_one profilePtr net response_str elapsed r (by omega) hreq hres, if_pos h]
    rfl
  · intro h n hmem
    obtain ⟨tail, htail, hev⟩ := main_events_of_le_one profilePtr net h
    rw [hev] at hmem
    rcases List.mem_append.mp hmem with hw | hr
    · by_cases hneg : profilePtr < 0
      · rw [if_pos hneg] at hw
        simp at hw
      · rw [if_neg hneg] at hw
        simp at hw
    · rcases List.mem_cons.mp hr with he | ht
      · cases he
      · obtain ⟨text, ht2⟩ := htail _ ht
        cases ht2

theorem main_paths_witness :
    (List.count Event.request (main 1 ⟨some "dial tcp: timeout", "<nil>", none, .ok [], 0⟩).1 = 1 ∧
      main 1 ⟨none, "", none, .ok "HTTP/1.0 200 OK\r\n\r\nbody".toList, 5000000⟩ =
        ([.request, .println "body".toList], .ret ())) ∧
    main (-3) ⟨none, "", none, .ok "HTTP/1.0 200 OK\r\n\r\nbody".toList, 5000000⟩ =
      ([.println "Not a valid number of requests".toList, .request, .println "body".toList],
        .ret ()) ∧
    (∀ n, Event.profile n ∉ (main 0 ⟨some "dial tcp: timeout", "<nil>", none, .ok [], 0⟩).1) ∧
    main 50 ⟨some "dial tcp: timeout", "<nil>", none, .ok [], 0⟩ =
      ([.profile 50], .ret ()) :=
  ⟨⟨(main_paths 1 ⟨some "dial tcp: timeout", "<nil>", none, .ok [], 0⟩).1 (Or.inl rfl),
      (main_paths 1 ⟨none, "", none, .ok "HTTP/1.0 200 OK\r\n\r\nbody".toList, 5000000⟩).2.1
        rfl "HTTP/1.0 200 OK\r\n\r\nbody".toList 5000000
        { Status := 200, Body := "body".toList } rfl (by decide)⟩,
    (main_paths (-3) ⟨none, "", none, .ok "HTTP/1.0 200 OK\r\n\r\nbody".toList, 5000000⟩).2.2.1
      (by decide) "HTTP/1.0 200 OK\r\n\r\nbody".toList 5000000
      { Status := 200, Body := "body".toList } rfl (by decide),
    (main_paths 0 ⟨some "dial tcp: timeout", "<nil>", none, .ok [], 0⟩).2.2.2.1 (by decide),
    (main_paths 50 ⟨some "dial tcp: timeout", "<nil>", none, .ok [], 0⟩).2.2.2.2 (by decide)⟩

/-- **C17, counterexample.** For the profile count `-1` the output of `main` is two lines,
the warning and the body, not the body alone. -/
theorem main_negative_counterexample :
    main (-1) ⟨none, "", none, .ok "HTTP/1.0 200 OK\r\n\r\nbody".toList, 5000000⟩ =
        ([.println "Not a valid number of requests".toList, .request,
          .println "body".toList], .ret ()) ∧
      (main (-1) ⟨none, "", none, .ok "HTTP/1.0 200 OK\r\n\r\nbody".toList, 5000000⟩).1 ≠
        [.request, .println "body".toList] := by
  have h : main (-1) ⟨none, "", none, .ok "HTTP/1.0 200 OK\r\n\r\nbody".toList, 5000000⟩ =
      ([.println "Not a valid number of requests".toList, .request,
        .println "body".toList], .ret ()) := by
    decide
  exact ⟨h, by rw [h]; decide⟩

/-! ## The goroutines and the channel -/

theorem step_launch_eq (count : Nat) (nets : Nat → Network) (s s2 : Sched)
    (h : step count nets s .launch = some s2) :
    s.launched < count ∧
      s2 = { s with launched := s.launched + 1, tasks := s.tasks ++ [Task.running] } := by
  simp only [step] at h
  by_cases hl : s.launched < count
  · rw [if_pos hl] at h
    exact ⟨hl, (Option.some.inj h).symm⟩
  · rw [if_neg hl] at h
    cases h

theorem step_compute_eq (count : Nat) (nets : Nat → Network) (s s2 : Sched) (j : Nat)
    (h : step count nets s (.compute j) = some s2) :
    ∃ prof, s.tasks[j]? = some .running ∧ asyncRequest (nets j) = .ret prof ∧
      s2 = { s with tasks := s.tasks.set j (.sending prof) } := by
  simp only [step] at h
  cases ht : s.tasks[j]? with
  | none => rw [ht] at h; cases h
  | some t =>
    rw [ht] at h
    cases t with
    | running =>
      simp only at h
      cases ha : asyncRequest (nets j) with
      | ret prof =>
        rw [ha] at h
        exact ⟨prof, rfl, rfl, (Option.some.inj h).symm⟩
      | exit o c => rw [ha] at h; cases h
      | panic => rw [ha] at h; cases h
    | sending p => cases h
    | finished => cases h

theorem step_receive_eq (count : Nat) (nets : Nat → Network) (s s2 : Sched) (j : Nat)
    (h : step count nets s (.receive j) = some s2) :
    s.launched = count ∧ s.received.length < count ∧
      ∃ prof, s.tasks[j]? = some (.sending prof) ∧
        s2 = { s with tasks := s.tasks.set j .finished,
                      received := s.received ++ [(j, prof)] } := by
  simp only [step] at h
  by_cases hg : s.launched = count ∧ s.received.length < count
  · rw [if_pos hg] at h
    refine ⟨hg.1, hg.2, ?_⟩
    cases ht : s.tasks[j]? with
    | none => rw [ht] at h; cases h
    | some t =>
      rw [ht] at h
      cases t with
      | running => cases h
      | sending p => exact ⟨p, rfl, (Option.some.inj h).symm⟩
      | finished => cases h
  · rw [if_neg hg] at h
    cases h

theorem getElem?_concat_some {α : Type} (l : List α) (a b : α) (j : Nat)
    (h : (l ++ [a])[j]? = some b) : l[j]? = some b ∨ (j = l.length ∧ a = b) := by
  by_cases hj : j < l.length
  · rw [List.getElem?_append_left hj] at h
    exact Or.inl h
  · rw [List.getElem?_append_right (by omega)] at h
    right
    by_cases h0 : j - l.length = 0
    · rw [h0] at h
      simp only [List.getElem?_cons_zero, Option.some.injEq] at h
      exact ⟨by omega, h⟩
    · have : [a][j - l.length]? = none := by
        apply List.getElem?_eq_none
        simp only [List.length_singleton]
        omega
      rw [this] at h
      cases h

theorem getElem?_lt {α : Type} (l : List α) (a : α) (j : Nat) (h : l[j]? = some a) :
    j < l.length := by
  obtain ⟨hj, _⟩ := List.getElem?_eq_some.mp h
  exact hj

theorem Sched.inv_init (count : Nat) (nets : Nat → Network) : Sched.init.Inv count nets := by
  refine ⟨rfl, Nat.zero_le _, ?_, ?_, ?_, ?_⟩
  · intro j prof h; simp [Sched.init] at h
  · intro j prof h; simp [Sched.init] at h
  · intro j h; simp [Sched.init] at h
  · simp [Sched.init]

/-- Every move keeps the invariant. -/
theorem Sched.inv_step (count : Nat) (nets : Nat → Network) (s s2 : Sched) (m : Move)
    (hinv : s.Inv count nets) (h : step count nets s m = some s2) : s2.Inv count nets := by
  obtain ⟨i1, i2, i3, i4, i5, i6⟩ := hinv
  cases m with
  | launch =>
    obtain ⟨hl, rfl⟩ := step_launch_eq count nets s s2 h
    refine ⟨?_, ?_, ?_, ?_, ?_, i6⟩
    · simp only [List.length_append, List.length_singleton, i1]
    · exact hl
    · intro j prof hj
      rcases getElem?_concat_some _ _ _ _ hj with h1 | ⟨_, h2⟩
      · exact i3 j prof h1
      · cases h2
    · intro j prof hj
      obtain ⟨h1, h2⟩ := i4 j prof hj
      refine ⟨?_, h2⟩
      show (s.tasks ++ [Task.running])[j]? = some Task.finished
      rw [List.getElem?_append_left (getElem?_lt _ _ _ h1)]
      exact h1
    · intro j hj
      rcases getElem?_concat_some _ _ _ _ hj with h1 | ⟨_, h2⟩
      · exact i5 j h1
      · cases h2
  | compute j =>
    obtain ⟨prof, ht, ha, rfl⟩ := step_compute_eq count nets s s2 j h
    have hjlt := getElem?_lt _ _ _ ht
    refine ⟨?_, i2, ?_, ?_, ?_, i6⟩
    · simp only [List.length_set, i1]
    · intro k p hk
      simp only [List.getElem?_set] at hk
      by_cases hjk : j = k
      · rw [if_pos hjk, if_pos hjlt] at hk
        cases hk
        rw [← hjk]; exact ha
      · rw [if_neg hjk] at hk
        exact i3 k p hk
    · intro k p hk
      obtain ⟨h1, h2⟩ := i4 k p hk
      refine ⟨?_, h2⟩
      have hjk : j ≠ k := by
        intro e; rw [e] at ht; rw [ht] at h1; cases h1
      show (s.tasks.set j (Task.sending prof))[k]? = some Task.finished
      rw [List.getElem?_set_ne hjk]
      exact h1
    · intro k hk
      simp only [List.getElem?_set] at hk
      by_cases hjk : j = k
      · rw [if_pos hjk, if_pos hjlt] at hk
        cases hk
      · rw [if_neg hjk] at hk
        exact i5 k hk
  | receive j =>
    obtain ⟨hl, hr, prof, ht, rfl⟩ := step_receive_eq count nets s s2 j h
    have hjlt := getElem?_lt _ _ _ ht
    have hjnot : j ∉ s.received.map Prod.fst := by
      intro hm
      obtain ⟨⟨k, p⟩, hkp, hk⟩ := List.mem_map.mp hm
      simp only at hk
      subst hk
      obtain ⟨h1, _⟩ := i4 k p hkp
      rw [ht] at h1
      cases h1
    refine ⟨?_, i2, ?_, ?_, ?_, ?_⟩
    · simp only [List.length_set, i1]
    · intro k p hk
      simp only [List.getElem?_set] at hk
      by_cases hjk : j = k
      · rw [if_pos hjk, if_pos hjlt] at hk
        cases hk
      · rw [if_neg hjk] at hk
        exact i3 k p hk
    · intro k p hk
      rcases List.mem_append.mp hk with hk | hk
      · obtain ⟨h1, h2⟩ := i4 k p hk
        refine ⟨?_, h2⟩
        have hjk : j ≠ k := by
          intro e; rw [e] at ht; rw [ht] at h1; cases h1
        show (s.tasks.set j Task.finished)[k]? = some Task.finished
        rw [List.getElem?_set_ne hjk]
        exact h1
      · simp only [List.mem_singleton, Prod.mk.injEq] at hk
        obtain ⟨rfl, rfl⟩ := hk
        refine ⟨?_, i3 k p ht⟩
        show (s.tasks.set k Task.finished)[k]? = some Task.finished
        rw [List.getElem?_set, if_pos rfl, if_pos hjlt]
    · intro k hk
      simp only [List.getElem?_set] at hk
      simp only [List.map_append, List.map_cons, List.map_nil, List.mem_append,
        List.mem_singleton]
      by_cases hjk : j = k
      · right; exact hjk.symm
      · rw [if_neg hjk] at hk
        left; exact i5 k hk
    · simp only [List.map_append, List.map_cons, List.map_nil]
      rw [List.nodup_append]
      refine ⟨i6, List.nodup_singleton j, ?_⟩
      intro a ha hb
      simp only [List.mem_singleton] at hb
      subst hb
      exact hjnot ha

/-- Every state reached from a state with the invariant has the invariant. -/
theorem Sched.inv_run (count : Nat) (nets : Nat → Network) (moves : List Move) (s s2 : Sched)
    (hinv : s.Inv count nets) (h : runMoves count nets s moves = some s2) :
    s2.Inv count nets := by
  induction moves generalizing s with
  | nil =>
    simp only [runMoves] at h
    cases h
    exact hinv
  | cons m ms ih =>
    simp only [runMoves] at h
    cases hs : step count nets s m with
    | none => rw [hs] at h; cases h
    | some s1 =>
      rw [hs] at h
      exact ih s1 (Sched.inv_step count nets s s1 m hinv hs) h

theorem sum_weight_set (l : List Task) (j : Nat) (a b : Task) (h : l[j]? = some a) :
    ((l.set j b).map Task.weight).sum + a.weight = (l.map Task.weight).sum + b.weight := by
  induction l generalizing j with
  | nil => simp at h
  | cons t rest ih =>
    cases j with
    | zero =>
      simp only [List.getElem?_cons_zero, Option.some.injEq] at h
      subst h
      simp only [List.set_cons_zero, List.map_cons, List.sum_cons]
      omega
    | succ k =>
      simp only [List.getElem?_cons_succ] at h
      have := ih k h
      simp only [List.set_cons_succ, List.map_cons, List.sum_cons]
      omega

/-- Every move uses up exactly one unit of the measure. -/
theorem Sched.measure_step (count : Nat) (nets : Nat → Network) (s s2 : Sched) (m : Move)
    (h : step count nets s m = some s2) : s.measure count = s2.measure count + 1 := by
  cases m with
  | launch =>
    obtain ⟨hl, rfl⟩ := step_launch_eq count nets s s2 h
    simp only [Sched.measure, List.map_append, List.map_cons, List.map_nil, List.sum_append,
      List.sum_cons, List.sum_nil, Task.weight]
    omega
  | compute j =>
    obtain ⟨prof, ht, _, rfl⟩ := step_compute_eq count nets s s2 j h
    have := sum_weight_set s.tasks j .running (.sending prof) ht
    simp only [Task.weight] at this
    simp only [Sched.measure]
    omega
  | receive j =>
    obtain ⟨_, _, prof, ht, rfl⟩ := step_receive_eq count nets s s2 j h
    have := sum_weight_set s.tasks j (.sending prof) .finished ht
    simp only [Task.weight] at this
    simp only [Sched.measure]
    omega

theorem Sched.measure_run (count : Nat) (nets : Nat → Network) (moves : List Move)
    (s s2 : Sched) (h : runMoves count nets s moves = some s2) :
    s.measure count = s2.measure count + moves.length := by
  induction moves generalizing s with
  | nil =>
    simp only [runMoves] at h
    cases h
    rfl
  | cons m ms ih =>
    simp only [runMoves] at h
    cases hs : step count nets s m with
    | none => rw [hs] at h; cases h
    | some s1 =>
      rw [hs] at h
      have h1 := Sched.measure_step count nets s s1 m hs
      have h2 := ih s1 h
      simp only [List.length_cons]
      omega

/-- The goroutines received from are distinct and among those started. -/
theorem Sched.received_length_le (count : Nat) (nets : Nat → Network) (s : Sched)
    (hinv : s.Inv count nets) :
    (s.received.map Prod.fst) ⊆ List.range s.launched ∧ s.received.length ≤ s.launched := by
  obtain ⟨i1, _, _, i4, _, i6⟩ := hinv
  have hsub : (s.received.map Prod.fst) ⊆ List.range s.launched := by
    intro j hj
    obtain ⟨⟨k, p⟩, hkp, hk⟩ := List.mem_map.mp hj
    simp only at hk
    subst hk
    have := getElem?_lt _ _ _ (i4 k p hkp).1
    rw [List.mem_range]
    omega
  refine ⟨hsub, ?_⟩
  have := (List.Nodup.subperm i6 hsub).length_le
  simpa using this

/-- No deadlock: in every reachable state in which `profile` has not finished its loops,
some move is possible, provided every `asyncRequest` returns. -/
theorem Sched.progress (count : Nat) (nets : Nat → Network) (s : Sched)
    (hret : ∀ j, j < count → ∃ prof, asyncRequest (nets j) = .ret prof)
    (hinv : s.Inv count nets) (hnd : ¬ s.done count) :
    ∃ m s2, step count nets s m = some s2 := by
  obtain ⟨hsub, hle⟩ := Sched.received_length_le count nets s hinv
  obtain ⟨i1, i2, i3, i4, i5, i6⟩ := hinv
  by_cases hl : s.launched < count
  · exact ⟨.launch, { s with launched := s.launched + 1, tasks := s.tasks ++ [Task.running] },
      by simp only [step, if_pos hl]⟩
  · have hlc : s.launched = count := by omega
    have hrl : s.received.length < count := by
      unfold Sched.done at hnd
      rcases Nat.lt_or_ge s.received.length count with h | h
      · exact h
      · exact absurd ⟨hlc, by omega⟩ hnd
    -- some goroutine has not been received from
    have hex : ∃ j, j < count ∧ j ∉ s.received.map Prod.fst := by
      by_contra hall
      push_neg at hall
      have hsub2 : List.range count ⊆ s.received.map Prod.fst := by
        intro j hj
        exact hall j (List.mem_range.mp hj)
      have := (List.Nodup.subperm (List.nodup_range count) hsub2).length_le
      simp only [List.length_range, List.length_map] at this
      omega
    obtain ⟨j, hj, hjn⟩ := hex
    have hjlt : j < s.tasks.length := by omega
    have hget : s.tasks[j]? = some (s.tasks[j]) := List.getElem?_eq_getElem hjlt
    cases ht : s.tasks[j] with
    | running =>
      rw [ht] at hget
      obtain ⟨prof, hp⟩ := hret j hj
      exact ⟨.compute j, { s with tasks := s.tasks.set j (.sending prof) },
        by simp only [step, hget, hp]⟩
    | sending prof =>
      rw [ht] at hget
      exact ⟨.receive j,
        { s with tasks := s.tasks.set j .finished, received := s.received ++ [(j, prof)] },
        by simp only [step, if_pos (And.intro hlc hrl), hget]⟩
    | finished =>
      rw [ht] at hget
      exact absurd (i5 j hget) hjn

/-- When both loops have ended, the measurements received are those of the goroutines
`0 .. count - 1`, each exactly once, in some order. -/
theorem Sched.received_perm (count : Nat) (nets : Nat → Network) (results : Nat → Profile)
    (s : Sched) (hret : ∀ j, j < count → asyncRequest (nets j) = .ret (results j))
    (hinv : s.Inv count nets) (hd : s.done count) :
    (s.received.map Prod.snd).Perm ((List.range count).map results) := by
  obtain ⟨hsub, _⟩ := Sched.received_length_le count nets s hinv
  obtain ⟨i1, i2, i3, i4, i5, i6⟩ := hinv
  obtain ⟨hl, hr⟩ := hd
  rw [hl] at hsub
  have hperm : (s.received.map Prod.fst).Perm (List.range count) :=
    (List.Nodup.subperm i6 hsub).perm_of_length_le (by simp [hr])
  have hsnd : s.received.map Prod.snd = (s.received.map Prod.fst).map results := by
    rw [List.map_map]
    apply List.map_congr_left
    intro x hx
    obtain ⟨k, p⟩ := x
    obtain ⟨h1, h2⟩ := i4 k p hx
    have hk : k < count := by
      have := getElem?_lt _ _ _ h1
      omega
    have := hret k hk
    rw [h2] at this
    simp only [Function.comp, Run.ret.injEq] at this ⊢
    exact this
  rw [hsnd]
  exact hperm.map results

/-- **C16.** `profile` starts `count` goroutines that run `asyncRequest` and send on one
unbuffered channel, and then receives `count` times.  Provided every `asyncRequest`
returns, in every state reached along any order of the steps: the run so far has at most
`3 * count` steps; if the loops of `profile` have not both ended, a further step is
possible (no deadlock); and once they have ended, exactly `count` measurements have been
received, those of the goroutines `0 .. count - 1` each exactly once, in the order of
arrival, and the collection loop on that sequence ends with `count` times. -/
theorem profile_fan_in (count : Nat) (nets : Nat → Network) (results : Nat → Profile)
    (hret : ∀ j, j < count → asyncRequest (nets j) = .ret (results j))
    (moves : List Move) (s : Sched)
    (hrun : runMoves count nets Sched.init moves = some s) :
    moves.length ≤ 3 * count ∧
    (¬ s.done count → ∃ m s2, step count nets s m = some s2) ∧
    (s.done count →
      (s.received.map Prod.snd).length = count ∧
      (s.received.map Prod.snd).Perm ((List.range count).map results) ∧
      ∃ c, collectLoop count 0 (s.received.map Prod.snd) {} = some c ∧
        c.respTimes.length = count) := by
  have hinv := Sched.inv_run count nets moves Sched.init s (Sched.inv_init count nets) hrun
  have hmeasure := Sched.measure_run count nets moves Sched.init s hrun
  refine ⟨?_, ?_, ?_⟩
  · have h0 : Sched.init.measure count = 3 * count := by
      simp [Sched.measure, Sched.init]
    omega
  · intro hnd
    exact Sched.progress count nets s (fun j hj => ⟨results j, hret j hj⟩) hinv hnd
  · intro hd
    have hlen : (s.received.map Prod.snd).length = count := by
      rw [List.length_map]; exact hd.2
    refine ⟨hlen, Sched.received_perm count nets results s hret hinv hd, ?_⟩
    obtain ⟨c, hc, h1, _, _, _⟩ := collectLoop_spec (count : Int) (s.received.map Prod.snd) 0 {}
      (by rw [hlen]; omega) (by decide)
    refine ⟨c, hc, ?_⟩
    rw [h1]
    simp only [List.length_append, List.length_map]
    have : ({} : Collected).respTimes.length = 0 := rfl
    rw [this, hd.2]
    omega

theorem profile_fan_in_witness :
    ((List.replicate 50 Move.launch ++ (List.range 50).map Move.compute ++
        (List.range 50).reverse.map Move.receive).length ≤ 3 * 50) ∧
      (((List.range 50).reverse.map fun j => (j, (⟨200, 5, 23⟩ : Profile))).map
        Prod.snd).length = 50 := by
  have hreq : asyncRequest ⟨none, "", none, .ok "HTTP/1.0 200 OK\r\n\r\nbody".toList, 5000000⟩ =
      .ret ⟨200, 5, 23⟩ := by decide
  have h := profile_fan_in 50
    (fun _ => ⟨none, "", none, .ok "HTTP/1.0 200 OK\r\n\r\nbody".toList, 5000000⟩)
    (fun _ => ⟨200, 5, 23⟩) (fun _ _ => hreq)
    (List.replicate 50 Move.launch ++ (List.range 50).map Move.compute ++
      (List.range 50).reverse.map Move.receive)
    ⟨50, List.replicate 50 Task.finished,
      (List.range 50).reverse.map fun j => (j, (⟨200, 5, 23⟩ : Profile))⟩
    (by decide)
  exact ⟨h.1, (h.2.2 ⟨rfl, by decide⟩).1⟩

end HTTPProfiler
